import Mathlib

/-!
# go-palletone: transaction ordering helpers and the filter event system

A shallow embedding of

* `dag/modules/transaction.go`: `Transaction.Hash`, `CopyFrTransaction`,
  `TxDifference`, `GetPriorityLvl`, and the views `TxByNonce`, `TxByPrice`,
  `TxByPriority`;
* `ptn/filters/filter_system.go`: the subscription index, `broadcast` and the
  install / uninstall cases of `eventLoop`.

Go slices are lists, Go maps are finite sets or association lists, unsigned
machine integers are naturals, and a run-time panic is `none`.  A `float64` is
a finite rational, an infinity or NaN; every `float64` operation rounds its
exact result to the nearest binary64 number, ties to even, and a comparison
with NaN is false.  `big.Int.Int64` keeps the low 64 bits.
-/

namespace modules

/-! ## Transactions -/

/-- The 32-byte `common.Hash`, read as a number; the zero value `common.Hash{}` is `0`. -/
abbrev Hash := Nat

/-- The fields of `Transaction` that `transaction.go` touches.  The struct and
its `Message` type are declared outside this file, so the message type is a
parameter `M`. -/
structure Transaction (M : Type) where
  TxHash : Hash
  TxMessages : List M
  Locktime : Nat
deriving DecidableEq, Repr

instance {M : Type} : Inhabited (Transaction M) := ⟨⟨0, [], 0⟩⟩

/-- The slice type `Transactions`. -/
abbrev Transactions (M : Type) := List (Transaction M)

/-- `CopyFrTransaction`, returning the receiver after the call.  `copyMsg msg`
is the value `*newMsg.CopyMessages(&msg)` for a fresh `newMsg`, and `zero` is
the zero value `Message{}`; both are declared outside this file.  The call
`make([]Message, len(cpy.TxMessages))` allocates `len(cpy.TxMessages)` zero
messages, and the loop then appends one copy per source message behind them. -/
def Transaction.CopyFrTransaction {M : Type} (copyMsg : M → M) (zero : M)
    (_tx cpy : Transaction M) : Transaction M :=
  let made : List M := List.replicate cpy.TxMessages.length zero
  { TxHash := cpy.TxHash
    Locktime := cpy.Locktime
    TxMessages := cpy.TxMessages.foldl (fun acc msg => acc ++ [copyMsg msg]) made }

/-- `Transaction.Hash`: copy into a fresh transaction, blank the stored hash,
and hash the RLP encoding.  `rlpHash` is `rlp.RlpHash`, declared outside this
file. -/
def Transaction.Hash {M : Type} (rlpHash : Transaction M → Hash) (copyMsg : M → M) (zero : M)
    (tx : Transaction M) : Hash :=
  let withoutSigTx : Transaction M :=
    Transaction.CopyFrTransaction copyMsg zero ⟨0, [], 0⟩ tx
  rlpHash { withoutSigTx with TxHash := 0 }

/-- `TxDifference(a, b)`.  The map `remove` of type `map[common.Hash]struct{}`
is a finite set of hashes; `keep` grows by `append` at the end.  `tx.Hash()` is
`Transaction.Hash` above. -/
def TxDifference {M : Type} (rlpHash : Transaction M → Hash) (copyMsg : M → M) (zero : M)
    (a b : Transactions M) : Transactions M :=
  let remove : Finset Hash := b.foldl (fun m tx => insert (tx.Hash rlpHash copyMsg zero) m) ∅
  a.foldl (fun keep tx => if tx.Hash rlpHash copyMsg zero ∈ remove then keep else keep ++ [tx]) []

/-! ## Pool transactions and their priority -/

/-- A Go `float64` by its value: a finite number, an infinity or NaN.  The
two zeros are not told apart (no operation below reads the sign of a zero:
the only zero divisor is the byte counter, which is `+0`).  A finite value
produced by the operations below is always a binary64 number. -/
inductive Float64 where
  | finite (q : ℚ)
  | posInf
  | negInf
  | nan
deriving DecidableEq, Repr

/-- The test `x != x`. -/
def Float64.isNaN : Float64 → Bool
  | Float64.nan => true
  | _ => false

/-- The place of a value that is not NaN in the order of the extended
rationals. -/
def Float64.key : Float64 → WithBot (WithTop ℚ)
  | Float64.finite q => ((q : WithTop ℚ) : WithBot (WithTop ℚ))
  | Float64.posInf => ((⊤ : WithTop ℚ) : WithBot (WithTop ℚ))
  | Float64.negInf => ⊥
  | Float64.nan => ⊥

/-- The Go comparison `a > b`: false as soon as one side is NaN. -/
def Float64.gt (a b : Float64) : Bool :=
  !a.isNaN && !b.isNaN && decide (b.key < a.key)

/-- The Go comparison `a >= b`: false as soon as one side is NaN. -/
def Float64.ge (a b : Float64) : Bool :=
  !a.isNaN && !b.isNaN && decide (b.key ≤ a.key)

/-- Rounding to the nearest integer, ties to the even one. -/
def roundHalfEven (x : ℚ) : ℤ :=
  let f := ⌊x⌋
  let r := x - f
  if r < 1 / 2 then f else if 1 / 2 < r then f + 1 else if f % 2 = 0 then f else f + 1

/-- The exponent of the unit in the last place of the binary64 numbers around
`q`: 52 below the binary exponent of `q`, and `-1074` in the subnormal range. -/
def quantumExp (q : ℚ) : ℤ := max (Int.log 2 |q| - 52) (-1074)

/-- The multiple of the unit in the last place nearest to `q`, ties to the
even multiple: IEEE 754 round-to-nearest-even with an unbounded exponent. -/
def roundNearest (q : ℚ) : ℚ :=
  (roundHalfEven (q / (2 : ℚ) ^ quantumExp q) : ℚ) * (2 : ℚ) ^ quantumExp q

/-- The rationals a finite binary64 can hold, the upper bound of the exponent
aside: a mantissa of at most 53 bits times a power of two not below `2^(-1074)`. -/
def IsFloat (x : ℚ) : Prop :=
  ∃ m e : ℤ, |m| ≤ 2 ^ 53 ∧ -1074 ≤ e ∧ x = (m : ℚ) * (2 : ℚ) ^ e

/-- The binary64 result of an operation whose exact value is `q`:
round-to-nearest-even, and an infinity once the rounded value reaches `2^1024`. -/
def Float64.round (q : ℚ) : Float64 :=
  if (2 : ℚ) ^ 1024 ≤ roundNearest q then Float64.posInf
  else if roundNearest q ≤ -(2 : ℚ) ^ 1024 then Float64.negInf
  else Float64.finite (roundNearest q)

/-- The conversion `float64(n)` of an integer. -/
def Float64.ofInt (n : ℤ) : Float64 := Float64.round (n : ℚ)

/-- The sum `a + b` of two `float64`. -/
def Float64.add : Float64 → Float64 → Float64
  | Float64.finite a, Float64.finite b => Float64.round (a + b)
  | Float64.nan, _ => Float64.nan
  | _, Float64.nan => Float64.nan
  | Float64.posInf, Float64.negInf => Float64.nan
  | Float64.negInf, Float64.posInf => Float64.nan
  | Float64.posInf, _ => Float64.posInf
  | _, Float64.posInf => Float64.posInf
  | Float64.negInf, _ => Float64.negInf
  | _, Float64.negInf => Float64.negInf

/-- The product `a * b` of two `float64`. -/
def Float64.mul : Float64 → Float64 → Float64
  | Float64.finite a, Float64.finite b => Float64.round (a * b)
  | Float64.nan, _ => Float64.nan
  | _, Float64.nan => Float64.nan
  | Float64.finite a, Float64.posInf =>
    if a = 0 then Float64.nan else if 0 < a then Float64.posInf else Float64.negInf
  | Float64.finite a, Float64.negInf =>
    if a = 0 then Float64.nan else if 0 < a then Float64.negInf else Float64.posInf
  | Float64.posInf, Float64.finite b =>
    if b = 0 then Float64.nan else if 0 < b then Float64.posInf else Float64.negInf
  | Float64.negInf, Float64.finite b =>
    if b = 0 then Float64.nan else if 0 < b then Float64.negInf else Float64.posInf
  | Float64.posInf, Float64.posInf => Float64.posInf
  | Float64.negInf, Float64.negInf => Float64.posInf
  | Float64.posInf, Float64.negInf => Float64.negInf
  | Float64.negInf, Float64.posInf => Float64.negInf

/-- The quotient `a / b` of two `float64`; a zero divisor is `+0`. -/
def Float64.div : Float64 → Float64 → Float64
  | Float64.finite a, Float64.finite b =>
    if b = 0 then
      if a = 0 then Float64.nan else if 0 < a then Float64.posInf else Float64.negInf
    else Float64.round (a / b)
  | Float64.nan, _ => Float64.nan
  | _, Float64.nan => Float64.nan
  | Float64.finite _, Float64.posInf => Float64.finite 0
  | Float64.finite _, Float64.negInf => Float64.finite 0
  | Float64.posInf, Float64.finite b => if 0 ≤ b then Float64.posInf else Float64.negInf
  | Float64.negInf, Float64.finite b => if 0 ≤ b then Float64.negInf else Float64.posInf
  | Float64.posInf, Float64.posInf => Float64.nan
  | Float64.posInf, Float64.negInf => Float64.nan
  | Float64.negInf, Float64.posInf => Float64.nan
  | Float64.negInf, Float64.negInf => Float64.nan

/-- `TxPoolTransaction`: the embedded `Transaction` and the pool fields. -/
structure TxPoolTransaction (M : Type) extends Transaction M where
  CreationDate : String
  Priority_lvl : Float64
  Nonce : Nat
  Pending : Bool
  Confirmed : Bool
  Extra : List Nat

/-- The slice type `TxPoolTxs`. -/
abbrev TxPoolTxs (M : Type) := List (TxPoolTransaction M)

/-- The initial value of the package variable `TXFEE`, `big.NewInt(5000000)`. -/
def TXFEE : Int := 5000000

/-- `Transaction.Fee`: the current value of the package variable `TXFEE`, a
`*big.Int`, whatever the transaction. -/
def Transaction.Fee {M : Type} (txfee : Int) (_tx : Transaction M) : Int := txfee

/-- The method `Int64` of `big.Int`: the low 64 bits of the absolute value,
read as an `int64`, and negated (in `int64`) for a negative number.  Inside
the `int64` range this is the number itself; outside it wraps. -/
def Int64 (x : Int) : Int :=
  let low : Int := ((x.natAbs % 2 ^ 64 : Nat) : Int)
  let v : Int := if low < 2 ^ 63 then low else low - 2 ^ 64
  if x < 0 then (if v = -(2 ^ 63) then v else -v) else v

/-- `writeCounter.Write`: `*c += writeCounter(len(b))`, a `float64` addition. -/
def writeCounter.Write (c : Float64) (len : Nat) : Float64 :=
  Float64.add c (Float64.ofInt (len : Int))

/-- `Transaction.Size`: a `writeCounter` starting at 0 receives the writes of
`rlp.Encode`.  `encode tx` lists the lengths of the byte slices that
`rlp.Encode`, declared outside this file, writes for `tx`. -/
def Transaction.Size {M : Type} (encode : Transaction M → List Nat) (tx : Transaction M) :
    Float64 :=
  (encode tx).foldl writeCounter.Write (Float64.finite 0)

/-- The text that `fmt.Sprintf("%f", x)` prints: a number with six fractional
digits (a sign, and the numbers its integer and fractional digit strings
denote), or one of `+Inf`, `-Inf`, `NaN`. -/
inductive FloatText where
  | num (neg : Bool) (int frac : Nat)
  | posInf
  | negInf
  | nan
deriving DecidableEq, Repr

/-- `fmt.Sprintf("%f", x)`: the exact value is cut to six decimals, to the
nearest, ties to even. -/
def Sprintf_f : Float64 → FloatText
  | Float64.finite x =>
    let k : Nat := (roundHalfEven (|x| * 10 ^ 6)).toNat
    FloatText.num (decide (x < 0)) (k / 10 ^ 6) (k % 10 ^ 6)
  | Float64.posInf => FloatText.posInf
  | Float64.negInf => FloatText.negInf
  | Float64.nan => FloatText.nan

/-- `strconv.ParseFloat(s, 64)` on such a text: the nearest `float64`. -/
def ParseFloat : FloatText → Float64
  | FloatText.num neg int frac =>
    Float64.round ((if neg then -1 else 1) * ((int : ℚ) + (frac : ℚ) / 10 ^ 6))
  | FloatText.posInf => Float64.posInf
  | FloatText.negInf => Float64.negInf
  | FloatText.nan => Float64.nan

/-- `TxPoolTransaction.GetPriorityLvl`.  Taken from outside the file:
`txfee` is the value of `TXFEE` that `tx.Fee()` returns, `encode` the writes of
`rlp.Encode` behind `tx.Size()`, `Hour s` the hour field of
`time.Parse(TimeFormatString, s)` and `nowHour` that of `time.Now()`.
The hour difference is an `int` subtraction, converted to `float64` before the
division by 24; every `float64` operation rounds. -/
def TxPoolTransaction.GetPriorityLvl {M : Type} (txfee : Int)
    (encode : Transaction M → List Nat) (Hour : String → Fin 24) (nowHour : Fin 24)
    (tx : TxPoolTransaction M) : Float64 :=
  if 0 < Int64 (tx.toTransaction.Fee txfee) then
    let t0Hour : Fin 24 := Hour tx.CreationDate
    ParseFloat (Sprintf_f
      (Float64.mul
        (Float64.div (Float64.ofInt (Int64 (tx.toTransaction.Fee txfee)))
          (tx.toTransaction.Size encode))
        (Float64.add (Float64.finite 1)
          (Float64.div (Float64.ofInt (((nowHour : ℕ) : ℤ) - ((t0Hour : ℕ) : ℤ)))
            (Float64.finite 24)))))
  else Float64.finite 0

/-- The priority formula in the words of the specification:
`(fee / size) * (1 + (hourOfDay(now) - hourOfDay(creation)) / 24)`, every
division a division of real numbers. -/
def priorityFormula (fee : ℤ) (size : ℕ) (nowHour t0Hour : Fin 24) : ℚ :=
  ((fee : ℚ) / (size : ℚ)) * (1 + (((nowHour : ℕ) : ℚ) - ((t0Hour : ℕ) : ℚ)) / 24)

/-- The same formula with every operation rounded to binary64, as `float64`
arithmetic evaluates it. -/
def priorityFloat (fee : ℤ) (size : ℕ) (nowHour t0Hour : Fin 24) : ℚ :=
  roundNearest
    (roundNearest (roundNearest (fee : ℚ) / (size : ℚ))
      * roundNearest (1 + roundNearest
          (((((nowHour : ℕ) : ℤ) - ((t0Hour : ℕ) : ℤ) : ℤ) : ℚ) / 24)))

/-- `SetPriorityLvl`. -/
def TxPoolTransaction.SetPriorityLvl {M : Type} (tx : TxPoolTransaction M) (priority : Float64) :
    TxPoolTransaction M :=
  { tx with Priority_lvl := priority }

/-- The zero value of `TxPoolTransaction`. -/
instance {M : Type} : Inhabited (TxPoolTransaction M) :=
  ⟨{ TxHash := 0, TxMessages := [], Locktime := 0, CreationDate := "",
     Priority_lvl := Float64.finite 0,
     Nonce := 0, Pending := false, Confirmed := false, Extra := [] }⟩

/-! ## The sorting and heap views

An index expression `s[i]` reads the list at `i`; the callers in `sort` and
`container/heap` only pass indices below `Len()`, where Go does not panic. -/

/-- The view `TxByNonce`. -/
abbrev TxByNonce (M : Type) := TxPoolTxs M

/-- `TxByNonce.Len`. -/
def TxByNonce.Len {M : Type} (s : TxByNonce M) : Nat := s.length

/-- `TxByNonce.Less`: `s[i].Nonce < s[j].Nonce`. -/
def TxByNonce.Less {M : Type} (s : TxByNonce M) (i j : Nat) : Bool :=
  decide ((s.getD i default).Nonce < (s.getD j default).Nonce)

/-- `TxByNonce.Swap`: `s[i], s[j] = s[j], s[i]`. -/
def TxByNonce.Swap {M : Type} (s : TxByNonce M) (i j : Nat) : TxByNonce M :=
  (s.set i (s.getD j default)).set j (s.getD i default)

/-- The view `TxByPrice`.  The source declares `Len`, `Swap`, `Push` and `Pop`
for it, and no `Less`. -/
abbrev TxByPrice (M : Type) := TxPoolTxs M

/-- `TxByPrice.Len`. -/
def TxByPrice.Len {M : Type} (s : TxByPrice M) : Nat := s.length

/-- `TxByPrice.Swap`. -/
def TxByPrice.Swap {M : Type} (s : TxByPrice M) (i j : Nat) : TxByPrice M :=
  (s.set i (s.getD j default)).set j (s.getD i default)

/-- `TxByPrice.Push`: `*s = append(*s, x)`. -/
def TxByPrice.Push {M : Type} (s : TxByPrice M) (x : TxPoolTransaction M) : TxByPrice M :=
  s ++ [x]

/-- `TxByPrice.Pop`: the last element `old[n-1]` and the rest `old[0 : n-1]`; on
an empty slice the index expression panics. -/
def TxByPrice.Pop {M : Type} (s : TxByPrice M) : Option (TxPoolTransaction M × TxByPrice M) :=
  match s.getLast? with
  | none => none
  | some x => some (x, s.take (s.length - 1))

/-- The view `TxByPriority`. -/
abbrev TxByPriority (M : Type) := List (TxPoolTransaction M)

/-- `TxByPriority.Len`. -/
def TxByPriority.Len {M : Type} (s : TxByPriority M) : Nat := s.length

/-- `TxByPriority.Less`: `s[i].Priority_lvl > s[j].Priority_lvl`. -/
def TxByPriority.Less {M : Type} (s : TxByPriority M) (i j : Nat) : Bool :=
  Float64.gt (s.getD i default).Priority_lvl (s.getD j default).Priority_lvl

/-- `TxByPriority.Swap`. -/
def TxByPriority.Swap {M : Type} (s : TxByPriority M) (i j : Nat) : TxByPriority M :=
  (s.set i (s.getD j default)).set j (s.getD i default)

/-- `TxByPriority.Push`. -/
def TxByPriority.Push {M : Type} (s : TxByPriority M) (x : TxPoolTransaction M) :
    TxByPriority M :=
  s ++ [x]

/-- `TxByPriority.Pop`. -/
def TxByPriority.Pop {M : Type} (s : TxByPriority M) :
    Option (TxPoolTransaction M × TxByPriority M) :=
  match s.getLast? with
  | none => none
  | some x => some (x, s.take (s.length - 1))

/-- The methods a Go type can declare for the two interfaces. -/
inductive Method where
  | Len | Less | Swap | Push | Pop
deriving DecidableEq, Repr

/-- The method set of `sort.Interface`. -/
def sortInterfaceMethods : List Method := [Method.Len, Method.Less, Method.Swap]

/-- The method set of `heap.Interface`: `sort.Interface`, `Push` and `Pop`. -/
def heapInterfaceMethods : List Method := sortInterfaceMethods ++ [Method.Push, Method.Pop]

/-- The methods `transaction.go` declares on `TxByNonce`. -/
def TxByNonce.methods : List Method := [Method.Len, Method.Less, Method.Swap]

/-- The methods `transaction.go` declares on `TxByPrice`. -/
def TxByPrice.methods : List Method := [Method.Len, Method.Swap, Method.Push, Method.Pop]

/-- The methods `transaction.go` declares on `TxByPriority`. -/
def TxByPriority.methods : List Method :=
  [Method.Len, Method.Less, Method.Swap, Method.Push, Method.Pop]

/-- The event `modules.TxPreEvent`, a struct around the admitted pool transaction. -/
structure TxPreEvent (M : Type) where
  Tx : TxPoolTransaction M

end modules

namespace heap

/-! ## The standard package `container/heap`

The generic heap algorithms of the Go standard library, which reach the
collection through `heap.Interface` only.  Indices are naturals: the one place
where Go computes a negative number, `(j - 1) / 2` at `j = 0`, truncates to `0`
in both. -/

/-- The interface `heap.Interface` over a collection type `σ` with elements
`X`; `Pop` is `none` where the implementation panics. -/
structure Interface (σ X : Type) where
  Len : σ → Nat
  Less : σ → Nat → Nat → Bool
  Swap : σ → Nat → Nat → σ
  Push : σ → X → σ
  Pop : σ → Option (X × σ)

/-- The loop of `heap.down`, at most `fuel` rounds.  The test `j1 < 0`, which
catches an `int` overflow of `2*i + 1`, has no counterpart on naturals. -/
def downLoop {σ X : Type} (h : Interface σ X) : Nat → σ → Nat → Nat → σ
  | 0, s, _, _ => s
  | fuel + 1, s, i, n =>
    let j1 := 2 * i + 1
    if n ≤ j1 then s
    else
      let j := if j1 + 1 < n ∧ h.Less s (j1 + 1) j1 = true then j1 + 1 else j1
      if h.Less s j i = false then s
      else downLoop h fuel (h.Swap s i j) j n

/-- `heap.down(h, i0, n)`, the collection afterwards.  Each round moves `i` to
a child, so `n` rounds are enough; the boolean result, which only `Fix` and
`Remove` read, is dropped. -/
def down {σ X : Type} (h : Interface σ X) (s : σ) (i0 n : Nat) : σ :=
  downLoop h n s i0 n

/-- The loop of `heap.up`, at most `fuel` rounds. -/
def upLoop {σ X : Type} (h : Interface σ X) : Nat → σ → Nat → σ
  | 0, s, _ => s
  | fuel + 1, s, j =>
    let i := (j - 1) / 2
    if i = j ∨ h.Less s j i = false then s
    else upLoop h fuel (h.Swap s i j) i

/-- `heap.up(h, j)`; each round moves `j` to its parent, so `j` rounds are enough. -/
def up {σ X : Type} (h : Interface σ X) (s : σ) (j : Nat) : σ :=
  upLoop h j s j

/-- `heap.Init`: `down(h, i, n)` for `i = n/2 - 1` down to `0`. -/
def Init {σ X : Type} (h : Interface σ X) (s : σ) : σ :=
  let n := h.Len s
  (List.range (n / 2)).reverse.foldl (fun s i => down h s i n) s

/-- `heap.Push`: `h.Push(x)` and then `up(h, h.Len()-1)`. -/
def Push {σ X : Type} (h : Interface σ X) (s : σ) (x : X) : σ :=
  let s1 := h.Push s x
  up h s1 (h.Len s1 - 1)

/-- `heap.Pop`: swap the root with the last element, sift the new root down
over the first `n` elements, and take the last element off with `h.Pop()`.  On
an empty collection `n` is `-1` and `h.Swap(0, n)` panics. -/
def Pop {σ X : Type} (h : Interface σ X) (s : σ) : Option (X × σ) :=
  if h.Len s = 0 then none
  else
    let n := h.Len s - 1
    let s1 := h.Swap s 0 n
    let s2 := down h s1 0 n
    h.Pop s2

/-- Popping until the collection is empty, at most `fuel` times: the
elements in the order they come out. -/
def popAll {σ X : Type} (h : Interface σ X) : Nat → σ → List X
  | 0, _ => []
  | fuel + 1, s =>
    match Pop h s with
    | none => []
    | some (x, s1) => x :: popAll h fuel s1

end heap

namespace modules

/-- The view `TxByPriority` as a `heap.Interface`. -/
def TxByPriority.heapInterface (M : Type) :
    heap.Interface (TxByPriority M) (TxPoolTransaction M) :=
  { Len := TxByPriority.Len
    Less := TxByPriority.Less
    Swap := TxByPriority.Swap
    Push := TxByPriority.Push
    Pop := TxByPriority.Pop }

/-- The heap condition of `container/heap` on the first `n` elements: no
element is `Less` than its parent. -/
def TxByPriority.IsHeap {M : Type} (s : TxByPriority M) (n : Nat) : Prop :=
  ∀ j, 0 < j → j < n → TxByPriority.Less s j ((j - 1) / 2) = false

/-- No element of the collection has the priority NaN. -/
def TxByPriority.NoNaN {M : Type} (s : TxByPriority M) : Prop :=
  ∀ x ∈ s, x.Priority_lvl.isNaN = false

/-- The priority stored at index `k`, by its place in the order. -/
def TxByPriority.prio {M : Type} (s : TxByPriority M) (k : Nat) : WithBot (WithTop ℚ) :=
  (s.getD k default).Priority_lvl.key

/-- The heap condition on the first `n` elements for the parents at index
`lo` and above. -/
def TxByPriority.IsHeapFrom {M : Type} (s : TxByPriority M) (n lo : Nat) : Prop :=
  ∀ j, 0 < j → j < n → lo ≤ (j - 1) / 2 →
    TxByPriority.prio s j ≤ TxByPriority.prio s ((j - 1) / 2)

/-- The condition `IsHeapFrom` with the element at `i` possibly too small for
its children: every other parent-child pair is in order, and the children of
`i` are in order with the parent of `i`. -/
def TxByPriority.HeapExcept {M : Type} (s : TxByPriority M) (n lo i : Nat) : Prop :=
  (∀ j, 0 < j → j < n → lo ≤ (j - 1) / 2 → (j - 1) / 2 ≠ i →
      TxByPriority.prio s j ≤ TxByPriority.prio s ((j - 1) / 2))
  ∧ (∀ j, 0 < j → j < n → (j - 1) / 2 = i → 0 < i → lo ≤ (i - 1) / 2 →
      TxByPriority.prio s j ≤ TxByPriority.prio s ((i - 1) / 2))

/-- The condition `IsHeap` with the element at `j` possibly too large for its
parent: every other parent-child pair is in order, and the children of `j`
are in order with the parent of `j`. -/
def TxByPriority.UpExcept {M : Type} (s : TxByPriority M) (n j : Nat) : Prop :=
  (∀ c, 0 < c → c < n → c ≠ j →
      TxByPriority.prio s c ≤ TxByPriority.prio s ((c - 1) / 2))
  ∧ (∀ c, 0 < c → c < n → (c - 1) / 2 = j → 0 < j →
      TxByPriority.prio s c ≤ TxByPriority.prio s ((j - 1) / 2))

/-- A pool transaction with no messages, used to evaluate the priority. -/
def sampleTx : TxPoolTransaction Nat :=
  { TxHash := 0, TxMessages := [], Locktime := 0, CreationDate := "",
    Priority_lvl := Float64.finite 0,
    Nonce := 0, Pending := false, Confirmed := false, Extra := [] }

/-- A pool transaction that differs from `sampleTx` in its nonce only. -/
def nonceTx (n : Nat) : TxPoolTransaction Nat := { sampleTx with Nonce := n }

/-- A pool transaction that differs from `sampleTx` in its priority only. -/
def prioTx (q : ℚ) : TxPoolTransaction Nat := { sampleTx with Priority_lvl := Float64.finite q }

/-- A pool transaction whose priority has been set to NaN. -/
def nanTx : TxPoolTransaction Nat := sampleTx.SetPriorityLvl Float64.nan

end modules

namespace filters

/-! ## The filter event system -/

/-- The Go type `Type`, a `byte`. -/
abbrev Typ := Fin 256

abbrev UnknownSubscription : Typ := 0
abbrev LogsSubscription : Typ := 1
abbrev PendingLogsSubscription : Typ := 2
abbrev MinedAndPendingLogsSubscription : Typ := 3
abbrev PendingTransactionsSubscription : Typ := 4
abbrev BlocksSubscription : Typ := 5
abbrev LastIndexSubscription : Typ := 6

/-- The subscription identifier `rpc.ID`, a string. -/
abbrev ID := String

/-- A channel, named by a number; channels of different element types are
kept apart by the actions below. -/
abbrev Chan := Nat

/-- The struct `subscription`; `created` and `logsCrit` play no part in the
worker loop and are left out. -/
structure subscription where
  id : ID
  typ : Typ
  hashes : Chan
  headers : Chan
  installed : Chan
  err : Chan
deriving DecidableEq, Repr

/-- One bucket of the index, `map[rpc.ID]*subscription`: an association list
with distinct keys.  Ranging over it visits the entries in list order; Go
leaves that order open. -/
abbrev Bucket := AList (fun _ : ID => subscription)

/-- The index `filterIndex`, `map[Type]map[rpc.ID]*subscription`; `none` is the
nil map that a missing key reads as. -/
abbrev filterIndex := Typ → Option Bucket

/-- What the worker does to channels: a send on a `chan common.Hash` (which
returns once the receiver has taken the value), the close of a
`chan struct{}` and the close of a `chan error`. -/
inductive Action where
  | send (ch : Chan) (h : modules.Hash)
  | closeInstalled (ch : Chan)
  | closeErr (ch : Chan)
deriving DecidableEq, Repr

/-- The dynamic value of `ev interface{}` in `broadcast`: a
`modules.TxPreEvent` or a value of some other type; the nil interface is
`none`. -/
inductive Event (M : Type) where
  | TxPreEvent (e : modules.TxPreEvent M)
  | other

/-- `EventSystem.broadcast`, returning the sends it performs in order. -/
def broadcast {M : Type} (filters : filterIndex) (ev : Option (Event M)) : List Action :=
  match ev with
  | none => []
  | some (Event.TxPreEvent e) =>
    match filters PendingTransactionsSubscription with
    | none => []
    | some bucket => bucket.entries.map (fun f => Action.send f.2.hashes e.Tx.TxHash)
  | some Event.other => []

/-- The state of the worker: its index and the channel actions done so far. -/
structure State where
  index : filterIndex
  trace : List Action

/-- The loop at the head of `eventLoop` that gives every type below
`LastIndexSubscription` an empty bucket. -/
def initIndex : filterIndex :=
  ((List.finRange 256).takeWhile (fun i => decide (i < LastIndexSubscription))).foldl
    (fun index i => Function.update index i (some ∅))
    (fun _ => none)

/-- The state in which `eventLoop` enters its `for`/`select`. -/
def initState : State := { index := initIndex, trace := [] }

/-- The assignment `index[t][f.id] = f`; writing into a nil map panics. -/
def assign (index : filterIndex) (t : Typ) (f : subscription) : Option filterIndex :=
  match index t with
  | none => none
  | some bucket => some (Function.update index t (some (bucket.insert f.id f)))

/-- The statement `delete(index[t], id)`; on a nil map it does nothing. -/
def delete (index : filterIndex) (t : Typ) (id : ID) : filterIndex :=
  match index t with
  | none => index
  | some bucket => Function.update index t (some (bucket.erase id))

/-- The statement `close(ch)`; closing a closed channel panics. -/
def close (trace : List Action) (a : Action) : Option (List Action) :=
  if a ∈ trace then none else some (trace ++ [a])

/-- What `eventLoop` receives in its `select`. -/
inductive Msg (M : Type) where
  | ev (e : modules.TxPreEvent M)
  | install (f : subscription)
  | uninstall (f : subscription)
  | stop

/-- One pass through the `select` of `eventLoop` for the cases that stay in
the loop; `none` is a panic. -/
def step {M : Type} (s : State) : Msg M → Option State
  | Msg.ev e =>
    some { s with trace := s.trace ++ broadcast s.index (some (Event.TxPreEvent e)) }
  | Msg.install f => do
    let index ←
      if f.typ = MinedAndPendingLogsSubscription then
        (assign s.index LogsSubscription f).bind
          (fun index => assign index PendingLogsSubscription f)
      else
        assign s.index f.typ f
    let trace ← close s.trace (Action.closeInstalled f.installed)
    pure { index := index, trace := trace }
  | Msg.uninstall f => do
    let index :=
      if f.typ = MinedAndPendingLogsSubscription then
        delete (delete s.index LogsSubscription f.id) PendingLogsSubscription f.id
      else
        delete s.index f.typ f.id
    let trace ← close s.trace (Action.closeErr f.err)
    pure { index := index, trace := trace }
  | Msg.stop => some s

/-- The loop of `eventLoop` over the messages it receives, from state `s`; it
returns at the first `stop` (the case `<-txSub.Err()`). -/
def run {M : Type} (s : State) : List (Msg M) → Option State
  | [] => some s
  | Msg.stop :: _ => some s
  | m :: rest => (step s m).bind (fun s1 => run s1 rest)

/-- The worker `eventLoop` from its start. -/
def eventLoop {M : Type} (msgs : List (Msg M)) : Option State := run initState msgs

/-- The subscription stored under `id` in the bucket of type `t`, if any. -/
def present (index : filterIndex) (t : Typ) (id : ID) : Option subscription :=
  (index t).bind (fun bucket => bucket.lookup id)

/-- The subscriptions held in the bucket of type `t`, in ranging order. -/
def held (index : filterIndex) (t : Typ) : List subscription :=
  match index t with
  | none => []
  | some bucket => bucket.entries.map (fun f => f.2)

/-- Every entry of the `PendingTransactionsSubscription` bucket sits under its
own ID and has that type: what the install case writes. -/
def Keyed (index : filterIndex) : Prop :=
  ∀ id g, present index PendingTransactionsSubscription id = some g →
    g.id = id ∧ g.typ = PendingTransactionsSubscription

/-- A subscription of the composite type, as `subscribe` would hand it to the worker. -/
def sampleMined : subscription :=
  { id := "0x1", typ := MinedAndPendingLogsSubscription, hashes := 1, headers := 2,
    installed := 3, err := 4 }

/-- A subscription of pending transactions, as `SubscribePendingTxEvents` makes it. -/
def samplePending : subscription :=
  { id := "0x2", typ := PendingTransactionsSubscription, hashes := 5, headers := 6,
    installed := 7, err := 8 }

/-- A second subscription made by `SubscribePendingTxEvents` for a caller that
passes the `hashes` channel of `samplePending` again. -/
def sharingPending : subscription :=
  { id := "0x3", typ := PendingTransactionsSubscription, hashes := 5, headers := 9,
    installed := 10, err := 11 }

/-- A pending-transaction event. -/
def sampleEvent : modules.TxPreEvent Nat := { Tx := modules.sampleTx }

end filters

namespace modules

/-! ## Facts about `TxDifference` -/

theorem mem_remove_fold {M : Type} (hash : Transaction M → Hash) (b : Transactions M)
    (init : Finset Hash) (h : Hash) :
    h ∈ b.foldl (fun m tx => insert (hash tx) m) init ↔ h ∈ init ∨ ∃ y ∈ b, hash y = h := by
  induction b generalizing init with
  | nil => simp
  | cons y ys ih =>
    simp only [List.foldl_cons, ih, Finset.mem_insert, List.mem_cons, exists_eq_or_imp]
    constructor
    · rintro ((rfl | h1) | h2)
      · exact Or.inr (Or.inl rfl)
      · exact Or.inl h1
      · exact Or.inr (Or.inr h2)
    · rintro (h1 | h2 | h3)
      · exact Or.inl (Or.inr h1)
      · exact Or.inl (Or.inl h2.symm)
      · exact Or.inr h3

theorem keep_fold {M : Type} (p : Transaction M → Bool) (a : Transactions M)
    (init : Transactions M) :
    a.foldl (fun keep tx => if p tx then keep else keep ++ [tx]) init
      = init ++ a.filter (fun tx => !p tx) := by
  induction a generalizing init with
  | nil => simp
  | cons x xs ih =>
    simp only [List.foldl_cons, ih, List.filter_cons]
    cases p x <;> simp

theorem TxDifference_eq_filter {M : Type} (rlpHash : Transaction M → Hash) (copyMsg : M → M)
    (zero : M) (a b : Transactions M) :
    TxDifference rlpHash copyMsg zero a b
      = a.filter (fun tx => decide (∀ y ∈ b,
          y.Hash rlpHash copyMsg zero ≠ tx.Hash rlpHash copyMsg zero)) := by
  unfold TxDifference
  have h := keep_fold
    (fun tx => decide (tx.Hash rlpHash copyMsg zero ∈
      b.foldl (fun m tx => insert (tx.Hash rlpHash copyMsg zero) m) (∅ : Finset Hash))) a []
  simp only [decide_eq_true_eq, List.nil_append] at h
  rw [h]
  apply List.filter_congr
  intro x _
  by_cases hx : ∃ y ∈ b, y.Hash rlpHash copyMsg zero = x.Hash rlpHash copyMsg zero
  · have hn : ¬ ∀ y ∈ b, y.Hash rlpHash copyMsg zero ≠ x.Hash rlpHash copyMsg zero :=
      fun hall => hx.elim fun y hy => hall y hy.1 hy.2
    simp [mem_remove_fold, hx, hn]
  · have hn : ∀ y ∈ b, y.Hash rlpHash copyMsg zero ≠ x.Hash rlpHash copyMsg zero :=
      fun y hy he => hx ⟨y, hy, he⟩
    simp [mem_remove_fold, hx]
    exact hn

/-- C1: `TxDifference(a, b)` is the sub-list of `a`, in the order of `a`, of the
elements whose hash is the hash of no element of `b`; so it holds no element
whose hash occurs in `b`, and it drops no element whose hash does not. -/
theorem TxDifference_spec {M : Type} (rlpHash : Transaction M → Hash) (copyMsg : M → M)
    (zero : M) (a b : Transactions M) :
    TxDifference rlpHash copyMsg zero a b
      = a.filter (fun tx => decide (∀ y ∈ b,
          y.Hash rlpHash copyMsg zero ≠ tx.Hash rlpHash copyMsg zero))
    ∧ List.Sublist (TxDifference rlpHash copyMsg zero a b) a
    ∧ (∀ x ∈ TxDifference rlpHash copyMsg zero a b, ∀ y ∈ b,
        y.Hash rlpHash copyMsg zero ≠ x.Hash rlpHash copyMsg zero)
    ∧ (∀ x ∈ a, (∀ y ∈ b, y.Hash rlpHash copyMsg zero ≠ x.Hash rlpHash copyMsg zero) →
        x ∈ TxDifference rlpHash copyMsg zero a b) := by
  have h := TxDifference_eq_filter rlpHash copyMsg zero a b
  refine ⟨h, ?_, ?_, ?_⟩
  · rw [h]; exact List.filter_sublist a
  · intro x hx
    rw [h, List.mem_filter] at hx
    simpa using hx.2
  · intro x hx hy
    rw [h, List.mem_filter]
    exact ⟨hx, by simpa using hy⟩

/-- C2: `TxDifference(a, a)` is the empty list. -/
theorem TxDifference_self {M : Type} (rlpHash : Transaction M → Hash) (copyMsg : M → M)
    (zero : M) (a : Transactions M) :
    TxDifference rlpHash copyMsg zero a a = [] := by
  rw [TxDifference_eq_filter, List.filter_eq_nil_iff]
  intro x hx
  simp only [decide_eq_true_eq, not_forall]
  exact ⟨x, hx, fun h => h rfl⟩

/-- C3: `TxDifference(a, [])` is `a` itself: same elements, same order, same length. -/
theorem TxDifference_nil {M : Type} (rlpHash : Transaction M → Hash) (copyMsg : M → M)
    (zero : M) (a : Transactions M) :
    TxDifference rlpHash copyMsg zero a [] = a
    ∧ (TxDifference rlpHash copyMsg zero a []).length = a.length := by
  have h : TxDifference rlpHash copyMsg zero a [] = a := by
    rw [TxDifference_eq_filter]
    simp
  exact ⟨h, by rw [h]⟩

/-! ## Facts about rounding to `float64` -/

theorem roundHalfEven_abs_sub_le (y : ℚ) : |(roundHalfEven y : ℚ) - y| ≤ 1 / 2 := by
  have h1 : (⌊y⌋ : ℚ) ≤ y := Int.floor_le y
  have h2 : y < (⌊y⌋ : ℚ) + 1 := Int.lt_floor_add_one y
  unfold roundHalfEven
  simp only
  split_ifs with ha hb hc
  · rw [abs_le]; constructor <;> linarith
  · push_cast; rw [abs_le]; constructor <;> linarith
  · rw [abs_le]; constructor <;> linarith
  · push_cast; rw [abs_le]; constructor <;> linarith

theorem roundHalfEven_intCast (k : ℤ) : roundHalfEven (k : ℚ) = k := by
  unfold roundHalfEven
  simp

theorem roundHalfEven_nonneg {y : ℚ} (h : 0 ≤ y) : 0 ≤ roundHalfEven y := by
  have h0 : 0 ≤ ⌊y⌋ := Int.floor_nonneg.mpr h
  unfold roundHalfEven
  simp only
  split_ifs <;> omega

/-- No integer is nearer to `t` than `roundHalfEven t`. -/
theorem roundHalfEven_nearest (t : ℚ) (k : ℤ) :
    |(roundHalfEven t : ℚ) - t| ≤ |(k : ℚ) - t| := by
  by_contra hlt
  push_neg at hlt
  have h1 := roundHalfEven_abs_sub_le t
  have h2 : |((k - roundHalfEven t : ℤ) : ℚ)| < 1 := by
    have e : ((k - roundHalfEven t : ℤ) : ℚ) = ((k : ℚ) - t) - ((roundHalfEven t : ℚ) - t) := by
      push_cast; ring
    rw [e]
    calc |((k : ℚ) - t) - ((roundHalfEven t : ℚ) - t)|
        ≤ |(k : ℚ) - t| + |(roundHalfEven t : ℚ) - t| := abs_sub _ _
      _ < 1 / 2 + 1 / 2 := by linarith
      _ = 1 := by norm_num
  have h3 : |k - roundHalfEven t| < 1 := by exact_mod_cast h2
  have h4 : k - roundHalfEven t = 0 := Int.abs_lt_one_iff.mp h3
  have h5 : k = roundHalfEven t := by omega
  rw [h5] at hlt
  exact lt_irrefl _ hlt

theorem abs_roundHalfEven_le (t : ℚ) (n : ℤ) (h : |t| ≤ (n : ℚ)) : |roundHalfEven t| ≤ n := by
  have h1 := roundHalfEven_abs_sub_le t
  rw [abs_le] at h h1 ⊢
  have ha : ((roundHalfEven t : ℤ) : ℚ) < (n : ℚ) + 1 := by linarith [h.2, h1.2]
  have hb : -(n : ℚ) - 1 < ((roundHalfEven t : ℤ) : ℚ) := by linarith [h.1, h1.1]
  have ha' : roundHalfEven t < n + 1 := by exact_mod_cast ha
  have hb' : -n - 1 < roundHalfEven t := by exact_mod_cast hb
  constructor <;> omega

theorem two_zpow_pos (e : ℤ) : (0 : ℚ) < (2 : ℚ) ^ e := zpow_pos (by norm_num) e

theorem quantumExp_ge (q : ℚ) : -1074 ≤ quantumExp q := le_max_right _ _

/-- The rounding error is at most half a unit in the last place. -/
theorem roundNearest_abs_sub_le (q : ℚ) :
    |roundNearest q - q| ≤ (2 : ℚ) ^ quantumExp q / 2 := by
  have hu := two_zpow_pos (quantumExp q)
  have h := roundHalfEven_abs_sub_le (q / (2 : ℚ) ^ quantumExp q)
  have e : roundNearest q - q
      = ((roundHalfEven (q / (2 : ℚ) ^ quantumExp q) : ℚ) - q / (2 : ℚ) ^ quantumExp q)
        * (2 : ℚ) ^ quantumExp q := by
    unfold roundNearest
    field_simp
  rw [e, abs_mul, abs_of_pos hu]
  calc _ ≤ 1 / 2 * (2 : ℚ) ^ quantumExp q := mul_le_mul_of_nonneg_right h (le_of_lt hu)
    _ = (2 : ℚ) ^ quantumExp q / 2 := by ring

theorem roundNearest_nonneg {q : ℚ} (h : 0 ≤ q) : 0 ≤ roundNearest q := by
  unfold roundNearest
  have hu := two_zpow_pos (quantumExp q)
  have h1 : 0 ≤ roundHalfEven (q / (2 : ℚ) ^ quantumExp q) :=
    roundHalfEven_nonneg (div_nonneg h (le_of_lt hu))
  have h2 : (0 : ℚ) ≤ (roundHalfEven (q / (2 : ℚ) ^ quantumExp q) : ℚ) := by exact_mod_cast h1
  exact mul_nonneg h2 (le_of_lt hu)

theorem roundNearest_zero : roundNearest 0 = 0 := by
  unfold roundNearest
  have : roundHalfEven (0 : ℚ) = 0 := roundHalfEven_intCast 0
  simp [this]

/-- The binade of a non-zero `q`. -/
theorem binade (q : ℚ) (hq : q ≠ 0) :
    (2 : ℚ) ^ Int.log 2 |q| ≤ |q| ∧ |q| < (2 : ℚ) ^ (Int.log 2 |q| + 1) := by
  have hpos : 0 < |q| := abs_pos.mpr hq
  have h1 := @Int.zpow_log_le_self ℚ _ _ 2 |q| (by norm_num) hpos
  have h2 := @Int.lt_zpow_succ_log_self ℚ _ _ 2 (by norm_num) |q|
  simp only [Nat.cast_ofNat] at h1 h2
  exact ⟨h1, h2⟩

/-- In a binade `2^L ≤ |q| < 2^(L+1)` the unit in the last place is `2^(L-52)`,
or `2^(-1074)` for the subnormal numbers. -/
theorem quantumExp_eq (q : ℚ) (L : ℤ) (h1 : (2 : ℚ) ^ L ≤ |q|) (h2 : |q| < (2 : ℚ) ^ (L + 1)) :
    quantumExp q = max (L - 52) (-1074) := by
  have hpos : 0 < |q| := lt_of_lt_of_le (two_zpow_pos L) h1
  have hL : Int.log 2 |q| = L := by
    apply le_antisymm
    · have h := (@Int.lt_zpow_iff_log_lt ℚ _ _ 2 (by norm_num) (L + 1) |q| hpos).mp
        (by simpa using h2)
      omega
    · exact (@Int.zpow_le_iff_le_log ℚ _ _ 2 (by norm_num) L |q| hpos).mp (by simpa using h1)
  unfold quantumExp
  rw [hL]

theorem roundNearest_eq (q : ℚ) (L : ℤ) (h1 : (2 : ℚ) ^ L ≤ |q|) (h2 : |q| < (2 : ℚ) ^ (L + 1)) :
    roundNearest q = (roundHalfEven (q / (2 : ℚ) ^ max (L - 52) (-1074)) : ℚ)
      * (2 : ℚ) ^ max (L - 52) (-1074) := by
  unfold roundNearest
  rw [quantumExp_eq q L h1 h2]

/-- The scaled value `q / ulp` is below `2^53` in absolute value. -/
theorem abs_div_quantum_le (q : ℚ) : |q / (2 : ℚ) ^ quantumExp q| ≤ ((2 ^ 53 : ℤ) : ℚ) := by
  have hu := two_zpow_pos (quantumExp q)
  rw [abs_div, abs_of_pos hu, div_le_iff₀ hu]
  by_cases hq : q = 0
  · subst hq
    simp only [abs_zero]
    positivity
  · obtain ⟨_, hb⟩ := binade q hq
    have hle : Int.log 2 |q| + 1 ≤ 53 + quantumExp q := by
      have : Int.log 2 |q| - 52 ≤ quantumExp q := le_max_left _ _
      omega
    have h3 : (2 : ℚ) ^ (Int.log 2 |q| + 1) ≤ (2 : ℚ) ^ (53 + quantumExp q) :=
      zpow_le_zpow_right₀ (by norm_num) hle
    have h4 : (2 : ℚ) ^ (53 + quantumExp q) = ((2 ^ 53 : ℤ) : ℚ) * (2 : ℚ) ^ quantumExp q := by
      rw [zpow_add₀ (by norm_num)]
      norm_num
    linarith

/-- Rounding gives a binary64 value. -/
theorem isFloat_roundNearest (q : ℚ) : IsFloat (roundNearest q) := by
  refine ⟨roundHalfEven (q / (2 : ℚ) ^ quantumExp q), quantumExp q, ?_, quantumExp_ge q, rfl⟩
  exact abs_roundHalfEven_le _ _ (abs_div_quantum_le q)

theorem two_zpow_eq_int_mul (e f : ℤ) (h : e ≤ f) :
    (2 : ℚ) ^ f = ((2 ^ (f - e).toNat : ℤ) : ℚ) * (2 : ℚ) ^ e := by
  have hf : f = ((f - e).toNat : ℤ) + e := by
    rw [Int.toNat_of_nonneg (by omega)]
    ring
  conv_lhs => rw [hf]
  rw [zpow_add₀ (by norm_num), zpow_natCast]
  push_cast
  rfl

/-- A multiple of the unit in the last place of `q` is no nearer to `q` than
`roundNearest q`. -/
theorem roundNearest_le_multiple (q : ℚ) (k : ℤ) :
    |roundNearest q - q| ≤ |(k : ℚ) * (2 : ℚ) ^ quantumExp q - q| := by
  have hu := two_zpow_pos (quantumExp q)
  have h := roundHalfEven_nearest (q / (2 : ℚ) ^ quantumExp q) k
  have e1 : roundNearest q - q
      = ((roundHalfEven (q / (2 : ℚ) ^ quantumExp q) : ℚ) - q / (2 : ℚ) ^ quantumExp q)
        * (2 : ℚ) ^ quantumExp q := by
    unfold roundNearest
    field_simp
  have e2 : (k : ℚ) * (2 : ℚ) ^ quantumExp q - q
      = ((k : ℚ) - q / (2 : ℚ) ^ quantumExp q) * (2 : ℚ) ^ quantumExp q := by
    field_simp
  rw [e1, e2, abs_mul, abs_mul, abs_of_pos hu]
  exact mul_le_mul_of_nonneg_right h (le_of_lt hu)

/-- A binary64 value can be written with a mantissa below `2^53`. -/
theorem IsFloat.normal {x : ℚ} (hx : IsFloat x) :
    ∃ m e : ℤ, |m| < 2 ^ 53 ∧ -1074 ≤ e ∧ x = (m : ℚ) * (2 : ℚ) ^ e := by
  obtain ⟨m, e, hm, he, rfl⟩ := hx
  by_cases hlt : |m| < 2 ^ 53
  · exact ⟨m, e, hlt, he, rfl⟩
  · have heq : |m| = 2 ^ 53 := le_antisymm hm (not_lt.mp hlt)
    refine ⟨m / 2, e + 1, ?_, by omega, ?_⟩
    · rw [abs_lt]
      rw [abs_eq (by norm_num)] at heq
      rcases heq with h | h <;> rw [h] <;> constructor <;> norm_num
    · have h2 : m = m / 2 * 2 := by
        rw [abs_eq (by norm_num)] at heq
        rcases heq with h | h <;> rw [h] <;> norm_num
      rw [zpow_add₀ (by norm_num)]
      conv_lhs => rw [h2]
      push_cast
      ring

/-- A non-zero binary64 value is a multiple of the unit in the last place of
any `q` that is at least as large in absolute value; and if it is not such a
multiple, it lies below the binade of `q`. -/
theorem IsFloat.multiple_or_small {z : ℚ} (hz : IsFloat z) (q : ℚ) :
    (∃ k : ℤ, z = (k : ℚ) * (2 : ℚ) ^ quantumExp q)
    ∨ (|z| ≤ (2 : ℚ) ^ Int.log 2 |q| ∧ quantumExp q = Int.log 2 |q| - 52) := by
  obtain ⟨m, f, hm, hf, rfl⟩ := hz.normal
  by_cases hle : quantumExp q ≤ f
  · left
    refine ⟨m * 2 ^ (f - quantumExp q).toNat, ?_⟩
    rw [two_zpow_eq_int_mul (quantumExp q) f hle]
    push_cast
    ring
  · right
    have hlt : f < quantumExp q := not_le.mp hle
    have hqe : quantumExp q = Int.log 2 |q| - 52 := by
      unfold quantumExp at hlt ⊢
      rcases max_cases (Int.log 2 |q| - 52) (-1074) with ⟨h, _⟩ | ⟨h, _⟩
      · exact h
      · rw [h] at hlt
        omega
    refine ⟨?_, hqe⟩
    rw [abs_mul, abs_of_pos (two_zpow_pos f)]
    have hm' : |(m : ℚ)| ≤ ((2 ^ 53 : ℤ) : ℚ) := by
      have : |m| ≤ 2 ^ 53 := le_of_lt hm
      exact_mod_cast this
    have h1 : |(m : ℚ)| * (2 : ℚ) ^ f ≤ ((2 ^ 53 : ℤ) : ℚ) * (2 : ℚ) ^ f :=
      mul_le_mul_of_nonneg_right hm' (le_of_lt (two_zpow_pos f))
    have h2 : ((2 ^ 53 : ℤ) : ℚ) * (2 : ℚ) ^ f = (2 : ℚ) ^ (53 + f) := by
      rw [zpow_add₀ (by norm_num)]
      norm_num
    have h3 : (2 : ℚ) ^ (53 + f) ≤ (2 : ℚ) ^ Int.log 2 |q| :=
      zpow_le_zpow_right₀ (by norm_num) (by omega)
    linarith

/-- Rounding leaves a binary64 value as it is. -/
theorem roundNearest_of_isFloat {x : ℚ} (hx : IsFloat x) : roundNearest x = x := by
  by_cases h0 : x = 0
  · rw [h0]
    exact roundNearest_zero
  · rcases hx.multiple_or_small x with ⟨k, hk⟩ | ⟨hs, hqe⟩
    · have hu := two_zpow_pos (quantumExp x)
      have hd : x / (2 : ℚ) ^ quantumExp x = (k : ℚ) := by
        rw [div_eq_iff (ne_of_gt hu)]
        exact hk
      unfold roundNearest
      rw [hd, roundHalfEven_intCast]
      exact hk.symm
    · -- then `|x| = 2^L`, which is the multiple `2^52` of the unit
      obtain ⟨hb, _⟩ := binade x h0
      have heq : |x| = (2 : ℚ) ^ Int.log 2 |x| := le_antisymm hs hb
      have hu := two_zpow_pos (quantumExp x)
      have hL : (2 : ℚ) ^ Int.log 2 |x| = ((2 ^ 52 : ℤ) : ℚ) * (2 : ℚ) ^ quantumExp x := by
        rw [hqe]
        have : Int.log 2 |x| = 52 + (Int.log 2 |x| - 52) := by ring
        conv_lhs => rw [this]
        rw [zpow_add₀ (by norm_num)]
        norm_num
      have hk : ∃ k : ℤ, x = (k : ℚ) * (2 : ℚ) ^ quantumExp x := by
        rcases abs_cases x with ⟨ha, _⟩ | ⟨ha, _⟩
        · exact ⟨2 ^ 52, by linarith⟩
        · refine ⟨-(2 ^ 52), ?_⟩
          push_cast at hL ⊢
          linarith
      obtain ⟨k, hk⟩ := hk
      have hd : x / (2 : ℚ) ^ quantumExp x = (k : ℚ) := by
        rw [div_eq_iff (ne_of_gt hu)]
        exact hk
      unfold roundNearest
      rw [hd, roundHalfEven_intCast]
      exact hk.symm

/-- Round-to-nearest: no binary64 value is nearer to `q` than `roundNearest q`. -/
theorem roundNearest_nearest (q : ℚ) {z : ℚ} (hz : IsFloat z) :
    |roundNearest q - q| ≤ |z - q| := by
  by_cases h0 : q = 0
  · rw [h0, roundNearest_zero]
    simp
  · rcases hz.multiple_or_small q with ⟨k, hk⟩ | ⟨hs, hqe⟩
    · rw [hk]
      exact roundNearest_le_multiple q k
    · obtain ⟨hb, _⟩ := binade q h0
      have hL : (2 : ℚ) ^ Int.log 2 |q| = ((2 ^ 52 : ℤ) : ℚ) * (2 : ℚ) ^ quantumExp q := by
        rw [hqe]
        have : Int.log 2 |q| = 52 + (Int.log 2 |q| - 52) := by ring
        conv_lhs => rw [this]
        rw [zpow_add₀ (by norm_num)]
        norm_num
      rcases abs_cases q with ⟨ha, hq0⟩ | ⟨ha, hq0⟩
      · -- `z ≤ 2^L ≤ q`
        have h1 := roundNearest_le_multiple q (2 ^ 52)
        rw [← hL] at h1
        have hz1 : z ≤ (2 : ℚ) ^ Int.log 2 |q| := le_trans (le_abs_self z) hs
        have hbq : (2 : ℚ) ^ Int.log 2 |q| ≤ q := hb.trans_eq ha
        have e1 : |(2 : ℚ) ^ Int.log 2 |q| - q| = q - (2 : ℚ) ^ Int.log 2 |q| := by
          rw [abs_sub_comm]
          exact abs_of_nonneg (by linarith)
        have e2 : |z - q| = q - z := by
          rw [abs_sub_comm]
          exact abs_of_nonneg (by linarith)
        rw [e1] at h1
        rw [e2]
        linarith
      · -- `q ≤ -2^L ≤ z`
        have h1 := roundNearest_le_multiple q (-(2 ^ 52))
        have hz1 : -(2 : ℚ) ^ Int.log 2 |q| ≤ z := by
          have := neg_abs_le z
          linarith
        have hbq : (2 : ℚ) ^ Int.log 2 |q| ≤ -q := hb.trans_eq ha
        have e0 : ((-(2 ^ 52) : ℤ) : ℚ) * (2 : ℚ) ^ quantumExp q = -(2 : ℚ) ^ Int.log 2 |q| := by
          rw [hL]
          push_cast
          ring
        rw [e0] at h1
        have e1 : |-(2 : ℚ) ^ Int.log 2 |q| - q| = -(2 : ℚ) ^ Int.log 2 |q| - q :=
          abs_of_nonneg (by linarith)
        have e2 : |z - q| = z - q := abs_of_nonneg (by linarith)
        rw [e1] at h1
        rw [e2]
        linarith

theorem roundHalfEven_eq_of_abs_lt (t : ℚ) (n : ℤ) (h : |(n : ℚ) - t| < 1 / 2) :
    roundHalfEven t = n := by
  have h1 := roundHalfEven_abs_sub_le t
  have h2 : |((roundHalfEven t - n : ℤ) : ℚ)| < 1 := by
    push_cast
    have e : (roundHalfEven t : ℚ) - n = ((roundHalfEven t : ℚ) - t) - ((n : ℚ) - t) := by ring
    rw [e]
    calc |((roundHalfEven t : ℚ) - t) - ((n : ℚ) - t)|
        ≤ |(roundHalfEven t : ℚ) - t| + |(n : ℚ) - t| := abs_sub _ _
      _ < 1 := by linarith
  have h3 : |roundHalfEven t - n| < 1 := by exact_mod_cast h2
  have h4 := abs_lt.mp h3
  omega

/-- A way to evaluate `roundNearest` at a given number: name the binade and
the nearest multiple of the unit in the last place. -/
theorem roundNearest_eval (q : ℚ) (L e n : ℤ) (he : e = max (L - 52) (-1074))
    (h1 : (2 : ℚ) ^ L ≤ |q|) (h2 : |q| < (2 : ℚ) ^ (L + 1))
    (hn : |(n : ℚ) - q / (2 : ℚ) ^ e| < 1 / 2) :
    roundNearest q = (n : ℚ) * (2 : ℚ) ^ e := by
  rw [roundNearest_eq q L h1 h2, ← he, roundHalfEven_eq_of_abs_lt _ n hn]

theorem abs_roundNearest_le (q : ℚ) : |roundNearest q| ≤ 2 * |q| := by
  have h0 : IsFloat 0 := ⟨0, 0, by norm_num, by norm_num, by simp⟩
  have h := roundNearest_nearest q h0
  rw [zero_sub, abs_neg] at h
  have h2 : |roundNearest q| ≤ |roundNearest q - q| + |q| := by
    have := abs_add (roundNearest q - q) q
    simpa using this
  linarith

theorem isFloat_intCast (n : ℤ) (h : |n| ≤ 2 ^ 53) : IsFloat (n : ℚ) :=
  ⟨n, 0, h, by norm_num, by simp⟩

theorem roundNearest_intCast (n : ℤ) (h : |n| ≤ 2 ^ 53) : roundNearest (n : ℚ) = n :=
  roundNearest_of_isFloat (isFloat_intCast n h)

/-- The relative error of one rounding in the normal range is at most `2^(-53)`. -/
theorem roundNearest_rel (q : ℚ) (h : (2 : ℚ) ^ (-1022 : ℤ) ≤ |q|) :
    |roundNearest q - q| ≤ |q| / 2 ^ 53 := by
  have hq : q ≠ 0 := by
    intro h0
    rw [h0, abs_zero] at h
    exact absurd h (not_le.mpr (two_zpow_pos _))
  obtain ⟨b1, b2⟩ := binade q hq
  have hL : -1022 < Int.log 2 |q| + 1 := by
    have := lt_of_le_of_lt h b2
    exact (zpow_lt_zpow_iff_right₀ (by norm_num : (1 : ℚ) < 2)).mp this
  have hqe : quantumExp q = Int.log 2 |q| - 52 := by
    unfold quantumExp
    exact max_eq_left (by omega)
  have h3 := roundNearest_abs_sub_le q
  rw [hqe] at h3
  have h4 : (2 : ℚ) ^ (Int.log 2 |q| - 52) = (2 : ℚ) ^ Int.log 2 |q| / 2 ^ 52 := by
    rw [zpow_sub₀ (by norm_num)]
    norm_num
  rw [h4] at h3
  calc |roundNearest q - q| ≤ (2 : ℚ) ^ Int.log 2 |q| / 2 ^ 52 / 2 := h3
    _ = (2 : ℚ) ^ Int.log 2 |q| / 2 ^ 53 := by ring
    _ ≤ |q| / 2 ^ 53 := by
      apply div_le_div_of_nonneg_right b1
      positivity

/-- The result of an operation whose rounded value stays below `2^1024` is finite. -/
theorem Float64.round_eq_finite (q : ℚ) (h : |q| ≤ (2 : ℚ) ^ 1000) :
    Float64.round q = Float64.finite (roundNearest q) := by
  have h1 := abs_roundNearest_le q
  have h2 : |roundNearest q| < (2 : ℚ) ^ 1024 := by
    calc |roundNearest q| ≤ 2 * |q| := h1
      _ ≤ 2 * (2 : ℚ) ^ 1000 := by linarith
      _ < (2 : ℚ) ^ 1024 := by norm_num
  obtain ⟨h3, h4⟩ := abs_lt.mp h2
  unfold Float64.round
  rw [if_neg (not_le.mpr h4), if_neg (not_le.mpr h3)]

theorem Float64.round_natCast (n : ℕ) (h : n ≤ 2 ^ 53) :
    Float64.round (n : ℚ) = Float64.finite (n : ℚ) := by
  have hq : ((n : ℤ) : ℚ) = (n : ℚ) := Int.cast_natCast n
  have h1 : roundNearest (n : ℚ) = n := by
    rw [← hq]
    exact roundNearest_intCast (n : ℤ) (by rw [abs_of_nonneg (by positivity)]; exact_mod_cast h)
  have h2 : |(n : ℚ)| ≤ (2 : ℚ) ^ 1000 := by
    rw [abs_of_nonneg (by positivity)]
    calc (n : ℚ) ≤ ((2 ^ 53 : ℕ) : ℚ) := by exact_mod_cast h
      _ ≤ (2 : ℚ) ^ 1000 := by norm_num
  rw [Float64.round_eq_finite _ h2, h1]

theorem foldl_Write (l : List Nat) :
    ∀ c : ℕ, c + l.sum ≤ 2 ^ 53 →
      l.foldl writeCounter.Write (Float64.finite (c : ℚ))
        = Float64.finite ((c + l.sum : ℕ) : ℚ) := by
  induction l with
  | nil => intro c _; simp
  | cons a l ih =>
    intro c h
    rw [List.sum_cons] at h
    have ha : a ≤ 2 ^ 53 := by omega
    have hca : c + a ≤ 2 ^ 53 := by omega
    have hw : writeCounter.Write (Float64.finite (c : ℚ)) a = Float64.finite ((c + a : ℕ) : ℚ) := by
      unfold writeCounter.Write Float64.ofInt
      rw [Int.cast_natCast, Float64.round_natCast a ha]
      show Float64.round ((c : ℚ) + (a : ℚ)) = _
      rw [← Nat.cast_add, Float64.round_natCast _ hca]
    rw [List.foldl_cons, hw, ih (c + a) (by omega), List.sum_cons]
    congr 2
    omega

/-- As long as the byte count stays within `2^53`, `Size` is the number of
bytes written. -/
theorem Size_eq_sum {M : Type} (encode : Transaction M → List Nat) (tx : Transaction M)
    (h : (encode tx).sum ≤ 2 ^ 53) :
    tx.Size encode = Float64.finite (((encode tx).sum : ℕ) : ℚ) := by
  have := foldl_Write (encode tx) 0 (by omega)
  unfold Transaction.Size
  rw [Nat.cast_zero] at this
  rw [this, Nat.zero_add]

theorem Float64.add_finite (a b : ℚ) :
    Float64.add (Float64.finite a) (Float64.finite b) = Float64.round (a + b) := rfl

theorem Size_two_writes {M : Type} (tx : Transaction M) (a b : ℕ) :
    tx.Size (fun _ => [a, b])
      = Float64.add (Float64.add (Float64.finite 0) (Float64.ofInt (a : ℤ)))
          (Float64.ofInt (b : ℤ)) := rfl

/-- Past `2^53` the `float64` counter no longer counts every byte: after
writes of `2^54` bytes and of one byte it holds `2^54`. -/
theorem Size_beyond_exact {M : Type} (tx : Transaction M) :
    tx.Size (fun _ => [18014398509481984, 1]) = Float64.finite 18014398509481984 := by
  have h1 : roundNearest (18014398509481984 : ℚ) = 18014398509481984 := by
    apply roundNearest_of_isFloat
    exact ⟨9007199254740992, 1, by norm_num, by norm_num, by norm_num⟩
  have h2 : Float64.round (18014398509481984 : ℚ) = Float64.finite 18014398509481984 := by
    rw [Float64.round_eq_finite _ (by rw [abs_of_nonneg (by norm_num)]; norm_num), h1]
  have h3 : roundNearest ((18014398509481984 : ℚ) + 1) = 18014398509481984 := by
    have := roundNearest_eval ((18014398509481984 : ℚ) + 1) 54 2 4503599627370496 (by decide)
      (by rw [abs_of_nonneg (by norm_num)]; norm_num)
      (by rw [abs_of_nonneg (by norm_num)]; norm_num)
      (by rw [abs_lt]; constructor <;> norm_num)
    rw [this]
    norm_num
  have h4 : Float64.round ((18014398509481984 : ℚ) + 1) = Float64.finite 18014398509481984 := by
    rw [Float64.round_eq_finite _ (by rw [abs_of_nonneg (by norm_num)]; norm_num), h3]
  have h5 : Float64.round (1 : ℚ) = Float64.finite 1 := by
    have := Float64.round_natCast 1 (by norm_num)
    simpa using this
  have e1 : (((18014398509481984 : ℕ) : ℤ) : ℚ) = 18014398509481984 := by norm_num
  have e2 : (((1 : ℕ) : ℤ) : ℚ) = 1 := by norm_num
  rw [Size_two_writes]
  unfold Float64.ofInt
  rw [e1, e2, h2, h5, Float64.add_finite, zero_add, h2, Float64.add_finite, h4]

theorem Int64_of_range (x : ℤ) (h1 : -(2 ^ 63) ≤ x) (h2 : x < 2 ^ 63) : Int64 x = x := by
  unfold Int64
  simp only
  have hn : (x.natAbs : ℤ) = |x| := Int.natCast_natAbs x
  have hlt : x.natAbs ≤ 2 ^ 63 := by
    have : |x| ≤ 2 ^ 63 := abs_le.mpr ⟨h1, h2.le⟩
    omega
  have hmod : x.natAbs % 2 ^ 64 = x.natAbs := Nat.mod_eq_of_lt (by omega)
  rw [hmod]
  split_ifs <;> omega

theorem Int64_lt (x : ℤ) : Int64 x < 2 ^ 63 := by
  unfold Int64
  simp only
  have hm : x.natAbs % 2 ^ 64 < 2 ^ 64 := Nat.mod_lt _ (by norm_num)
  split_ifs <;> omega

/-! ## Facts about `GetPriorityLvl` -/

theorem roundNearest_ge_neg_one {q : ℚ} (h : -1 ≤ q) : -1 ≤ roundNearest q := by
  have h1 : IsFloat (-1) := ⟨-1, 0, by norm_num, by norm_num, by simp⟩
  have h2 := roundNearest_nearest q h1
  have h3 : |(-1 : ℚ) - q| = q + 1 := by
    rw [abs_of_nonpos (by linarith)]
    ring
  rw [h3] at h2
  have := (abs_le.mp h2).1
  linarith

theorem Float64.div_finite (a b : ℚ) (hb : b ≠ 0) :
    Float64.div (Float64.finite a) (Float64.finite b) = Float64.round (a / b) := by
  show (if b = 0 then
      (if a = 0 then Float64.nan else if 0 < a then Float64.posInf else Float64.negInf)
    else Float64.round (a / b)) = _
  rw [if_neg hb]

theorem Float64.ofInt_small (d : ℤ) (h : |d| ≤ 2 ^ 53) :
    Float64.ofInt d = Float64.finite (d : ℚ) := by
  have h2 : |(d : ℚ)| ≤ (2 : ℚ) ^ 1000 := by
    have : |(d : ℚ)| ≤ ((2 ^ 53 : ℤ) : ℚ) := by exact_mod_cast h
    calc |(d : ℚ)| ≤ ((2 ^ 53 : ℤ) : ℚ) := this
      _ ≤ (2 : ℚ) ^ 1000 := by norm_num
  unfold Float64.ofInt
  rw [Float64.round_eq_finite _ h2, roundNearest_intCast d h]

/-- Printing a non-negative value with `"%f"` and parsing the text back:
the value is cut to six decimals, then rounded to a `float64`. -/
theorem ParseFloat_Sprintf_f {x : ℚ} (hx : 0 ≤ x) :
    ParseFloat (Sprintf_f (Float64.finite x))
      = Float64.round ((roundHalfEven (x * 10 ^ 6) : ℚ) / 10 ^ 6) := by
  have hk : 0 ≤ roundHalfEven (x * 10 ^ 6) := roundHalfEven_nonneg (by positivity)
  obtain ⟨k, hk'⟩ := Int.eq_ofNat_of_zero_le hk
  have hneg : ¬ x < 0 := not_lt.mpr hx
  unfold ParseFloat Sprintf_f
  simp only [abs_of_nonneg hx, hk', Int.toNat_ofNat, hneg, decide_False, Bool.false_eq_true,
    if_false, one_mul, Int.cast_natCast]
  congr 1
  have h := Nat.div_add_mod k (10 ^ 6)
  have hq : ((10 ^ 6 * (k / 10 ^ 6) + k % 10 ^ 6 : ℕ) : ℚ) = (k : ℚ) := by rw [h]
  push_cast at hq
  field_simp
  linarith

theorem hour_diff_bounds (a b : Fin 24) :
    -23 ≤ (((a : ℕ) : ℤ) - ((b : ℕ) : ℤ)) ∧ (((a : ℕ) : ℤ) - ((b : ℕ) : ℤ)) ≤ 23 := by
  have ha := a.isLt
  have hb := b.isLt
  omega

/-- With a fee that `Int64()` reads as positive and a byte count between 1 and
`2^53`, no operation of `GetPriorityLvl` overflows or yields NaN: the result is
the `float64` value of the formula, printed with six decimals and parsed. -/
theorem GetPriorityLvl_eval {M : Type} (txfee : Int) (encode : Transaction M → List Nat)
    (Hour : String → Fin 24) (nowHour : Fin 24) (tx : TxPoolTransaction M)
    (hfee : 0 < Int64 txfee) (hsize : 0 < (encode tx.toTransaction).sum)
    (hsmax : (encode tx.toTransaction).sum ≤ 2 ^ 53) :
    tx.GetPriorityLvl txfee encode Hour nowHour
      = Float64.finite (roundNearest ((roundHalfEven
          (priorityFloat (Int64 txfee) (encode tx.toTransaction).sum nowHour
            (Hour tx.CreationDate) * 10 ^ 6) : ℚ) / 10 ^ 6)) := by
  have hlt := Int64_lt txfee
  obtain ⟨hd1, hd2⟩ := hour_diff_bounds nowHour (Hour tx.CreationDate)
  unfold TxPoolTransaction.GetPriorityLvl Transaction.Fee priorityFloat
  rw [if_pos hfee]
  simp only []
  rw [Size_eq_sum encode tx.toTransaction hsmax]
  generalize (encode tx.toTransaction).sum = S at hsize hsmax ⊢
  generalize Int64 txfee = F at hfee hlt ⊢
  generalize (((nowHour : ℕ) : ℤ) - (((Hour tx.CreationDate) : ℕ) : ℤ)) = d at hd1 hd2 ⊢
  have hS1 : (1 : ℚ) ≤ (S : ℚ) := by exact_mod_cast hsize
  have hS0 : (S : ℚ) ≠ 0 := by linarith
  -- the fee
  have hF0 : (0 : ℚ) ≤ (F : ℚ) := by exact_mod_cast hfee.le
  have hF : |(F : ℚ)| ≤ (2 : ℚ) ^ 63 := by
    rw [abs_of_nonneg hF0]
    exact_mod_cast hlt.le
  have e1 : Float64.ofInt F = Float64.finite (roundNearest (F : ℚ)) := by
    unfold Float64.ofInt
    exact Float64.round_eq_finite _ (hF.trans (by norm_num))
  have hA0 : 0 ≤ roundNearest (F : ℚ) := roundNearest_nonneg hF0
  have hA : roundNearest (F : ℚ) ≤ (2 : ℚ) ^ 64 := by
    have := abs_roundNearest_le (F : ℚ)
    rw [abs_of_nonneg hA0] at this
    linarith
  -- fee / size
  have hq0 : 0 ≤ roundNearest (F : ℚ) / (S : ℚ) := div_nonneg hA0 (by linarith)
  have hq : roundNearest (F : ℚ) / (S : ℚ) ≤ (2 : ℚ) ^ 64 :=
    (div_le_self hA0 hS1).trans hA
  have e2 : Float64.div (Float64.finite (roundNearest (F : ℚ))) (Float64.finite (S : ℚ))
      = Float64.finite (roundNearest (roundNearest (F : ℚ) / (S : ℚ))) := by
    rw [Float64.div_finite _ _ hS0]
    apply Float64.round_eq_finite
    rw [abs_of_nonneg hq0]
    exact hq.trans (by norm_num)
  have hB0 : 0 ≤ roundNearest (roundNearest (F : ℚ) / (S : ℚ)) := roundNearest_nonneg hq0
  have hB : roundNearest (roundNearest (F : ℚ) / (S : ℚ)) ≤ (2 : ℚ) ^ 65 := by
    have := abs_roundNearest_le (roundNearest (F : ℚ) / (S : ℚ))
    rw [abs_of_nonneg hB0, abs_of_nonneg hq0] at this
    linarith
  -- the age factor
  have e3 : Float64.ofInt d = Float64.finite (d : ℚ) :=
    Float64.ofInt_small d (by rw [abs_le]; constructor <;> omega)
  have hdq1 : (-23 : ℚ) ≤ (d : ℚ) := by exact_mod_cast hd1
  have hdq2 : (d : ℚ) ≤ 23 := by exact_mod_cast hd2
  have hc1 : (-1 : ℚ) ≤ (d : ℚ) / 24 := by
    rw [le_div_iff₀ (by norm_num)]; linarith
  have hc2 : |(d : ℚ) / 24| ≤ 1 := by
    rw [abs_le]
    refine ⟨hc1, ?_⟩
    rw [div_le_iff₀ (by norm_num)]; linarith
  have e4 : Float64.div (Float64.finite (d : ℚ)) (Float64.finite 24)
      = Float64.finite (roundNearest ((d : ℚ) / 24)) := by
    rw [Float64.div_finite _ _ (by norm_num)]
    exact Float64.round_eq_finite _ (hc2.trans (by norm_num))
  have hC1 : -1 ≤ roundNearest ((d : ℚ) / 24) := roundNearest_ge_neg_one hc1
  have hC2 : |roundNearest ((d : ℚ) / 24)| ≤ 2 := by
    have := abs_roundNearest_le ((d : ℚ) / 24)
    linarith
  have hg0 : 0 ≤ 1 + roundNearest ((d : ℚ) / 24) := by linarith
  have hg : 1 + roundNearest ((d : ℚ) / 24) ≤ 3 := by
    have := (abs_le.mp hC2).2
    linarith
  have e5 : Float64.add (Float64.finite 1) (Float64.finite (roundNearest ((d : ℚ) / 24)))
      = Float64.finite (roundNearest (1 + roundNearest ((d : ℚ) / 24))) := by
    show Float64.round _ = _
    apply Float64.round_eq_finite
    rw [abs_of_nonneg hg0]
    exact hg.trans (by norm_num)
  have hf0 : 0 ≤ roundNearest (1 + roundNearest ((d : ℚ) / 24)) := roundNearest_nonneg hg0
  have hf : roundNearest (1 + roundNearest ((d : ℚ) / 24)) ≤ 6 := by
    have := abs_roundNearest_le (1 + roundNearest ((d : ℚ) / 24))
    rw [abs_of_nonneg hf0, abs_of_nonneg hg0] at this
    linarith
  -- the product
  have hp0 : 0 ≤ roundNearest (roundNearest (F : ℚ) / (S : ℚ))
      * roundNearest (1 + roundNearest ((d : ℚ) / 24)) := mul_nonneg hB0 hf0
  have hp : roundNearest (roundNearest (F : ℚ) / (S : ℚ))
      * roundNearest (1 + roundNearest ((d : ℚ) / 24)) ≤ (2 : ℚ) ^ 65 * 6 :=
    mul_le_mul hB hf hf0 (by positivity)
  have e6 : Float64.mul (Float64.finite (roundNearest (roundNearest (F : ℚ) / (S : ℚ))))
        (Float64.finite (roundNearest (1 + roundNearest ((d : ℚ) / 24))))
      = Float64.finite (roundNearest (roundNearest (roundNearest (F : ℚ) / (S : ℚ))
          * roundNearest (1 + roundNearest ((d : ℚ) / 24)))) := by
    show Float64.round _ = _
    apply Float64.round_eq_finite
    rw [abs_of_nonneg hp0]
    exact hp.trans (by norm_num)
  rw [e1, e2, e3, e4, e5, e6]
  generalize roundNearest (roundNearest (F : ℚ) / (S : ℚ))
      * roundNearest (1 + roundNearest ((d : ℚ) / 24)) = p at hp0 hp ⊢
  have hx0 : 0 ≤ roundNearest p := roundNearest_nonneg hp0
  have hx : roundNearest p ≤ (2 : ℚ) ^ 69 := by
    have := abs_roundNearest_le p
    rw [abs_of_nonneg hx0, abs_of_nonneg hp0] at this
    have h2 : (2 : ℚ) ^ 65 * 6 ≤ (2 : ℚ) ^ 68 := by norm_num
    have h3 : (2 : ℚ) * 2 ^ 68 = 2 ^ 69 := by norm_num
    linarith
  rw [ParseFloat_Sprintf_f hx0]
  apply Float64.round_eq_finite
  have h6 := roundHalfEven_abs_sub_le (roundNearest p * 10 ^ 6)
  have hk0 : (0 : ℚ) ≤ (roundHalfEven (roundNearest p * 10 ^ 6) : ℚ) := by
    exact_mod_cast roundHalfEven_nonneg (by positivity : (0 : ℚ) ≤ roundNearest p * 10 ^ 6)
  rw [abs_of_nonneg (by positivity)]
  rw [div_le_iff₀ (by norm_num)]
  have := (abs_le.mp h6).2
  have h7 : roundNearest p * 10 ^ 6 ≤ (2 : ℚ) ^ 69 * 10 ^ 6 := by
    apply mul_le_mul_of_nonneg_right hx (by norm_num)
  have h8 : (2 : ℚ) ^ 69 * 10 ^ 6 + 1 / 2 ≤ (2 : ℚ) ^ 1000 * 10 ^ 6 := by norm_num
  have h9 : (roundHalfEven (roundNearest p * 10 ^ 6) : ℚ) ≤ (2 : ℚ) ^ 69 * 10 ^ 6 + 1 / 2 := by
    linarith
  exact h9.trans h8

/-- The six-decimal text of a `float64`, parsed back, is within `10^(-6)` of it. -/
theorem six_decimals_error {x : ℚ} (hx : IsFloat x) :
    |roundNearest ((roundHalfEven (x * 10 ^ 6) : ℚ) / 10 ^ 6) - x| ≤ 1 / 10 ^ 6 := by
  have h1 := roundHalfEven_abs_sub_le (x * 10 ^ 6)
  have h2 : |(roundHalfEven (x * 10 ^ 6) : ℚ) / 10 ^ 6 - x| ≤ 1 / (2 * 10 ^ 6) := by
    rw [abs_le] at h1 ⊢
    constructor
    · rw [le_sub_iff_add_le, le_div_iff₀ (by norm_num)]
      linarith [h1.1]
    · rw [sub_le_iff_le_add, div_le_iff₀ (by norm_num)]
      linarith [h1.2]
  have h3 := roundNearest_nearest ((roundHalfEven (x * 10 ^ 6) : ℚ) / 10 ^ 6) hx
  rw [abs_sub_comm x] at h3
  have h4 := abs_sub_le (roundNearest ((roundHalfEven (x * 10 ^ 6) : ℚ) / 10 ^ 6))
    ((roundHalfEven (x * 10 ^ 6) : ℚ) / 10 ^ 6) x
  have h5 : (1 : ℚ) / (2 * 10 ^ 6) + 1 / (2 * 10 ^ 6) = 1 / 10 ^ 6 := by norm_num
  linarith

/-- A `float64` with at most six decimals survives the print-and-parse pair. -/
theorem six_decimals_exact {x : ℚ} (hx : IsFloat x) (n : ℤ) (hn : x * 10 ^ 6 = (n : ℚ)) :
    roundNearest ((roundHalfEven (x * 10 ^ 6) : ℚ) / 10 ^ 6) = x := by
  rw [hn, roundHalfEven_intCast, ← hn]
  have : x * 10 ^ 6 / 10 ^ 6 = x := by field_simp
  rw [this]
  exact roundNearest_of_isFloat hx

/-- One more rounding adds a relative error of at most `2^(-53)`. -/
theorem rel_round {y y0 e : ℚ} (hn : 1 / (2 ^ 53 * 24) ≤ y0) (he : e ≤ 1 / 2)
    (h : |y - y0| ≤ e * y0) :
    |roundNearest y - y0| ≤ (e + (1 + e) / 2 ^ 53) * y0 := by
  have hy0 : 0 < y0 := lt_of_lt_of_le (by norm_num) hn
  have h1 : e * y0 ≤ 1 / 2 * y0 := mul_le_mul_of_nonneg_right he hy0.le
  obtain ⟨h2, h3⟩ := abs_le.mp h
  have hy : y0 / 2 ≤ y := by linarith
  have hypos : 0 ≤ y := by linarith
  have hsmall : (2 : ℚ) ^ (-1022 : ℤ) ≤ 1 / (2 ^ 53 * 24) / 2 := by norm_num
  have hnorm : (2 : ℚ) ^ (-1022 : ℤ) ≤ |y| := by
    rw [abs_of_nonneg hypos]
    have : 1 / (2 ^ 53 * 24) / 2 ≤ y0 / 2 := by linarith
    exact hsmall.trans (this.trans hy)
  have h4 := roundNearest_rel y hnorm
  rw [abs_of_nonneg hypos] at h4
  have h5 : y / 2 ^ 53 ≤ (1 + e) * y0 / 2 ^ 53 := by
    apply div_le_div_of_nonneg_right _ (by positivity)
    linarith
  have h6 := abs_sub_le (roundNearest y) y y0
  have h7 : (e + (1 + e) / 2 ^ 53) * y0 = (1 + e) * y0 / 2 ^ 53 + e * y0 := by ring
  rw [h7]
  linarith

/-- The relative errors of two factors add up in their product. -/
theorem rel_mul {a a0 b b0 ea eb : ℚ} (ha0 : 0 ≤ a0) (hb0 : 0 ≤ b0) (hea : 0 ≤ ea)
    (ha : |a - a0| ≤ ea * a0) (hb : |b - b0| ≤ eb * b0) :
    |a * b - a0 * b0| ≤ (ea + eb + ea * eb) * (a0 * b0) := by
  have e : a * b - a0 * b0 = (a - a0) * b0 + a0 * (b - b0) + (a - a0) * (b - b0) := by ring
  have h1 : |(a - a0) * b0| ≤ ea * a0 * b0 := by
    rw [abs_mul, abs_of_nonneg hb0]
    exact mul_le_mul_of_nonneg_right ha hb0
  have h2 : |a0 * (b - b0)| ≤ a0 * (eb * b0) := by
    rw [abs_mul, abs_of_nonneg ha0]
    exact mul_le_mul_of_nonneg_left hb ha0
  have h3 : |(a - a0) * (b - b0)| ≤ ea * a0 * (eb * b0) := by
    rw [abs_mul]
    exact mul_le_mul ha hb (abs_nonneg _) (mul_nonneg hea ha0)
  rw [e]
  have h4 := abs_add ((a - a0) * b0 + a0 * (b - b0)) ((a - a0) * (b - b0))
  have h5 := abs_add ((a - a0) * b0) (a0 * (b - b0))
  have h6 : (ea + eb + ea * eb) * (a0 * b0)
      = ea * a0 * b0 + a0 * (eb * b0) + ea * a0 * (eb * b0) := by ring
  rw [h6]
  linarith

/-- The `float64` evaluation of the priority formula is within a relative error
of `2^(-48)` of its value over the real numbers. -/
theorem priorityFloat_error (fee : ℤ) (size : ℕ) (nowHour t0Hour : Fin 24)
    (hfee : 0 < fee) (hs : 0 < size) (hsm : size ≤ 2 ^ 53) :
    |priorityFloat fee size nowHour t0Hour - priorityFormula fee size nowHour t0Hour|
      ≤ priorityFormula fee size nowHour t0Hour / 2 ^ 48 := by
  obtain ⟨hd1, hd2⟩ := hour_diff_bounds nowHour t0Hour
  have hcast : (((nowHour : ℕ) : ℚ) - ((t0Hour : ℕ) : ℚ))
      = (((((nowHour : ℕ) : ℤ) - ((t0Hour : ℕ) : ℤ) : ℤ)) : ℚ) := by push_cast; rfl
  unfold priorityFloat priorityFormula
  rw [hcast]
  generalize (((nowHour : ℕ) : ℤ) - ((t0Hour : ℕ) : ℤ)) = d at hd1 hd2 ⊢
  have hS1 : (1 : ℚ) ≤ (size : ℚ) := by exact_mod_cast hs
  have hS2 : (size : ℚ) ≤ 2 ^ 53 := by exact_mod_cast hsm
  have hF1 : (1 : ℚ) ≤ (fee : ℚ) := by exact_mod_cast hfee
  have hdq1 : (-23 : ℚ) ≤ (d : ℚ) := by exact_mod_cast hd1
  have hdq2 : (d : ℚ) ≤ 23 := by exact_mod_cast hd2
  -- the fee
  have hA : |roundNearest (fee : ℚ) - (fee : ℚ)| ≤ 1 / 2 ^ 53 * (fee : ℚ) := by
    have := @rel_round (fee : ℚ) (fee : ℚ) 0 (le_trans (by norm_num) hF1) (by norm_num)
      (by simp)
    have e : (0 + (1 + 0) / 2 ^ 53) * (fee : ℚ) = 1 / 2 ^ 53 * (fee : ℚ) := by ring
    rw [e] at this
    exact this
  -- fee / size
  have hq1 : 1 / 2 ^ 53 ≤ (fee : ℚ) / (size : ℚ) := by
    rw [div_le_div_iff₀ (by norm_num) (by linarith)]
    nlinarith
  have hqpos : 0 < (fee : ℚ) / (size : ℚ) := lt_of_lt_of_le (by norm_num) hq1
  have hq : |roundNearest (fee : ℚ) / (size : ℚ) - (fee : ℚ) / (size : ℚ)|
      ≤ 1 / 2 ^ 53 * ((fee : ℚ) / (size : ℚ)) := by
    rw [← sub_div, abs_div, abs_of_nonneg (by linarith : (0 : ℚ) ≤ (size : ℚ)), ← mul_div_assoc]
    exact div_le_div_of_nonneg_right hA (by linarith)
  have hB : |roundNearest (roundNearest (fee : ℚ) / (size : ℚ)) - (fee : ℚ) / (size : ℚ)|
      ≤ 3 / 2 ^ 53 * ((fee : ℚ) / (size : ℚ)) := by
    have := rel_round (le_trans (by norm_num) hq1) (by norm_num) hq
    refine this.trans (mul_le_mul_of_nonneg_right (by norm_num) hqpos.le)
  -- the age factor
  have hg1 : (1 : ℚ) / 24 ≤ 1 + (d : ℚ) / 24 := by
    have : (-23 : ℚ) / 24 ≤ (d : ℚ) / 24 := div_le_div_of_nonneg_right hdq1 (by norm_num)
    linarith
  have hgpos : (0 : ℚ) < 1 + (d : ℚ) / 24 := lt_of_lt_of_le (by norm_num) hg1
  have hC : |roundNearest ((d : ℚ) / 24) - (d : ℚ) / 24| ≤ 23 / 2 ^ 53 * (1 + (d : ℚ) / 24) := by
    have hb : (23 : ℚ) / 2 ^ 53 * (1 / 24) ≤ 23 / 2 ^ 53 * (1 + (d : ℚ) / 24) :=
      mul_le_mul_of_nonneg_left hg1 (by norm_num)
    by_cases hd0 : d = 0
    · rw [hd0]
      simp only [Int.cast_zero, zero_div, roundNearest_zero, sub_zero, abs_zero, add_zero,
        mul_one]
      positivity
    · have hdabs : (1 : ℚ) ≤ |(d : ℚ)| := by
        have : (1 : ℤ) ≤ |d| := Int.one_le_abs hd0
        exact_mod_cast this
      have hdabs2 : |(d : ℚ)| ≤ 23 := abs_le.mpr ⟨hdq1, hdq2⟩
      have hn : (2 : ℚ) ^ (-1022 : ℤ) ≤ |(d : ℚ) / 24| := by
        rw [abs_div, abs_of_pos (by norm_num : (0 : ℚ) < 24)]
        have h1 : (2 : ℚ) ^ (-1022 : ℤ) ≤ 1 / 24 := by norm_num
        exact h1.trans (div_le_div_of_nonneg_right hdabs (by norm_num))
      have h2 := roundNearest_rel _ hn
      have h3 : |(d : ℚ) / 24| / 2 ^ 53 ≤ 23 / 2 ^ 53 * (1 / 24) := by
        rw [abs_div, abs_of_pos (by norm_num : (0 : ℚ) < 24)]
        have : |(d : ℚ)| / 24 / 2 ^ 53 ≤ 23 / 24 / 2 ^ 53 := by
          apply div_le_div_of_nonneg_right _ (by positivity)
          exact div_le_div_of_nonneg_right hdabs2 (by norm_num)
        calc |(d : ℚ)| / 24 / 2 ^ 53 ≤ 23 / 24 / 2 ^ 53 := this
          _ = 23 / 2 ^ 53 * (1 / 24) := by ring
      exact h2.trans (h3.trans hb)
  have hG : |(1 + roundNearest ((d : ℚ) / 24)) - (1 + (d : ℚ) / 24)|
      ≤ 23 / 2 ^ 53 * (1 + (d : ℚ) / 24) := by
    have e : (1 + roundNearest ((d : ℚ) / 24)) - (1 + (d : ℚ) / 24)
        = roundNearest ((d : ℚ) / 24) - (d : ℚ) / 24 := by ring
    rw [e]
    exact hC
  have hFv : |roundNearest (1 + roundNearest ((d : ℚ) / 24)) - (1 + (d : ℚ) / 24)|
      ≤ 25 / 2 ^ 53 * (1 + (d : ℚ) / 24) := by
    have := rel_round (le_trans (by norm_num) hg1) (by norm_num) hG
    refine this.trans (mul_le_mul_of_nonneg_right (by norm_num) hgpos.le)
  -- the product
  have hv1 : 1 / (2 ^ 53 * 24) ≤ (fee : ℚ) / (size : ℚ) * (1 + (d : ℚ) / 24) := by
    have := mul_le_mul hq1 hg1 (by norm_num) hqpos.le
    calc (1 : ℚ) / (2 ^ 53 * 24) = 1 / 2 ^ 53 * (1 / 24) := by norm_num
      _ ≤ _ := this
  have hvpos : 0 < (fee : ℚ) / (size : ℚ) * (1 + (d : ℚ) / 24) := mul_pos hqpos hgpos
  have hP : |roundNearest (roundNearest (fee : ℚ) / (size : ℚ))
        * roundNearest (1 + roundNearest ((d : ℚ) / 24))
        - (fee : ℚ) / (size : ℚ) * (1 + (d : ℚ) / 24)|
      ≤ 29 / 2 ^ 53 * ((fee : ℚ) / (size : ℚ) * (1 + (d : ℚ) / 24)) := by
    have := rel_mul hqpos.le hgpos.le (by norm_num) hB hFv
    refine this.trans (mul_le_mul_of_nonneg_right (by norm_num) hvpos.le)
  have hX := rel_round hv1 (by norm_num) hP
  have hlast : (29 / 2 ^ 53 + (1 + 29 / 2 ^ 53) / 2 ^ 53)
        * ((fee : ℚ) / (size : ℚ) * (1 + (d : ℚ) / 24))
      ≤ 1 / 2 ^ 48 * ((fee : ℚ) / (size : ℚ) * (1 + (d : ℚ) / 24)) :=
    mul_le_mul_of_nonneg_right (by norm_num) hvpos.le
  have hform : (fee : ℚ) / (size : ℚ) * (1 + (d : ℚ) / 24) / 2 ^ 48
      = 1 / 2 ^ 48 * ((fee : ℚ) / (size : ℚ) * (1 + (d : ℚ) / 24)) := by ring
  rw [hform]
  exact hX.trans hlast

theorem priorityFloat_third :
    priorityFloat TXFEE 300 10 10 = 4581298449066667 / 274877906944 := by
  have hd : (((10 : Fin 24) : ℕ) : ℤ) - (((10 : Fin 24) : ℕ) : ℤ) = 0 := sub_self _
  have h1 : roundNearest (((5000000 : ℤ)) : ℚ) = ((5000000 : ℤ) : ℚ) :=
    roundNearest_intCast 5000000 (by norm_num)
  have h2 : roundNearest (1 : ℚ) = 1 := by
    have := roundNearest_intCast 1 (by norm_num)
    simpa using this
  have h3 : roundNearest ((5000000 : ℚ) / 300) = (4581298449066667 : ℤ) * (2 : ℚ) ^ (-38 : ℤ) := by
    apply roundNearest_eval _ 14 (-38) 4581298449066667 (by decide)
    · rw [abs_of_nonneg (by norm_num)]; norm_num
    · rw [abs_of_nonneg (by norm_num)]; norm_num
    · rw [abs_lt]; constructor <;> norm_num
  unfold priorityFloat TXFEE
  rw [hd, h1]
  simp only [Int.cast_zero, zero_div, roundNearest_zero, add_zero, h2, mul_one, Int.cast_ofNat,
    Nat.cast_ofNat]
  rw [roundNearest_of_isFloat (isFloat_roundNearest _), h3]
  norm_num

/-- The formula value 122.0703125 lies midway between two six-decimal numbers;
`float64` arithmetic gives 122.07031250000001, which prints as 122.070313. -/
theorem GetPriorityLvl_above_tie :
    priorityFormula TXFEE 35840 10 13 = 15625 / 128
    ∧ priorityFloat TXFEE 35840 10 13 = 8589934592000001 / 70368744177664
    ∧ Sprintf_f (Float64.finite (priorityFloat TXFEE 35840 10 13))
        = FloatText.num false 122 70313
    ∧ sampleTx.GetPriorityLvl TXFEE (fun _ => [35840]) (fun _ => 13) 10
        = Float64.finite (2147483656796093 / 17592186044416) := by
  have ha : ((10 : Fin 24) : ℕ) = 10 := rfl
  have hb : ((13 : Fin 24) : ℕ) = 13 := rfl
  have hd : (((10 : Fin 24) : ℕ) : ℤ) - (((13 : Fin 24) : ℕ) : ℤ) = -3 := rfl
  have hf : priorityFormula TXFEE 35840 10 13 = 15625 / 128 := by
    unfold priorityFormula TXFEE
    rw [ha, hb]
    norm_num
  have h1 : roundNearest (((5000000 : ℤ)) : ℚ) = ((5000000 : ℤ) : ℚ) :=
    roundNearest_intCast 5000000 (by norm_num)
  have h2 : roundNearest (((5000000 : ℤ) : ℚ) / ((35840 : ℕ) : ℚ))
      = (4908534052571429 : ℤ) * (2 : ℚ) ^ (-45 : ℤ) := by
    apply roundNearest_eval _ 7 (-45) 4908534052571429 (by decide)
    · rw [abs_of_nonneg (by norm_num)]; norm_num
    · rw [abs_of_nonneg (by norm_num)]; norm_num
    · rw [abs_lt]; constructor <;> norm_num
  have h3 : roundNearest (((-3 : ℤ) : ℚ) / 24) = -1 / 8 := by
    have : ((-3 : ℤ) : ℚ) / 24 = ((-1 : ℤ) : ℚ) * (2 : ℚ) ^ (-3 : ℤ) := by norm_num
    rw [this, roundNearest_of_isFloat ⟨-1, -3, by norm_num, by norm_num, rfl⟩]
    norm_num
  have h4 : roundNearest ((1 : ℚ) + -1 / 8) = 7 / 8 := by
    have : (1 : ℚ) + -1 / 8 = ((7 : ℤ) : ℚ) * (2 : ℚ) ^ (-3 : ℤ) := by norm_num
    rw [this, roundNearest_of_isFloat ⟨7, -3, by norm_num, by norm_num, rfl⟩]
    norm_num
  have h5 : roundNearest (((4908534052571429 : ℤ) : ℚ) * (2 : ℚ) ^ (-45 : ℤ) * (7 / 8))
      = (8589934592000001 : ℤ) * (2 : ℚ) ^ (-46 : ℤ) := by
    apply roundNearest_eval _ 6 (-46) 8589934592000001 (by decide)
    · rw [abs_of_nonneg (by norm_num)]; norm_num
    · rw [abs_of_nonneg (by norm_num)]; norm_num
    · rw [abs_lt]; constructor <;> norm_num
  have hx : priorityFloat TXFEE 35840 10 13 = 8589934592000001 / 70368744177664 := by
    unfold priorityFloat TXFEE
    rw [hd, h1, h2, h3, h4, h5]
    norm_num
  have hk : roundHalfEven ((8589934592000001 / 70368744177664 : ℚ) * 10 ^ 6) = 122070313 := by
    apply roundHalfEven_eq_of_abs_lt
    rw [abs_lt]; constructor <;> norm_num
  have hr : roundNearest (((122070313 : ℤ) : ℚ) / 10 ^ 6)
      = (8589934627184372 : ℤ) * (2 : ℚ) ^ (-46 : ℤ) := by
    apply roundNearest_eval _ 6 (-46) 8589934627184372 (by decide)
    · rw [abs_of_nonneg (by norm_num)]; norm_num
    · rw [abs_of_nonneg (by norm_num)]; norm_num
    · rw [abs_lt]; constructor <;> norm_num
  have hi : Int64 TXFEE = TXFEE :=
    Int64_of_range TXFEE (by norm_num [TXFEE]) (by norm_num [TXFEE])
  refine ⟨hf, hx, ?_, ?_⟩
  · rw [hx]
    unfold Sprintf_f
    simp only []
    rw [abs_of_nonneg (by norm_num), hk]
    have hn : ¬ ((8589934592000001 / 70368744177664 : ℚ) < 0) := by norm_num
    rw [decide_eq_false hn]
    rfl
  · have h := GetPriorityLvl_eval TXFEE (fun _ => [35840]) (fun _ => 13) 10 sampleTx
      (by rw [hi]; decide) (by decide) (by norm_num)
    have hs : ([35840] : List ℕ).sum = 35840 := rfl
    simp only [hs, hi] at h
    rw [h, hx, hk, hr]
    norm_num

theorem priorityFloat_wrapped :
    priorityFloat 9223372036854775803 1024 10 10 = 9007199254740992 := by
  have hd : (((10 : Fin 24) : ℕ) : ℤ) - (((10 : Fin 24) : ℕ) : ℤ) = 0 := sub_self _
  have h1 : roundNearest ((9223372036854775803 : ℤ) : ℚ)
      = (9007199254740992 : ℤ) * (2 : ℚ) ^ (10 : ℤ) := by
    apply roundNearest_eval _ 62 10 9007199254740992 (by decide)
    · rw [abs_of_nonneg (by norm_num)]; norm_num
    · rw [abs_of_nonneg (by norm_num)]; norm_num
    · rw [abs_lt]; constructor <;> norm_num
  have h2 : roundNearest (1 : ℚ) = 1 := by
    have := roundNearest_intCast 1 (by norm_num)
    simpa using this
  have h3 : ((9007199254740992 : ℤ) : ℚ) * (2 : ℚ) ^ (10 : ℤ) / ((1024 : ℕ) : ℚ)
      = ((9007199254740992 : ℤ) : ℚ) := by norm_num
  have h4 : roundNearest ((9007199254740992 : ℤ) : ℚ) = ((9007199254740992 : ℤ) : ℚ) :=
    roundNearest_intCast _ (by norm_num)
  unfold priorityFloat
  rw [hd, h1, h3, h4]
  simp only [Int.cast_zero, zero_div, roundNearest_zero, add_zero, h2, mul_one]
  rw [h4]
  norm_num

/-- C4, as stated, fails.  With the fee 5,000,000, an encoded size of 300 bytes
and equal hours the formula gives 50000/3 and its `float64` evaluation
`4581298449066667 / 2^38`, while `GetPriorityLvl` returns the `float64` nearest
to 16666.666667, the text that `"%f"` prints: `4581298449158293 / 2^38`.
And the fee `2^63` is positive, yet `Int64()` reads it as `-2^63` and
`GetPriorityLvl` returns 0. -/
theorem GetPriorityLvl_formula_counterexample :
    sampleTx.GetPriorityLvl TXFEE (fun _ => [300]) (fun _ => 10) 10
      = Float64.finite (4581298449158293 / 274877906944)
    ∧ priorityFormula TXFEE 300 10 10 = 50000 / 3
    ∧ priorityFloat TXFEE 300 10 10 = 4581298449066667 / 274877906944
    ∧ sampleTx.GetPriorityLvl TXFEE (fun _ => [300]) (fun _ => 10) 10
        ≠ Float64.finite (priorityFormula TXFEE 300 10 10)
    ∧ sampleTx.GetPriorityLvl TXFEE (fun _ => [300]) (fun _ => 10) 10
        ≠ Float64.finite (priorityFloat TXFEE 300 10 10)
    ∧ sampleTx.GetPriorityLvl (2 ^ 63) (fun _ => [300]) (fun _ => 10) 10 = Float64.finite 0 := by
  have hf : priorityFormula TXFEE 300 10 10 = 50000 / 3 := by
    have ha : ((10 : Fin 24) : ℕ) = 10 := rfl
    unfold priorityFormula TXFEE
    rw [ha]
    norm_num
  have hi : Int64 TXFEE = TXFEE :=
    Int64_of_range TXFEE (by norm_num [TXFEE]) (by norm_num [TXFEE])
  have hk : roundHalfEven ((4581298449066667 / 274877906944 : ℚ) * 10 ^ 6) = 16666666667 := by
    apply roundHalfEven_eq_of_abs_lt
    rw [abs_lt]; constructor <;> norm_num
  have hr : roundNearest (((16666666667 : ℤ) : ℚ) / 10 ^ 6)
      = (4581298449158293 : ℤ) * (2 : ℚ) ^ (-38 : ℤ) := by
    apply roundNearest_eval _ 14 (-38) 4581298449158293 (by decide)
    · rw [abs_of_nonneg (by norm_num)]; norm_num
    · rw [abs_of_nonneg (by norm_num)]; norm_num
    · rw [abs_lt]; constructor <;> norm_num
  have hg : sampleTx.GetPriorityLvl TXFEE (fun _ => [300]) (fun _ => 10) 10
      = Float64.finite (4581298449158293 / 274877906944) := by
    have h := GetPriorityLvl_eval TXFEE (fun _ => [300]) (fun _ => 10) 10 sampleTx
      (by rw [hi]; decide) (by decide) (by norm_num)
    have hs : ([300] : List ℕ).sum = 300 := rfl
    simp only [hs, hi] at h
    rw [h, priorityFloat_third, hk, hr]
    norm_num
  have hw : Int64 (2 ^ 63) = -(2 ^ 63) := by decide
  refine ⟨hg, hf, priorityFloat_third, ?_, ?_, ?_⟩
  · rw [hg, hf]
    intro hc
    have := Float64.finite.inj hc
    norm_num at this
  · rw [hg, priorityFloat_third]
    intro hc
    have := Float64.finite.inj hc
    norm_num at this
  · unfold TxPoolTransaction.GetPriorityLvl Transaction.Fee
    rw [hw, if_neg (by norm_num)]

/-- C4, amended: for a fee `0 < fee < 2^63` (what `Int64()` reads is then the
fee) and an encoded size of 1 to `2^53` bytes (the `float64` counter of `Size`
is then the number of bytes), `GetPriorityLvl` returns a finite `float64`: the value `x` that `float64` arithmetic gives the formula
`v = (fee / size) * (1 + (hour(now) - hour(creation)) / 24)`, printed with six
decimals by `"%f"` and parsed back.  The result is within `10^(-6)` of `x`,
equals `x` when `x` has at most six decimals, `x` is within `v / 2^48` of `v`,
and for fee 5,000,000, size 1000, hours 10 and 16 the result is exactly 6250. -/
theorem GetPriorityLvl_six_decimals {M : Type} (txfee : Int)
    (encode : Transaction M → List Nat) (Hour : String → Fin 24) (nowHour : Fin 24)
    (tx : TxPoolTransaction M)
    (hfee : 0 < txfee) (hmax : txfee < 2 ^ 63)
    (hsize : 0 < (encode tx.toTransaction).sum) (hsmax : (encode tx.toTransaction).sum ≤ 2 ^ 53) :
    tx.toTransaction.Size encode = Float64.finite (((encode tx.toTransaction).sum : ℕ) : ℚ)
    ∧ tx.GetPriorityLvl txfee encode Hour nowHour
      = Float64.finite (roundNearest ((roundHalfEven
          (priorityFloat txfee (encode tx.toTransaction).sum nowHour (Hour tx.CreationDate)
            * 10 ^ 6) : ℚ) / 10 ^ 6))
    ∧ |roundNearest ((roundHalfEven
          (priorityFloat txfee (encode tx.toTransaction).sum nowHour (Hour tx.CreationDate)
            * 10 ^ 6) : ℚ) / 10 ^ 6)
        - priorityFloat txfee (encode tx.toTransaction).sum nowHour (Hour tx.CreationDate)|
        ≤ 1 / 10 ^ 6
    ∧ ((∃ n : ℤ, priorityFloat txfee (encode tx.toTransaction).sum nowHour
          (Hour tx.CreationDate) * 10 ^ 6 = (n : ℚ)) →
        tx.GetPriorityLvl txfee encode Hour nowHour
          = Float64.finite
              (priorityFloat txfee (encode tx.toTransaction).sum nowHour (Hour tx.CreationDate)))
    ∧ |priorityFloat txfee (encode tx.toTransaction).sum nowHour (Hour tx.CreationDate)
        - priorityFormula txfee (encode tx.toTransaction).sum nowHour (Hour tx.CreationDate)|
        ≤ priorityFormula txfee (encode tx.toTransaction).sum nowHour (Hour tx.CreationDate)
            / 2 ^ 48
    ∧ (txfee = 5000000 → (encode tx.toTransaction).sum = 1000 → Hour tx.CreationDate = 10 →
        nowHour = 16 →
        tx.GetPriorityLvl txfee encode Hour nowHour = Float64.finite 6250) := by
  have hi : Int64 txfee = txfee := Int64_of_range txfee (by omega) hmax
  have hr := GetPriorityLvl_eval txfee encode Hour nowHour tx (by rw [hi]; exact hfee)
    hsize hsmax
  rw [hi] at hr
  have hx : IsFloat (priorityFloat txfee (encode tx.toTransaction).sum nowHour
      (Hour tx.CreationDate)) := isFloat_roundNearest _
  refine ⟨Size_eq_sum encode tx.toTransaction hsmax, hr, six_decimals_error hx, ?_,
    priorityFloat_error txfee _ nowHour (Hour tx.CreationDate) hfee hsize hsmax, ?_⟩
  · rintro ⟨n, hn⟩
    rw [hr, six_decimals_exact hx n hn]
  · intro h1 h2 h3 h4
    have ha : (((16 : Fin 24) : ℕ) : ℤ) - (((10 : Fin 24) : ℕ) : ℤ) = 6 := rfl
    have e1 : roundNearest ((5000000 : ℤ) : ℚ) = ((5000000 : ℤ) : ℚ) :=
      roundNearest_intCast 5000000 (by norm_num)
    have e2 : ((5000000 : ℤ) : ℚ) / ((1000 : ℕ) : ℚ) = ((5000 : ℤ) : ℚ) := by norm_num
    have e3 : roundNearest ((5000 : ℤ) : ℚ) = ((5000 : ℤ) : ℚ) :=
      roundNearest_intCast 5000 (by norm_num)
    have e4 : roundNearest (((6 : ℤ) : ℚ) / 24) = 1 / 4 := by
      have : ((6 : ℤ) : ℚ) / 24 = ((1 : ℤ) : ℚ) * (2 : ℚ) ^ (-2 : ℤ) := by norm_num
      rw [this, roundNearest_of_isFloat ⟨1, -2, by norm_num, by norm_num, rfl⟩]
      norm_num
    have e5 : roundNearest ((1 : ℚ) + 1 / 4) = 5 / 4 := by
      have : (1 : ℚ) + 1 / 4 = ((5 : ℤ) : ℚ) * (2 : ℚ) ^ (-2 : ℤ) := by norm_num
      rw [this, roundNearest_of_isFloat ⟨5, -2, by norm_num, by norm_num, rfl⟩]
      norm_num
    have e6 : ((5000 : ℤ) : ℚ) * (5 / 4) = ((6250 : ℤ) : ℚ) := by norm_num
    have e7 : roundNearest ((6250 : ℤ) : ℚ) = ((6250 : ℤ) : ℚ) :=
      roundNearest_intCast 6250 (by norm_num)
    have hv : priorityFloat 5000000 1000 16 10 = ((6250 : ℤ) : ℚ) := by
      unfold priorityFloat
      rw [ha, e1, e2, e3, e4, e5, e6, e7]
    have hk : ((6250 : ℤ) : ℚ) * 10 ^ 6 = ((6250000000 : ℤ) : ℚ) := by norm_num
    have e8 : ((6250000000 : ℤ) : ℚ) / 10 ^ 6 = ((6250 : ℤ) : ℚ) := by norm_num
    rw [hr, h1, h2, h3, h4, hv, hk, roundHalfEven_intCast, e8, e7]
    norm_num

theorem GetPriorityLvl_six_decimals_witness :
    sampleTx.GetPriorityLvl TXFEE (fun _ => [1000]) (fun _ => 10) 16 = Float64.finite 6250 :=
  (GetPriorityLvl_six_decimals TXFEE (fun _ => [1000]) (fun _ => 10) 16 sampleTx
    (by decide) (by decide) (by decide) (by norm_num)).2.2.2.2.2 rfl rfl rfl rfl

/-- C5, as stated, fails: the fee `-(2^63 + 5)` is negative, `Int64()` reads it
as `2^63 - 5`, the guard passes, and with 1024 encoded bytes and equal hours
`GetPriorityLvl` returns `2^53`, not 0. -/
theorem GetPriorityLvl_negative_fee_counterexample :
    (-9223372036854775813 : ℤ) ≤ 0
    ∧ Int64 (-9223372036854775813) = 9223372036854775803
    ∧ sampleTx.GetPriorityLvl (-9223372036854775813) (fun _ => [1024]) (fun _ => 10) 10
        = Float64.finite 9007199254740992
    ∧ sampleTx.GetPriorityLvl (-9223372036854775813) (fun _ => [1024]) (fun _ => 10) 10
        ≠ Float64.finite 0 := by
  have hi : Int64 (-9223372036854775813) = 9223372036854775803 := by decide
  have hg : sampleTx.GetPriorityLvl (-9223372036854775813) (fun _ => [1024]) (fun _ => 10) 10
      = Float64.finite 9007199254740992 := by
    have h := GetPriorityLvl_eval (-9223372036854775813) (fun _ => [1024]) (fun _ => 10) 10
      sampleTx (by rw [hi]; decide) (by decide) (by norm_num)
    have hs : ([1024] : List ℕ).sum = 1024 := rfl
    have hk : (9007199254740992 : ℚ) * 10 ^ 6 = ((9007199254740992000000 : ℤ) : ℚ) := by
      norm_num
    have e8 : ((9007199254740992000000 : ℤ) : ℚ) / 10 ^ 6 = ((9007199254740992 : ℤ) : ℚ) := by
      norm_num
    simp only [hs, hi] at h
    rw [h, priorityFloat_wrapped, hk, roundHalfEven_intCast, e8,
      roundNearest_intCast _ (by norm_num)]
    norm_num
  refine ⟨by decide, hi, hg, ?_⟩
  rw [hg]
  intro hc
  have := Float64.finite.inj hc
  norm_num at this

/-- C5, amended: when the fee as `Int64()` reads it is zero or negative, and so
for every fee from `-2^63` to 0, `GetPriorityLvl` returns 0, whatever the
encoded size, the creation date and the current hour. -/
theorem GetPriorityLvl_zero_fee {M : Type} (txfee : Int) (encode : Transaction M → List Nat)
    (Hour : String → Fin 24) (nowHour : Fin 24) (tx : TxPoolTransaction M) :
    (Int64 txfee ≤ 0 → tx.GetPriorityLvl txfee encode Hour nowHour = Float64.finite 0)
    ∧ (-(2 ^ 63) ≤ txfee → txfee ≤ 0 →
        tx.GetPriorityLvl txfee encode Hour nowHour = Float64.finite 0) := by
  have h : Int64 txfee ≤ 0 → tx.GetPriorityLvl txfee encode Hour nowHour = Float64.finite 0 := by
    intro hfee
    unfold TxPoolTransaction.GetPriorityLvl Transaction.Fee
    rw [if_neg (not_lt.mpr hfee)]
  refine ⟨h, fun h1 h2 => h ?_⟩
  rw [Int64_of_range txfee h1 (by omega)]
  exact h2

theorem GetPriorityLvl_zero_fee_witness :
    sampleTx.GetPriorityLvl 0 (fun _ => [1000]) (fun _ => 10) 16 = Float64.finite 0 :=
  (GetPriorityLvl_zero_fee 0 (fun _ => [1000]) (fun _ => 10) 16 sampleTx).2
    (by decide) (by decide)

end modules

namespace heap

/-! ## The round bounds of `up` and `down` are not cut-offs -/

/-- Once `n ≤ i + fuel`, more rounds change nothing: `down` has left its loop. -/
theorem downLoop_fuel_succ {σ X : Type} (h : Interface σ X) (fuel : Nat) :
    ∀ (s : σ) (i n : Nat), n ≤ i + fuel →
      downLoop h (fuel + 1) s i n = downLoop h fuel s i n := by
  induction fuel with
  | zero =>
    intro s i n hn
    have h0 : n ≤ 2 * i + 1 := by omega
    simp only [downLoop, if_pos h0]
  | succ fuel ih =>
    intro s i n hn
    rw [downLoop]
    conv => rhs; rw [downLoop]
    by_cases h0 : n ≤ 2 * i + 1
    · simp only [if_pos h0]
    · simp only [if_neg h0]
      split_ifs with h1 h2 h3
      · rfl
      · exact ih _ _ n (by omega)
      · rfl
      · exact ih _ _ n (by omega)

/-- Once `j ≤ fuel`, more rounds change nothing: `up` has left its loop. -/
theorem upLoop_fuel_succ {σ X : Type} (h : Interface σ X) (fuel : Nat) :
    ∀ (s : σ) (j : Nat), j ≤ fuel → upLoop h (fuel + 1) s j = upLoop h fuel s j := by
  induction fuel with
  | zero =>
    intro s j hj
    have h0 : (j - 1) / 2 = j := by omega
    simp only [upLoop, h0, true_or, if_true]
  | succ fuel ih =>
    intro s j hj
    rw [upLoop]
    conv => rhs; rw [upLoop]
    by_cases h0 : (j - 1) / 2 = j ∨ h.Less s j ((j - 1) / 2) = false
    · simp only [if_pos h0]
    · simp only [if_neg h0]
      have hne : (j - 1) / 2 ≠ j := fun e => h0 (Or.inl e)
      exact ih _ _ (by omega)

end heap

namespace modules

/-! ## Facts about swapping two places of a list -/

theorem swap_head_perm {α : Type} (a : α) (l : List α) (j : Nat) (d : α) (hj : j < l.length) :
    List.Perm (l.getD j d :: l.set j a) (a :: l) := by
  induction l generalizing j with
  | nil => simp at hj
  | cons b l ih =>
    cases j with
    | zero => simpa using List.Perm.swap a b l
    | succ j =>
      have hj1 : j < l.length := by simpa using hj
      have h1 := ih j hj1
      simp only [List.getD_cons_succ, List.set_cons_succ]
      exact (List.Perm.swap b (l.getD j d) (l.set j a)).trans
        ((List.Perm.cons b h1).trans (List.Perm.swap a b l))

theorem swap_perm {α : Type} (s : List α) (i j : Nat) (d : α)
    (hi : i < s.length) (hj : j < s.length) :
    List.Perm ((s.set i (s.getD j d)).set j (s.getD i d)) s := by
  induction s generalizing i j with
  | nil => simp
  | cons a l ih =>
    cases i with
    | zero =>
      cases j with
      | zero => simp
      | succ j =>
        have hj1 : j < l.length := by simpa using hj
        simpa using swap_head_perm a l j d hj1
    | succ i =>
      have hi1 : i < l.length := by simpa using hi
      cases j with
      | zero => simpa using swap_head_perm a l i d hi1
      | succ j =>
        have hj1 : j < l.length := by simpa using hj
        simpa using ih i j hi1 hj1

theorem swap_getD {α : Type} (s : List α) (i j k : Nat) (d : α)
    (hi : i < s.length) (hj : j < s.length) :
    ((s.set i (s.getD j d)).set j (s.getD i d)).getD k d
      = if k = j then s.getD i d else if k = i then s.getD j d else s.getD k d := by
  simp only [List.getD_eq_getElem?_getD, List.getElem?_set, List.length_set]
  by_cases hkj : k = j
  · subst hkj
    simp [hj]
  · have hjk : ¬ j = k := fun h => hkj h.symm
    simp only [hkj, hjk, if_false]
    by_cases hki : k = i
    · subst hki
      simp [hi]
    · have hik : ¬ i = k := fun h => hki h.symm
      simp [hki, hik]

/-! ## Facts about `container/heap` over `TxByPriority` -/

theorem heapInterface_Less (M : Type) :
    (TxByPriority.heapInterface M).Less = TxByPriority.Less := rfl

theorem heapInterface_Swap (M : Type) :
    (TxByPriority.heapInterface M).Swap = TxByPriority.Swap := rfl

theorem heapInterface_Len (M : Type) :
    (TxByPriority.heapInterface M).Len = TxByPriority.Len := rfl

theorem heapInterface_Pop (M : Type) :
    (TxByPriority.heapInterface M).Pop = TxByPriority.Pop := rfl

theorem heapInterface_Push (M : Type) :
    (TxByPriority.heapInterface M).Push = TxByPriority.Push := rfl

theorem Float64.gt_eq_true_iff {a b : Float64} (ha : a.isNaN = false) (hb : b.isNaN = false) :
    Float64.gt a b = true ↔ b.key < a.key := by
  simp [Float64.gt, ha, hb]

theorem Float64.gt_eq_false_iff {a b : Float64} (ha : a.isNaN = false) (hb : b.isNaN = false) :
    Float64.gt a b = false ↔ a.key ≤ b.key := by
  simp [Float64.gt, ha, hb]

theorem Float64.ge_eq_true_iff {a b : Float64} (ha : a.isNaN = false) (hb : b.isNaN = false) :
    Float64.ge a b = true ↔ b.key ≤ a.key := by
  simp [Float64.ge, ha, hb]

/-- Without NaN in the collection, no index reads NaN: out of range the zero
value is read, whose priority is 0. -/
theorem NoNaN_getD {M : Type} (s : TxByPriority M) (hs : TxByPriority.NoNaN s) (k : Nat) :
    (s.getD k default).Priority_lvl.isNaN = false := by
  by_cases hk : k < s.length
  · rw [List.getD_eq_getElem s default hk]
    exact hs _ (List.getElem_mem hk)
  · rw [List.getD_eq_default s default (by omega)]
    rfl

theorem NoNaN_perm {M : Type} {s t : TxByPriority M} (h : List.Perm s t)
    (ht : TxByPriority.NoNaN t) : TxByPriority.NoNaN s :=
  fun x hx => ht x (h.subset hx)

theorem NoNaN_Swap {M : Type} (s : TxByPriority M) (hs : TxByPriority.NoNaN s) (i j : Nat) :
    TxByPriority.NoNaN (TxByPriority.Swap s i j) := by
  intro x hx
  unfold TxByPriority.Swap at hx
  rcases List.mem_or_eq_of_mem_set hx with h1 | h1
  · rcases List.mem_or_eq_of_mem_set h1 with h2 | h2
    · exact hs x h2
    · rw [h2]
      exact NoNaN_getD s hs j
  · rw [h1]
    exact NoNaN_getD s hs i

theorem Less_eq_false_iff {M : Type} (s : TxByPriority M) (hs : TxByPriority.NoNaN s)
    (a b : Nat) :
    TxByPriority.Less s a b = false ↔ TxByPriority.prio s a ≤ TxByPriority.prio s b := by
  unfold TxByPriority.Less TxByPriority.prio
  exact Float64.gt_eq_false_iff (NoNaN_getD s hs a) (NoNaN_getD s hs b)

theorem Less_eq_true_iff {M : Type} (s : TxByPriority M) (hs : TxByPriority.NoNaN s)
    (a b : Nat) :
    TxByPriority.Less s a b = true ↔ TxByPriority.prio s b < TxByPriority.prio s a := by
  unfold TxByPriority.Less TxByPriority.prio
  exact Float64.gt_eq_true_iff (NoNaN_getD s hs a) (NoNaN_getD s hs b)

theorem isHeap_iff {M : Type} (s : TxByPriority M) (hs : TxByPriority.NoNaN s) (n : Nat) :
    TxByPriority.IsHeap s n ↔
      ∀ j, 0 < j → j < n → TxByPriority.prio s j ≤ TxByPriority.prio s ((j - 1) / 2) := by
  unfold TxByPriority.IsHeap
  simp only [Less_eq_false_iff s hs]

theorem isHeap_iff_from {M : Type} (s : TxByPriority M) (hs : TxByPriority.NoNaN s) (n : Nat) :
    TxByPriority.IsHeap s n ↔ TxByPriority.IsHeapFrom s n 0 := by
  rw [isHeap_iff s hs]
  unfold TxByPriority.IsHeapFrom
  constructor
  · intro h j h0 hn _
    exact h j h0 hn
  · intro h j h0 hn
    exact h j h0 hn (Nat.zero_le _)

theorem prio_swap {M : Type} (s : TxByPriority M) (i j k : Nat)
    (hi : i < s.length) (hj : j < s.length) :
    TxByPriority.prio (TxByPriority.Swap s i j) k
      = if k = j then TxByPriority.prio s i
        else if k = i then TxByPriority.prio s j else TxByPriority.prio s k := by
  unfold TxByPriority.prio TxByPriority.Swap
  rw [swap_getD s i j k default hi hj]
  split_ifs <;> rfl

theorem downLoop_isHeapFrom {M : Type} (fuel : Nat) :
    ∀ (s : TxByPriority M) (i n lo : Nat), TxByPriority.NoNaN s →
      lo ≤ i → n ≤ s.length → n ≤ i + fuel →
      TxByPriority.HeapExcept s n lo i →
      TxByPriority.IsHeapFrom (heap.downLoop (TxByPriority.heapInterface M) fuel s i n) n lo := by
  induction fuel with
  | zero =>
    intro s i n lo _ _ _ hfuel hex
    intro j h0 hjn hlo
    exact hex.1 j h0 hjn hlo (by omega)
  | succ fuel ih =>
    intro s i n lo hs hlo hlen hfuel hex
    unfold heap.downLoop
    simp only [heapInterface_Less, heapInterface_Swap]
    by_cases hn : n ≤ 2 * i + 1
    · rw [if_pos hn]
      intro j h0 hjn hjlo
      exact hex.1 j h0 hjn hjlo (by omega)
    · rw [if_neg hn]
      -- the child that `down` compares with `i`
      obtain ⟨j, hjdef, hjcases, hjbest⟩ :
          ∃ j, j = (if 2 * i + 1 + 1 < n ∧ TxByPriority.Less s (2 * i + 1 + 1) (2 * i + 1) = true
              then 2 * i + 1 + 1 else 2 * i + 1)
            ∧ (j = 2 * i + 1 ∨ j = 2 * i + 2)
            ∧ (∀ c, c < n → (c = 2 * i + 1 ∨ c = 2 * i + 2) →
                TxByPriority.prio s c ≤ TxByPriority.prio s j) ∧ j < n := by
        by_cases hc : 2 * i + 1 + 1 < n ∧
            TxByPriority.Less s (2 * i + 1 + 1) (2 * i + 1) = true
        · refine ⟨2 * i + 2, by rw [if_pos hc], Or.inr rfl, ?_, by omega⟩
          intro c _ hcc
          rcases hcc with rfl | rfl
          · exact le_of_lt ((Less_eq_true_iff s hs _ _).mp hc.2)
          · exact le_refl _
        · refine ⟨2 * i + 1, by rw [if_neg hc], Or.inl rfl, ?_, by omega⟩
          intro c hcn hcc
          rcases hcc with rfl | rfl
          · exact le_refl _
          · have hl : TxByPriority.Less s (2 * i + 1 + 1) (2 * i + 1) = false := by
              by_contra hcon
              exact hc ⟨hcn, by simpa using hcon⟩
            exact (Less_eq_false_iff s hs _ _).mp hl
      obtain ⟨hjbest, hjn⟩ := hjbest
      rw [← hjdef]
      by_cases hless : TxByPriority.Less s j i = false
      · rw [if_pos hless]
        intro c h0 hcn hclo
        by_cases hp : (c - 1) / 2 = i
        · rw [hp]
          exact le_trans (hjbest c hcn (by omega)) ((Less_eq_false_iff s hs _ _).mp hless)
        · exact hex.1 c h0 hcn hclo hp
      · rw [if_neg hless]
        have hlt : TxByPriority.prio s i < TxByPriority.prio s j :=
          (Less_eq_true_iff s hs _ _).mp (by simpa using hless)
        have hi : i < s.length := by omega
        have hj : j < s.length := by omega
        apply ih
        · exact NoNaN_Swap s hs i j
        · omega
        · unfold TxByPriority.Swap
          simpa using hlen
        · omega
        · have hij : i ≠ j := by omega
          have hpj : (j - 1) / 2 = i := by omega
          have eL : TxByPriority.prio (TxByPriority.Swap s i j) i = TxByPriority.prio s j := by
            rw [prio_swap s i j i hi hj, if_neg hij, if_pos rfl]
          have eR : TxByPriority.prio (TxByPriority.Swap s i j) j = TxByPriority.prio s i := by
            rw [prio_swap s i j j hi hj, if_pos rfl]
          have eN : ∀ k, k ≠ i → k ≠ j →
              TxByPriority.prio (TxByPriority.Swap s i j) k = TxByPriority.prio s k := by
            intro k hki hkj
            rw [prio_swap s i j k hi hj, if_neg hkj, if_neg hki]
          constructor
          · intro c h0 hcn hclo hp
            by_cases hcj : c = j
            · rw [hcj, hpj, eR, eL]
              exact le_of_lt hlt
            · by_cases hci : c = i
              · have hi0 : 0 < i := by omega
                rw [hci, eL, eN ((i - 1) / 2) (by omega) (by omega)]
                exact hex.2 j (by omega) hjn hpj hi0 (by rw [← hci]; exact hclo)
              · by_cases hpi : (c - 1) / 2 = i
                · rw [hpi, eL, eN c hci hcj]
                  exact hjbest c hcn (by omega)
                · rw [eN c hci hcj, eN ((c - 1) / 2) hpi hp]
                  exact hex.1 c h0 hcn hclo hpi
          · intro c h0 hcn hp _ _
            rw [hpj, eL, eN c (by omega) (by omega)]
            have h := hex.1 c h0 hcn (by omega) (by omega)
            rw [hp] at h
            exact h

theorem downLoop_length {M : Type} (fuel : Nat) :
    ∀ (s : TxByPriority M) (i n : Nat),
      (heap.downLoop (TxByPriority.heapInterface M) fuel s i n).length = s.length := by
  induction fuel with
  | zero => intro s i n; rfl
  | succ fuel ih =>
    intro s i n
    unfold heap.downLoop
    simp only [heapInterface_Less, heapInterface_Swap]
    split_ifs
    · rfl
    · rfl
    · rw [ih]; simp [TxByPriority.Swap]
    · rfl
    · rw [ih]; simp [TxByPriority.Swap]

theorem downLoop_perm {M : Type} (fuel : Nat) :
    ∀ (s : TxByPriority M) (i n : Nat), n ≤ s.length →
      List.Perm (heap.downLoop (TxByPriority.heapInterface M) fuel s i n) s := by
  induction fuel with
  | zero => intro s i n _; exact List.Perm.refl _
  | succ fuel ih =>
    intro s i n hlen
    unfold heap.downLoop
    simp only [heapInterface_Less, heapInterface_Swap]
    have hsw : ∀ j, 2 * i + 1 ≤ j → j < n →
        List.Perm (heap.downLoop (TxByPriority.heapInterface M) fuel
          (TxByPriority.Swap s i j) j n) s := by
      intro j h1 h2
      have hl : (TxByPriority.Swap s i j).length = s.length := by simp [TxByPriority.Swap]
      exact (ih (TxByPriority.Swap s i j) j n (by rw [hl]; exact hlen)).trans
        (swap_perm s i j default (by omega) (by omega))
    split_ifs with h1 h2 h3 h4
    · exact List.Perm.refl _
    · exact List.Perm.refl _
    · exact hsw _ (by omega) h2.1
    · exact List.Perm.refl _
    · exact hsw _ (by omega) (by omega)

theorem downLoop_getD_above {M : Type} (fuel : Nat) :
    ∀ (s : TxByPriority M) (i n k : Nat), n ≤ s.length → n ≤ k →
      (heap.downLoop (TxByPriority.heapInterface M) fuel s i n).getD k default
        = s.getD k default := by
  induction fuel with
  | zero => intro s i n k _ _; rfl
  | succ fuel ih =>
    intro s i n k hlen hk
    unfold heap.downLoop
    simp only [heapInterface_Less, heapInterface_Swap]
    have hsw : ∀ j, 2 * i + 1 ≤ j → j < n →
        (heap.downLoop (TxByPriority.heapInterface M) fuel
          (TxByPriority.Swap s i j) j n).getD k default = s.getD k default := by
      intro j h1 h2
      have hl : (TxByPriority.Swap s i j).length = s.length := by simp [TxByPriority.Swap]
      rw [ih (TxByPriority.Swap s i j) j n k (by rw [hl]; exact hlen) hk]
      unfold TxByPriority.Swap
      rw [swap_getD s i j k default (by omega) (by omega), if_neg (by omega), if_neg (by omega)]
    split_ifs with h1 h2 h3 h4
    · rfl
    · rfl
    · exact hsw _ (by omega) h2.1
    · rfl
    · exact hsw _ (by omega) (by omega)

theorem isHeap_root_max {M : Type} (s : TxByPriority M) (hs : TxByPriority.NoNaN s) (n : Nat)
    (hheap : TxByPriority.IsHeap s n) :
    ∀ k, k < n → TxByPriority.prio s k ≤ TxByPriority.prio s 0 := by
  rw [isHeap_iff s hs] at hheap
  intro k
  induction k using Nat.strong_induction_on with
  | _ k ih =>
    intro hk
    by_cases h0 : k = 0
    · rw [h0]
    · exact le_trans (hheap k (by omega) hk) (ih ((k - 1) / 2) (by omega) (by omega))

theorem TxByPriority_Pop_eq {M : Type} (s : TxByPriority M) (n : Nat) (hlen : s.length = n + 1) :
    TxByPriority.Pop s = some (s.getD n default, s.take n)
    ∧ s = s.take n ++ [s.getD n default] := by
  have hn : n < s.length := by omega
  have hlast : s.getLast? = some (s.getD n default) := by
    rw [List.getLast?_eq_getElem?, hlen, Nat.add_sub_cancel, List.getD_eq_getElem s default hn,
      List.getElem?_eq_getElem hn]
  constructor
  · unfold TxByPriority.Pop
    rw [hlast, hlen, Nat.add_sub_cancel]
  · have hd : s.drop n = [s.getD n default] := by
      rw [List.getD_eq_getElem s default hn, List.drop_eq_getElem_cons hn,
        List.drop_of_length_le (by omega)]
    have h := List.take_append_drop n s
    rw [hd] at h
    exact h.symm

/-- One `heap.Pop` on a non-empty heap without NaN: it returns the root, which
has the highest priority, and leaves a heap of the other elements. -/
theorem heap_Pop_spec {M : Type} (s : TxByPriority M) (hne : s ≠ [])
    (hs : TxByPriority.NoNaN s)
    (hheap : TxByPriority.IsHeap s (TxByPriority.Len s)) :
    ∃ x s1, heap.Pop (TxByPriority.heapInterface M) s = some (x, s1)
      ∧ x = s.getD 0 default
      ∧ (∀ y ∈ s, Float64.ge x.Priority_lvl y.Priority_lvl = true)
      ∧ List.Perm (x :: s1) s
      ∧ TxByPriority.IsHeap s1 (TxByPriority.Len s1) := by
  obtain ⟨n, hn⟩ : ∃ n, s.length = n + 1 :=
    ⟨s.length - 1, by have := List.length_pos.mpr hne; omega⟩
  unfold TxByPriority.Len at hheap
  have hs1len : (TxByPriority.Swap s 0 n).length = s.length := by simp [TxByPriority.Swap]
  have hs2len : (heap.down (TxByPriority.heapInterface M) (TxByPriority.Swap s 0 n) 0 n).length
      = n + 1 := by
    unfold heap.down
    rw [downLoop_length, hs1len, hn]
  obtain ⟨hpop, hsplit⟩ := TxByPriority_Pop_eq _ n hs2len
  have hx : (heap.down (TxByPriority.heapInterface M) (TxByPriority.Swap s 0 n) 0 n).getD n default
      = s.getD 0 default := by
    unfold heap.down
    rw [downLoop_getD_above n _ 0 n n (by omega) (le_refl n)]
    unfold TxByPriority.Swap
    rw [swap_getD s 0 n n default (by omega) (by omega), if_pos rfl]
  have hperm : List.Perm
      (heap.down (TxByPriority.heapInterface M) (TxByPriority.Swap s 0 n) 0 n) s := by
    unfold heap.down
    exact (downLoop_perm n _ 0 n (by omega)).trans
      (swap_perm s 0 n default (by omega) (by omega))
  have hsw : TxByPriority.NoNaN (TxByPriority.Swap s 0 n) := NoNaN_Swap s hs 0 n
  have hsd : TxByPriority.NoNaN
      (heap.down (TxByPriority.heapInterface M) (TxByPriority.Swap s 0 n) 0 n) :=
    NoNaN_perm hperm hs
  have hst : TxByPriority.NoNaN
      ((heap.down (TxByPriority.heapInterface M) (TxByPriority.Swap s 0 n) 0 n).take n) :=
    fun x hx => hsd x (List.mem_of_mem_take hx)
  have hex : TxByPriority.HeapExcept (TxByPriority.Swap s 0 n) n 0 0 := by
    rw [isHeap_iff s hs] at hheap
    constructor
    · intro j h0 hjn _ hp
      rw [prio_swap s 0 n j (by omega) (by omega), if_neg (by omega), if_neg (by omega),
        prio_swap s 0 n ((j - 1) / 2) (by omega) (by omega), if_neg (by omega), if_neg hp]
      exact hheap j h0 (by omega)
    · intro j _ _ _ h
      exact absurd h (lt_irrefl 0)
  have hheap2 := (isHeap_iff_from _ hsd _).mpr
    (downLoop_isHeapFrom n (TxByPriority.Swap s 0 n) 0 n 0 hsw (le_refl 0) (by omega)
      (by omega) hex)
  refine ⟨s.getD 0 default,
    (heap.down (TxByPriority.heapInterface M) (TxByPriority.Swap s 0 n) 0 n).take n,
    ?_, rfl, ?_, ?_, ?_⟩
  · unfold heap.Pop
    simp only [heapInterface_Len, heapInterface_Swap, heapInterface_Pop, TxByPriority.Len]
    rw [if_neg (by omega), hn, Nat.add_sub_cancel, hpop, hx]
  · intro y hy
    obtain ⟨k, hk, rfl⟩ := List.getElem_of_mem hy
    have h := isHeap_root_max s hs s.length hheap k hk
    unfold TxByPriority.prio at h
    rw [List.getD_eq_getElem s default hk] at h
    exact (Float64.ge_eq_true_iff (NoNaN_getD s hs 0) (hs _ (List.getElem_mem hk))).mpr h
  · rw [← hx]
    refine List.Perm.trans ?_ hperm
    have h := @List.perm_append_comm _
      [(heap.down (TxByPriority.heapInterface M) (TxByPriority.Swap s 0 n) 0 n).getD n default]
      ((heap.down (TxByPriority.heapInterface M) (TxByPriority.Swap s 0 n) 0 n).take n)
    rw [← hsplit] at h
    exact h
  · rw [isHeap_iff _ hst]
    rw [isHeap_iff _ hsd] at hheap2
    have hl : TxByPriority.Len
        ((heap.down (TxByPriority.heapInterface M) (TxByPriority.Swap s 0 n) 0 n).take n) = n := by
      unfold TxByPriority.Len
      rw [List.length_take, hs2len]
      omega
    rw [hl]
    intro j h0 hjn
    have e : ∀ k, k < n → TxByPriority.prio
        ((heap.down (TxByPriority.heapInterface M) (TxByPriority.Swap s 0 n) 0 n).take n) k
        = TxByPriority.prio
          (heap.down (TxByPriority.heapInterface M) (TxByPriority.Swap s 0 n) 0 n) k := by
      intro k hk
      unfold TxByPriority.prio
      rw [List.getD_eq_getElem?_getD, List.getD_eq_getElem?_getD, List.getElem?_take_of_lt hk]
    rw [e j hjn, e ((j - 1) / 2) (by omega)]
    exact hheap2 j h0 hjn

theorem popAll_sorted {M : Type} (fuel : Nat) :
    ∀ (s : TxByPriority M), s.length ≤ fuel → TxByPriority.NoNaN s →
      TxByPriority.IsHeap s (TxByPriority.Len s) →
      List.Perm (heap.popAll (TxByPriority.heapInterface M) fuel s) s
      ∧ List.Pairwise (fun a b => Float64.ge a.Priority_lvl b.Priority_lvl = true)
          (heap.popAll (TxByPriority.heapInterface M) fuel s) := by
  induction fuel with
  | zero =>
    intro s hlen _ _
    have hs : s = [] := List.length_eq_zero.mp (by omega)
    subst hs
    exact ⟨List.Perm.refl _, List.Pairwise.nil⟩
  | succ fuel ih =>
    intro s hlen hnan hheap
    by_cases hne : s = []
    · subst hne
      exact ⟨List.Perm.refl _, List.Pairwise.nil⟩
    · obtain ⟨x, s1, hpop, _, hmax, hperm, hheap1⟩ := heap_Pop_spec s hne hnan hheap
      have hl : s1.length + 1 = s.length := by
        have := hperm.length_eq
        simpa using this
      have hnan1 : TxByPriority.NoNaN s1 :=
        fun y hy => hnan y (hperm.subset (List.mem_cons_of_mem x hy))
      obtain ⟨hp1, hs1⟩ := ih s1 (by omega) hnan1 hheap1
      unfold heap.popAll
      rw [hpop]
      refine ⟨(List.Perm.cons x hp1).trans hperm, List.Pairwise.cons ?_ hs1⟩
      intro y hy
      exact hmax y (hperm.subset (List.mem_cons_of_mem x (hp1.subset hy)))

theorem down_length {M : Type} (s : TxByPriority M) (i n : Nat) :
    (heap.down (TxByPriority.heapInterface M) s i n).length = s.length := by
  unfold heap.down
  exact downLoop_length n s i n

theorem Init_loop {M : Type} (n m : Nat) :
    ∀ (s : TxByPriority M), TxByPriority.NoNaN s → s.length = n →
      TxByPriority.IsHeapFrom s n m →
      TxByPriority.IsHeapFrom
        ((List.range m).reverse.foldl
          (fun s i => heap.down (TxByPriority.heapInterface M) s i n) s) n 0
      ∧ List.Perm ((List.range m).reverse.foldl
          (fun s i => heap.down (TxByPriority.heapInterface M) s i n) s) s := by
  induction m with
  | zero =>
    intro s _ _ h
    exact ⟨h, List.Perm.refl _⟩
  | succ m ih =>
    intro s hs hlen h
    rw [List.range_succ, List.reverse_append, List.reverse_singleton, List.singleton_append,
      List.foldl_cons]
    have hex : TxByPriority.HeapExcept s n m m := by
      constructor
      · intro j h0 hjn hlo hp
        exact h j h0 hjn (by omega)
      · intro j _ _ _ h0 hlo
        omega
    have h1 : TxByPriority.IsHeapFrom (heap.down (TxByPriority.heapInterface M) s m n) n m := by
      unfold heap.down
      exact downLoop_isHeapFrom n s m n m hs (le_refl m) (by omega) (by omega) hex
    have hp1 : List.Perm (heap.down (TxByPriority.heapInterface M) s m n) s := by
      unfold heap.down
      exact downLoop_perm n s m n (by omega)
    obtain ⟨h2, hp2⟩ := ih (heap.down (TxByPriority.heapInterface M) s m n)
      (NoNaN_perm hp1 hs) (by rw [down_length, hlen]) h1
    exact ⟨h2, hp2.trans hp1⟩

/-- `heap.Init` turns any list of pool transactions without NaN into a heap of
the same elements. -/
theorem heap_Init_isHeap {M : Type} (s : TxByPriority M) (hs : TxByPriority.NoNaN s) :
    TxByPriority.IsHeap (heap.Init (TxByPriority.heapInterface M) s)
      (TxByPriority.Len (heap.Init (TxByPriority.heapInterface M) s))
    ∧ List.Perm (heap.Init (TxByPriority.heapInterface M) s) s := by
  have h0 : TxByPriority.IsHeapFrom s s.length (s.length / 2) := by
    intro j _ hjn hlo
    omega
  obtain ⟨h1, hp⟩ := Init_loop s.length (s.length / 2) s hs rfl h0
  have hI : heap.Init (TxByPriority.heapInterface M) s
      = (List.range (s.length / 2)).reverse.foldl
          (fun s1 i => heap.down (TxByPriority.heapInterface M) s1 i s.length) s := rfl
  rw [hI]
  refine ⟨?_, hp⟩
  unfold TxByPriority.Len
  rw [hp.length_eq, isHeap_iff_from _ (NoNaN_perm hp hs)]
  exact h1

theorem upLoop_length {M : Type} (fuel : Nat) :
    ∀ (s : TxByPriority M) (j : Nat),
      (heap.upLoop (TxByPriority.heapInterface M) fuel s j).length = s.length := by
  induction fuel with
  | zero => intro s j; rfl
  | succ fuel ih =>
    intro s j
    unfold heap.upLoop
    simp only [heapInterface_Less, heapInterface_Swap]
    split_ifs
    · rfl
    · rw [ih]; simp [TxByPriority.Swap]

theorem upLoop_perm {M : Type} (fuel : Nat) :
    ∀ (s : TxByPriority M) (j : Nat), j < s.length →
      List.Perm (heap.upLoop (TxByPriority.heapInterface M) fuel s j) s := by
  induction fuel with
  | zero => intro s j _; exact List.Perm.refl _
  | succ fuel ih =>
    intro s j hj
    unfold heap.upLoop
    simp only [heapInterface_Less, heapInterface_Swap]
    split_ifs with h1
    · exact List.Perm.refl _
    · have hl : (TxByPriority.Swap s ((j - 1) / 2) j).length = s.length := by
        simp [TxByPriority.Swap]
      exact (ih (TxByPriority.Swap s ((j - 1) / 2) j) ((j - 1) / 2) (by rw [hl]; omega)).trans
        (swap_perm s ((j - 1) / 2) j default (by omega) hj)

theorem upLoop_isHeap {M : Type} (fuel : Nat) :
    ∀ (s : TxByPriority M) (j n : Nat), TxByPriority.NoNaN s →
      n ≤ s.length → j < n → j ≤ fuel →
      TxByPriority.UpExcept s n j →
      TxByPriority.IsHeap (heap.upLoop (TxByPriority.heapInterface M) fuel s j) n := by
  induction fuel with
  | zero =>
    intro s j n hs _ _ hfuel hex
    unfold heap.upLoop
    rw [isHeap_iff s hs]
    intro c h0 hcn
    exact hex.1 c h0 hcn (by omega)
  | succ fuel ih =>
    intro s j n hs hlen hjn hfuel hex
    unfold heap.upLoop
    simp only [heapInterface_Less, heapInterface_Swap]
    by_cases hbreak : (j - 1) / 2 = j ∨ TxByPriority.Less s j ((j - 1) / 2) = false
    · rw [if_pos hbreak, isHeap_iff s hs]
      intro c h0 hcn
      by_cases hcj : c = j
      · rcases hbreak with hb | hb
        · omega
        · rw [hcj]
          exact (Less_eq_false_iff s hs _ _).mp hb
      · exact hex.1 c h0 hcn hcj
    · rw [if_neg hbreak]
      have hj0 : 0 < j := by
        by_contra h
        exact hbreak (Or.inl (by omega))
      have hlt : TxByPriority.prio s ((j - 1) / 2) < TxByPriority.prio s j := by
        apply (Less_eq_true_iff s hs _ _).mp
        by_contra h
        exact hbreak (Or.inr (by simpa using h))
      have hi : (j - 1) / 2 < s.length := by omega
      have hj : j < s.length := by omega
      have hij : (j - 1) / 2 ≠ j := by omega
      have eL : TxByPriority.prio (TxByPriority.Swap s ((j - 1) / 2) j) ((j - 1) / 2)
          = TxByPriority.prio s j := by
        rw [prio_swap s _ j _ hi hj, if_neg hij, if_pos rfl]
      have eR : TxByPriority.prio (TxByPriority.Swap s ((j - 1) / 2) j) j
          = TxByPriority.prio s ((j - 1) / 2) := by
        rw [prio_swap s _ j j hi hj, if_pos rfl]
      have eN : ∀ k, k ≠ (j - 1) / 2 → k ≠ j →
          TxByPriority.prio (TxByPriority.Swap s ((j - 1) / 2) j) k = TxByPriority.prio s k := by
        intro k hki hkj
        rw [prio_swap s _ j k hi hj, if_neg hkj, if_neg hki]
      apply ih
      · exact NoNaN_Swap s hs _ _
      · unfold TxByPriority.Swap
        simpa using hlen
      · omega
      · omega
      · constructor
        · intro c h0 hcn hci
          by_cases hcj : c = j
          · rw [hcj, eR, eL]
            exact le_of_lt hlt
          · by_cases hpj : (c - 1) / 2 = j
            · rw [hpj, eR, eN c hci hcj]
              exact hex.2 c h0 hcn hpj hj0
            · by_cases hpi : (c - 1) / 2 = (j - 1) / 2
              · rw [hpi, eL, eN c hci hcj]
                have h := hex.1 c h0 hcn hcj
                rw [hpi] at h
                exact le_trans h (le_of_lt hlt)
              · rw [eN c hci hcj, eN ((c - 1) / 2) hpi hpj]
                exact hex.1 c h0 hcn hcj
        · intro c h0 hcn hp hi0
          have hpp1 : ((j - 1) / 2 - 1) / 2 ≠ (j - 1) / 2 := by omega
          have hpp2 : ((j - 1) / 2 - 1) / 2 ≠ j := by omega
          have hpar := hex.1 ((j - 1) / 2) hi0 (by omega) hij
          by_cases hcj : c = j
          · rw [hcj, eR, eN _ hpp1 hpp2]
            exact hpar
          · rw [eN c (by omega) hcj, eN _ hpp1 hpp2]
            have h := hex.1 c h0 hcn hcj
            rw [hp] at h
            exact le_trans h hpar

/-- `heap.Push` on a heap gives a heap of the old elements and the new one, as
long as none of them has the priority NaN. -/
theorem heap_Push_isHeap {M : Type} (s : TxByPriority M) (x : TxPoolTransaction M)
    (hs : TxByPriority.NoNaN s) (hx : x.Priority_lvl.isNaN = false)
    (hheap : TxByPriority.IsHeap s (TxByPriority.Len s)) :
    TxByPriority.IsHeap (heap.Push (TxByPriority.heapInterface M) s x)
      (TxByPriority.Len (heap.Push (TxByPriority.heapInterface M) s x))
    ∧ List.Perm (heap.Push (TxByPriority.heapInterface M) s x) (x :: s) := by
  have hP : heap.Push (TxByPriority.heapInterface M) s x
      = heap.upLoop (TxByPriority.heapInterface M) s.length (s ++ [x]) s.length := by
    unfold heap.Push heap.up
    simp [heapInterface_Push, heapInterface_Len, TxByPriority.Push, TxByPriority.Len]
  have hsx : TxByPriority.NoNaN (s ++ [x]) := by
    intro y hy
    rcases List.mem_append.mp hy with h1 | h1
    · exact hs y h1
    · rw [List.mem_singleton.mp h1]
      exact hx
  have hex : TxByPriority.UpExcept (s ++ [x]) (s.length + 1) s.length := by
    rw [isHeap_iff s hs] at hheap
    unfold TxByPriority.Len at hheap
    have e : ∀ k, k < s.length →
        TxByPriority.prio (s ++ [x]) k = TxByPriority.prio s k := by
      intro k hk
      unfold TxByPriority.prio
      rw [List.getD_eq_getElem?_getD, List.getD_eq_getElem?_getD, List.getElem?_append_left hk]
    constructor
    · intro c h0 hcn hc
      rw [e c (by omega), e ((c - 1) / 2) (by omega)]
      exact hheap c h0 (by omega)
    · intro c _ hcn hp _
      omega
  rw [hP]
  constructor
  · unfold TxByPriority.Len
    rw [upLoop_length]
    have hl : (s ++ [x]).length = s.length + 1 := by simp
    rw [hl]
    exact upLoop_isHeap s.length (s ++ [x]) s.length (s.length + 1) hsx (by omega) (by omega)
      (le_refl _) hex
  · exact (upLoop_perm s.length (s ++ [x]) s.length (by simp)).trans
      (List.perm_append_singleton x s)

/-- C6, as stated, fails: a priority can be NaN (`SetPriorityLvl` stores any
`float64`), and every comparison with NaN is false.  The collection
5, NaN, 4, 7 satisfies the heap condition (no element is `Less` than its
parent), yet popping returns 5, then 7, then 4, then NaN: the first pop does
not return the highest priority, and the sequence increases from 5 to 7. -/
theorem TxByPriority_pop_nan_counterexample :
    TxByPriority.IsHeap [prioTx 5, nanTx, prioTx 4, prioTx 7]
      (TxByPriority.Len [prioTx 5, nanTx, prioTx 4, prioTx 7])
    ∧ heap.popAll (TxByPriority.heapInterface Nat) 4 [prioTx 5, nanTx, prioTx 4, prioTx 7]
        = [prioTx 5, prioTx 7, prioTx 4, nanTx]
    ∧ Float64.ge (prioTx 5).Priority_lvl (prioTx 7).Priority_lvl = false
    ∧ Float64.gt (prioTx 7).Priority_lvl (prioTx 5).Priority_lvl = true
    ∧ ¬ List.Pairwise (fun a b => Float64.ge a.Priority_lvl b.Priority_lvl = true)
        (heap.popAll (TxByPriority.heapInterface Nat) 4
          [prioTx 5, nanTx, prioTx 4, prioTx 7]) := by
  have hpop : heap.popAll (TxByPriority.heapInterface Nat) 4
      [prioTx 5, nanTx, prioTx 4, prioTx 7] = [prioTx 5, prioTx 7, prioTx 4, nanTx] := by
    rfl
  have hge : Float64.ge (prioTx 5).Priority_lvl (prioTx 7).Priority_lvl = false := by decide
  refine ⟨?_, hpop, hge, by decide, ?_⟩
  · intro j h0 h4
    have h : j < 4 := h4
    interval_cases j <;> decide
  · rw [hpop]
    intro hc
    have h := (List.pairwise_cons.mp hc).1 (prioTx 7) (by simp)
    rw [hge] at h
    exact absurd h (by decide)

/-- C6, amended: for a collection without NaN priorities that satisfies the heap
condition of `container/heap` under `TxByPriority` (no element `Less` than its
parent), popping until it is empty returns every element once, in an order
whose `Priority_lvl` never increases; each `heap.Pop` on a non-empty heap
returns an element of the highest `Priority_lvl` in the collection and leaves a
heap of the others.  The heap condition is the one the package keeps:
`heap.Push` of an element that is not NaN preserves it and `heap.Init`
establishes it on any list without NaN. -/
theorem TxByPriority_pop_non_increasing {M : Type} (s : TxByPriority M)
    (hnan : TxByPriority.NoNaN s)
    (hheap : TxByPriority.IsHeap s (TxByPriority.Len s)) :
    List.Perm (heap.popAll (TxByPriority.heapInterface M) (TxByPriority.Len s) s) s
    ∧ List.Pairwise (fun a b => Float64.ge a.Priority_lvl b.Priority_lvl = true)
        (heap.popAll (TxByPriority.heapInterface M) (TxByPriority.Len s) s)
    ∧ (s ≠ [] → ∃ x s1, heap.Pop (TxByPriority.heapInterface M) s = some (x, s1)
        ∧ (∀ y ∈ s, Float64.ge x.Priority_lvl y.Priority_lvl = true)
        ∧ List.Perm (x :: s1) s
        ∧ TxByPriority.IsHeap s1 (TxByPriority.Len s1))
    ∧ (∀ x, x.Priority_lvl.isNaN = false →
        TxByPriority.IsHeap (heap.Push (TxByPriority.heapInterface M) s x)
          (TxByPriority.Len (heap.Push (TxByPriority.heapInterface M) s x))
        ∧ List.Perm (heap.Push (TxByPriority.heapInterface M) s x) (x :: s))
    ∧ (∀ l : TxByPriority M, TxByPriority.NoNaN l →
        TxByPriority.IsHeap (heap.Init (TxByPriority.heapInterface M) l)
          (TxByPriority.Len (heap.Init (TxByPriority.heapInterface M) l))
        ∧ List.Perm (heap.Init (TxByPriority.heapInterface M) l) l) := by
  obtain ⟨hp, hs⟩ := popAll_sorted (TxByPriority.Len s) s (le_refl _) hnan hheap
  refine ⟨hp, hs, ?_, fun x hx => heap_Push_isHeap s x hnan hx hheap,
    fun l hl => heap_Init_isHeap l hl⟩
  intro hne
  obtain ⟨x, s1, h1, _, h2, h3, h4⟩ := heap_Pop_spec s hne hnan hheap
  exact ⟨x, s1, h1, h2, h3, h4⟩

theorem TxByPriority_pop_non_increasing_witness :
    List.Pairwise (fun a b => Float64.ge a.Priority_lvl b.Priority_lvl = true)
      (heap.popAll (TxByPriority.heapInterface Nat) 4 [prioTx 7, prioTx 6, prioTx 2, prioTx 5]) :=
  (TxByPriority_pop_non_increasing [prioTx 7, prioTx 6, prioTx 2, prioTx 5]
    (fun x hx => by
      simp only [List.mem_cons, List.mem_singleton, List.not_mem_nil, or_false] at hx
      rcases hx with rfl | rfl | rfl | rfl <;> rfl)
    (fun j h0 h4 => by
      have h : j < 4 := h4
      interval_cases j <;> decide)).2.1

/-! ## The method set of `TxByPrice` -/

/-- C7 (the code): `transaction.go` declares `Len`, `Swap`, `Push` and `Pop` on
`TxByPrice` and no `Less`, so the type has the method set of neither
`sort.Interface` nor `heap.Interface`, unlike `TxByNonce` and `TxByPriority`;
what it has is a stack: `Pop` after `Push` gives back the pushed element. -/
theorem TxByPrice_lacks_Less :
    Method.Less ∉ TxByPrice.methods
    ∧ ¬ sortInterfaceMethods ⊆ TxByPrice.methods
    ∧ ¬ heapInterfaceMethods ⊆ TxByPrice.methods
    ∧ sortInterfaceMethods ⊆ TxByNonce.methods
    ∧ heapInterfaceMethods ⊆ TxByPriority.methods
    ∧ ∀ (s : TxByPrice Nat) (x : TxPoolTransaction Nat),
        TxByPrice.Pop (TxByPrice.Push s x) = some (x, s) := by
  refine ⟨by decide, by decide, by decide, by decide, by decide, ?_⟩
  intro s x
  unfold TxByPrice.Pop TxByPrice.Push
  simp

end modules

namespace modules

/-! ## Facts about `TxByNonce` -/

/-- C8: `TxByNonce.Less(i, j)` holds exactly when `s[i].Nonce < s[j].Nonce`; it is
a strict weak order (irreflexive, transitive, with transitive incomparability);
and an arrangement `s` of a list `l` in which no later element is `Less` than
an earlier one is a permutation of `l` that is non-decreasing in `Nonce`. -/
theorem TxByNonce_sorted_nondecreasing {M : Type} (l s : TxPoolTxs M)
    (hperm : List.Perm s l)
    (hsorted : ∀ i j, i < j → j < TxByNonce.Len s → TxByNonce.Less s j i = false) :
    (∀ (t : TxByNonce M) (i j : Nat) (hi : i < t.length) (hj : j < t.length),
        TxByNonce.Less t i j = true ↔ (t.get ⟨i, hi⟩).Nonce < (t.get ⟨j, hj⟩).Nonce)
    ∧ (∀ (t : TxByNonce M) (i : Nat), TxByNonce.Less t i i = false)
    ∧ (∀ (t : TxByNonce M) (i j k : Nat), TxByNonce.Less t i j = true →
        TxByNonce.Less t j k = true → TxByNonce.Less t i k = true)
    ∧ (∀ (t : TxByNonce M) (i j k : Nat), TxByNonce.Less t i j = false →
        TxByNonce.Less t j k = false → TxByNonce.Less t i k = false)
    ∧ List.Perm s l
    ∧ List.Pairwise (fun a b => a.Nonce ≤ b.Nonce) s := by
  refine ⟨?_, ?_, ?_, ?_, hperm, ?_⟩
  · intro t i j hi hj
    unfold TxByNonce.Less
    rw [List.getD_eq_getElem t default hi, List.getD_eq_getElem t default hj]
    simp
  · intro t i
    simp [TxByNonce.Less]
  · intro t i j k h1 h2
    simp only [TxByNonce.Less, decide_eq_true_eq] at h1 h2 ⊢
    omega
  · intro t i j k h1 h2
    simp only [TxByNonce.Less, decide_eq_false_iff_not] at h1 h2 ⊢
    omega
  · rw [List.pairwise_iff_getElem]
    intro i j hi hj hij
    have h := hsorted i j hij hj
    unfold TxByNonce.Less at h
    rw [List.getD_eq_getElem s default hi, List.getD_eq_getElem s default hj] at h
    simpa using h

theorem TxByNonce_sorted_nondecreasing_witness :
    List.Perm [nonceTx 1, nonceTx 2, nonceTx 2] [nonceTx 2, nonceTx 1, nonceTx 2]
    ∧ List.Pairwise (fun a b => a.Nonce ≤ b.Nonce) [nonceTx 1, nonceTx 2, nonceTx 2] :=
  (TxByNonce_sorted_nondecreasing [nonceTx 2, nonceTx 1, nonceTx 2]
    [nonceTx 1, nonceTx 2, nonceTx 2] (List.Perm.swap _ _ _)
    (fun i j hij hj => by
      have hj3 : j < 3 := hj
      interval_cases j <;> interval_cases i <;> rfl)).2.2.2.2

end modules

namespace filters

/-! ## Facts about the worker loop -/

theorem takeWhile_below_last :
    (List.finRange 256).takeWhile (fun i => decide (i < LastIndexSubscription))
      = [0, 1, 2, 3, 4, 5] := by
  set_option maxRecDepth 4000 in
  decide

theorem initIndex_apply (t : Typ) :
    initIndex t = if t < LastIndexSubscription then some ∅ else none := by
  unfold initIndex
  rw [takeWhile_below_last]
  simp only [List.foldl_cons, List.foldl_nil, Function.update_apply]
  by_cases h : t < LastIndexSubscription
  · rw [if_pos h]
    have h6 : t.val < 6 := h
    have ht : t = 0 ∨ t = 1 ∨ t = 2 ∨ t = 3 ∨ t = 4 ∨ t = 5 := by
      simp only [Fin.ext_iff]
      have e0 : ((0 : Typ) : ℕ) = 0 := rfl
      have e1 : ((1 : Typ) : ℕ) = 1 := rfl
      have e2 : ((2 : Typ) : ℕ) = 2 := rfl
      have e3 : ((3 : Typ) : ℕ) = 3 := rfl
      have e4 : ((4 : Typ) : ℕ) = 4 := rfl
      have e5 : ((5 : Typ) : ℕ) = 5 := rfl
      rw [e0, e1, e2, e3, e4, e5]
      omega
    rcases ht with h | h | h | h | h | h <;> subst h <;> rfl
  · rw [if_neg h]
    have h6 : ¬ t.val < 6 := h
    have n0 : t ≠ 0 := fun e => h6 (by rw [e]; decide)
    have n1 : t ≠ 1 := fun e => h6 (by rw [e]; decide)
    have n2 : t ≠ 2 := fun e => h6 (by rw [e]; decide)
    have n3 : t ≠ 3 := fun e => h6 (by rw [e]; decide)
    have n4 : t ≠ 4 := fun e => h6 (by rw [e]; decide)
    have n5 : t ≠ 5 := fun e => h6 (by rw [e]; decide)
    simp only [n0, n1, n2, n3, n4, n5, if_false]

theorem initState_buckets (t : Typ) (h : t < LastIndexSubscription) :
    (initState.index t).isSome := by
  unfold initState
  simp only [initIndex_apply, if_pos h, Option.isSome_some]

theorem present_assign (index index1 : filterIndex) (t : Typ) (f : subscription)
    (h : assign index t f = some index1) :
    present index1 t f.id = some f
    ∧ (∀ u, u ≠ t → index1 u = index u)
    ∧ (∀ u id, id ≠ f.id → present index1 u id = present index u id) := by
  unfold assign at h
  cases hb : index t with
  | none => rw [hb] at h; simp at h
  | some bucket =>
    rw [hb] at h
    simp only [Option.some.injEq] at h
    subst h
    refine ⟨?_, ?_, ?_⟩
    · simp [present]
    · intro u hu
      simp [Function.update_apply, hu]
    · intro u id hid
      unfold present
      by_cases hu : u = t
      · subst hu
        simp [hb, AList.lookup_insert_ne hid]
      · simp [Function.update_apply, hu]

theorem assign_isSome (index : filterIndex) (t : Typ) (f : subscription)
    (h : (index t).isSome) : ∃ index1, assign index t f = some index1 := by
  unfold assign
  cases hb : index t with
  | none => rw [hb] at h; simp at h
  | some bucket => exact ⟨_, rfl⟩

theorem present_delete (index : filterIndex) (t : Typ) (id : ID) :
    present (delete index t id) t id = none
    ∧ (∀ u, u ≠ t → delete index t id u = index u)
    ∧ (∀ u id1, id1 ≠ id → present (delete index t id) u id1 = present index u id1)
    ∧ (∀ u, present index u id = none → present (delete index t id) u id = none) := by
  unfold delete
  cases hb : index t with
  | none =>
    refine ⟨by simp [present, hb], fun _ _ => rfl, fun _ _ _ => rfl, fun _ h => h⟩
  | some bucket =>
    refine ⟨by simp [present], ?_, ?_, ?_⟩
    · intro u hu
      simp [Function.update_apply, hu]
    · intro u id1 hid
      unfold present
      by_cases hu : u = t
      · subst hu
        simp [hb, AList.lookup_erase_ne hid]
      · simp [Function.update_apply, hu]
    · intro u h
      unfold present at h ⊢
      by_cases hu : u = t
      · subst hu
        simp
      · simpa [Function.update_apply, hu] using h

theorem close_fresh (trace : List Action) (a : Action) (h : a ∉ trace) :
    close trace a = some (trace ++ [a]) := by
  unfold close
  rw [if_neg h]

/-- C10: in a worker state where every type below `LastIndexSubscription` has
its bucket, installing `f` (a type with a bucket, channel `installed` still
open) succeeds and uninstalling `f` in any state `s2` (channel `err` still
open) succeeds.  For `MinedAndPendingLogsSubscription` the install maps
`f.id` to `f` in the `LogsSubscription` and the `PendingLogsSubscription`
bucket and leaves every other bucket as it was, and the uninstall leaves
`f.id` absent from both.  For any other type the install maps `f.id` to `f` in
the bucket of `f.typ` and leaves every other bucket as it was, and the
uninstall leaves `f.id` absent from that bucket. -/
theorem install_uninstall_buckets {M : Type} (s s2 : State) (f : subscription)
    (hb : ∀ t, t < LastIndexSubscription → (s.index t).isSome)
    (ht : f.typ < LastIndexSubscription)
    (hi : Action.closeInstalled f.installed ∉ s.trace)
    (he : Action.closeErr f.err ∉ s2.trace) :
    ∃ s1 s3, step s (Msg.install f : Msg M) = some s1
      ∧ step s2 (Msg.uninstall f : Msg M) = some s3
      ∧ (f.typ = MinedAndPendingLogsSubscription →
          present s1.index LogsSubscription f.id = some f
          ∧ present s1.index PendingLogsSubscription f.id = some f
          ∧ (∀ t, t ≠ LogsSubscription → t ≠ PendingLogsSubscription → s1.index t = s.index t)
          ∧ present s3.index LogsSubscription f.id = none
          ∧ present s3.index PendingLogsSubscription f.id = none
          ∧ (∀ t, t ≠ LogsSubscription → t ≠ PendingLogsSubscription →
              s3.index t = s2.index t))
      ∧ (f.typ ≠ MinedAndPendingLogsSubscription →
          present s1.index f.typ f.id = some f
          ∧ (∀ t, t ≠ f.typ → s1.index t = s.index t)
          ∧ present s3.index f.typ f.id = none
          ∧ (∀ t, t ≠ f.typ → s3.index t = s2.index t)) := by
  have hci := close_fresh s.trace _ hi
  have hce := close_fresh s2.trace _ he
  by_cases hm : f.typ = MinedAndPendingLogsSubscription
  · obtain ⟨i1, h1⟩ := assign_isSome s.index LogsSubscription f (hb _ (by decide))
    have hp1 := present_assign _ _ _ _ h1
    have hpl : (i1 PendingLogsSubscription).isSome := by
      rw [hp1.2.1 _ (by decide)]
      exact hb _ (by decide)
    obtain ⟨i2, h2⟩ := assign_isSome i1 PendingLogsSubscription f hpl
    have hp2 := present_assign _ _ _ _ h2
    have hd1 := present_delete s2.index LogsSubscription f.id
    have hd2 := present_delete (delete s2.index LogsSubscription f.id)
      PendingLogsSubscription f.id
    refine ⟨⟨i2, s.trace ++ [Action.closeInstalled f.installed]⟩,
      ⟨delete (delete s2.index LogsSubscription f.id) PendingLogsSubscription f.id,
        s2.trace ++ [Action.closeErr f.err]⟩, ?_, ?_, ?_, ?_⟩
    · simp [step, hm, h1, h2, hci]
    · simp [step, hm, hce]
    · intro _
      refine ⟨?_, hp2.1, ?_, ?_, hd2.1, ?_⟩
      · have hx : i2 LogsSubscription = i1 LogsSubscription := hp2.2.1 _ (by decide)
        have hy := hp1.1
        unfold present at hy ⊢
        show ((i2 LogsSubscription).bind fun bucket => AList.lookup f.id bucket) = some f
        rw [hx]
        exact hy
      · intro t ht1 ht2
        show i2 t = s.index t
        rw [hp2.2.1 t ht2, hp1.2.1 t ht1]
      · exact hd2.2.2.2 _ hd1.1
      · intro t ht1 ht2
        show delete (delete s2.index LogsSubscription f.id) PendingLogsSubscription f.id t
          = s2.index t
        rw [hd2.2.1 t ht2, hd1.2.1 t ht1]
    · intro hn
      exact absurd hm hn
  · obtain ⟨i1, h1⟩ := assign_isSome s.index f.typ f (hb _ ht)
    have hp1 := present_assign _ _ _ _ h1
    have hd1 := present_delete s2.index f.typ f.id
    refine ⟨⟨i1, s.trace ++ [Action.closeInstalled f.installed]⟩,
      ⟨delete s2.index f.typ f.id, s2.trace ++ [Action.closeErr f.err]⟩, ?_, ?_, ?_, ?_⟩
    · simp [step, hm, h1, hci]
    · simp [step, hm, hce]
    · intro h
      exact absurd h hm
    · intro _
      exact ⟨hp1.1, hp1.2.1, hd1.1, hd1.2.1⟩

theorem install_uninstall_buckets_witness :
    ∃ s1 s3, step initState (Msg.install sampleMined : Msg Nat) = some s1
      ∧ step (State.mk initIndex [Action.closeInstalled 3])
          (Msg.uninstall sampleMined : Msg Nat) = some s3
      ∧ (sampleMined.typ = MinedAndPendingLogsSubscription →
          present s1.index LogsSubscription sampleMined.id = some sampleMined
          ∧ present s1.index PendingLogsSubscription sampleMined.id = some sampleMined
          ∧ (∀ t, t ≠ LogsSubscription → t ≠ PendingLogsSubscription →
              s1.index t = initState.index t)
          ∧ present s3.index LogsSubscription sampleMined.id = none
          ∧ present s3.index PendingLogsSubscription sampleMined.id = none
          ∧ (∀ t, t ≠ LogsSubscription → t ≠ PendingLogsSubscription →
              s3.index t = (State.mk initIndex [Action.closeInstalled 3]).index t))
      ∧ (sampleMined.typ ≠ MinedAndPendingLogsSubscription →
          present s1.index sampleMined.typ sampleMined.id = some sampleMined
          ∧ (∀ t, t ≠ sampleMined.typ → s1.index t = initState.index t)
          ∧ present s3.index sampleMined.typ sampleMined.id = none
          ∧ (∀ t, t ≠ sampleMined.typ →
              s3.index t = (State.mk initIndex [Action.closeInstalled 3]).index t)) :=
  install_uninstall_buckets initState (State.mk initIndex [Action.closeInstalled 3]) sampleMined
    initState_buckets (by decide) (by decide) (by decide)

end filters

namespace modules

/-! ## Facts about `CopyFrTransaction` -/

theorem foldl_append_copy {M : Type} (copyMsg : M → M) (msgs acc : List M) :
    msgs.foldl (fun acc msg => acc ++ [copyMsg msg]) acc = acc ++ msgs.map copyMsg := by
  induction msgs generalizing acc with
  | nil => simp
  | cons m ms ih => simp [ih]

/-- C14 (the code): after `tx.CopyFrTransaction(src)` the lock time and the
stored hash are those of `src`, but `TxMessages` is `len(src.TxMessages)` zero
messages followed by the copies of the messages of `src`: twice as long as
the original, with the copy of message `i` at index `len + i`.  For a source
with the one message `7` the result holds `[0, 7]`.  `Transaction.Hash` hashes
this padded copy, which still depends on the messages and the lock time only. -/
theorem CopyFrTransaction_pads_messages {M : Type} (copyMsg : M → M) (zero : M)
    (tx src : Transaction M) :
    (tx.CopyFrTransaction copyMsg zero src).Locktime = src.Locktime
    ∧ (tx.CopyFrTransaction copyMsg zero src).TxHash = src.TxHash
    ∧ (tx.CopyFrTransaction copyMsg zero src).TxMessages
        = List.replicate src.TxMessages.length zero ++ src.TxMessages.map copyMsg
    ∧ (tx.CopyFrTransaction copyMsg zero src).TxMessages.length = 2 * src.TxMessages.length
    ∧ (src.TxMessages ≠ [] →
        (tx.CopyFrTransaction copyMsg zero src).TxMessages.length ≠ src.TxMessages.length)
    ∧ (Transaction.CopyFrTransaction id 0 ⟨0, [], 0⟩ (⟨5, [7], 9⟩ : Transaction Nat)).TxMessages
        = [0, 7]
    ∧ (∀ (rlpHash : Transaction M → Hash) (a b : Transaction M),
        a.TxMessages = b.TxMessages → a.Locktime = b.Locktime →
        a.Hash rlpHash copyMsg zero = b.Hash rlpHash copyMsg zero) := by
  have hm : (tx.CopyFrTransaction copyMsg zero src).TxMessages
      = List.replicate src.TxMessages.length zero ++ src.TxMessages.map copyMsg := by
    unfold Transaction.CopyFrTransaction
    simp only [foldl_append_copy]
  have hl : (tx.CopyFrTransaction copyMsg zero src).TxMessages.length
      = 2 * src.TxMessages.length := by
    rw [hm]
    simp
    omega
  refine ⟨rfl, rfl, hm, hl, ?_, by decide, ?_⟩
  · intro hne
    rw [hl]
    have := List.length_pos.mpr hne
    omega
  · intro rlpHash a b h1 h2
    unfold Transaction.Hash Transaction.CopyFrTransaction
    simp only [h1, h2]

end modules

namespace filters

/-! ## The bucket keys of the index -/

theorem assign_isSome_eq (index index1 : filterIndex) (t : Typ) (f : subscription)
    (h : assign index t f = some index1) (u : Typ) :
    (index1 u).isSome = (index u).isSome := by
  unfold assign at h
  cases hb : index t with
  | none => rw [hb] at h; simp at h
  | some bucket =>
    rw [hb] at h
    simp only [Option.some.injEq] at h
    subst h
    by_cases hu : u = t
    · subst hu
      simp [hb]
    · simp [Function.update_apply, hu]

theorem delete_isSome_eq (index : filterIndex) (t : Typ) (id : ID) (u : Typ) :
    (delete index t id u).isSome = (index u).isSome := by
  unfold delete
  cases hb : index t with
  | none => rfl
  | some bucket =>
    by_cases hu : u = t
    · subst hu
      simp [hb]
    · simp [Function.update_apply, hu]

/-- What the install case does to the index. -/
theorem step_install_eq {M : Type} (s s1 : State) (f : subscription)
    (h : step s (Msg.install f : Msg M) = some s1) :
    (if f.typ = MinedAndPendingLogsSubscription then
        (assign s.index LogsSubscription f).bind
          (fun index => assign index PendingLogsSubscription f)
      else assign s.index f.typ f) = some s1.index
    ∧ close s.trace (Action.closeInstalled f.installed) = some s1.trace := by
  have hs : step s (Msg.install f : Msg M)
      = (if f.typ = MinedAndPendingLogsSubscription then
          (assign s.index LogsSubscription f).bind
            (fun index => assign index PendingLogsSubscription f)
        else assign s.index f.typ f).bind
        (fun index => (close s.trace (Action.closeInstalled f.installed)).bind
          (fun trace => some (State.mk index trace))) := by
    by_cases hm : f.typ = MinedAndPendingLogsSubscription
    · simp only [step, if_pos hm]
      rfl
    · simp only [step, if_neg hm]
      rfl
  rw [hs] at h
  cases hi : (if f.typ = MinedAndPendingLogsSubscription then
          (assign s.index LogsSubscription f).bind
            (fun index => assign index PendingLogsSubscription f)
        else assign s.index f.typ f) with
  | none => rw [hi] at h; simp at h
  | some index =>
    rw [hi] at h
    simp only [Option.some_bind] at h
    cases hc : close s.trace (Action.closeInstalled f.installed) with
    | none => rw [hc] at h; simp at h
    | some trace =>
      rw [hc] at h
      simp only [Option.some_bind, Option.some.injEq] at h
      subst h
      exact ⟨rfl, rfl⟩

/-- What the uninstall case does to the index. -/
theorem step_uninstall_eq {M : Type} (s s1 : State) (f : subscription)
    (h : step s (Msg.uninstall f : Msg M) = some s1) :
    s1.index = (if f.typ = MinedAndPendingLogsSubscription then
        delete (delete s.index LogsSubscription f.id) PendingLogsSubscription f.id
      else delete s.index f.typ f.id)
    ∧ close s.trace (Action.closeErr f.err) = some s1.trace := by
  have hs : step s (Msg.uninstall f : Msg M)
      = (close s.trace (Action.closeErr f.err)).bind
        (fun trace => some (State.mk
          (if f.typ = MinedAndPendingLogsSubscription then
            delete (delete s.index LogsSubscription f.id) PendingLogsSubscription f.id
          else delete s.index f.typ f.id) trace)) := rfl
  rw [hs] at h
  cases hc : close s.trace (Action.closeErr f.err) with
  | none => rw [hc] at h; simp at h
  | some trace =>
    rw [hc] at h
    simp only [Option.some_bind, Option.some.injEq] at h
    subst h
    exact ⟨rfl, rfl⟩

theorem step_isSome_eq {M : Type} (s s1 : State) (m : Msg M) (h : step s m = some s1)
    (u : Typ) : (s1.index u).isSome = (s.index u).isSome := by
  cases m with
  | ev e =>
    simp only [step, Option.some.injEq] at h
    subst h
    rfl
  | install f =>
    obtain ⟨hi, _⟩ := step_install_eq s s1 f h
    by_cases hm : f.typ = MinedAndPendingLogsSubscription
    · rw [if_pos hm] at hi
      cases h1 : assign s.index LogsSubscription f with
      | none => rw [h1] at hi; simp at hi
      | some i1 =>
        rw [h1] at hi
        simp only [Option.some_bind] at hi
        rw [assign_isSome_eq i1 s1.index _ f hi u, assign_isSome_eq s.index i1 _ f h1 u]
    · rw [if_neg hm] at hi
      exact assign_isSome_eq s.index s1.index _ f hi u
  | uninstall f =>
    obtain ⟨hi, _⟩ := step_uninstall_eq s s1 f h
    rw [hi]
    split_ifs
    · rw [delete_isSome_eq, delete_isSome_eq]
    · rw [delete_isSome_eq]
  | stop =>
    simp only [step, Option.some.injEq] at h
    subst h
    rfl

theorem run_isSome_eq {M : Type} (ms : List (Msg M)) :
    ∀ (s s1 : State), run s ms = some s1 → ∀ u, (s1.index u).isSome = (s.index u).isSome := by
  induction ms with
  | nil =>
    intro s s1 h u
    simp only [run, Option.some.injEq] at h
    subst h
    rfl
  | cons m rest ih =>
    intro s s1 h u
    cases m with
    | stop =>
      simp only [run, Option.some.injEq] at h
      subst h
      rfl
    | ev e =>
      simp only [run] at h
      cases h2 : step s (Msg.ev e : Msg M) with
      | none => rw [h2] at h; simp at h
      | some s2 =>
        rw [h2] at h
        simp only [Option.some_bind] at h
        rw [ih s2 s1 h u, step_isSome_eq s s2 _ h2 u]
    | install f =>
      simp only [run] at h
      cases h2 : step s (Msg.install f : Msg M) with
      | none => rw [h2] at h; simp at h
      | some s2 =>
        rw [h2] at h
        simp only [Option.some_bind] at h
        rw [ih s2 s1 h u, step_isSome_eq s s2 _ h2 u]
    | uninstall f =>
      simp only [run] at h
      cases h2 : step s (Msg.uninstall f : Msg M) with
      | none => rw [h2] at h; simp at h
      | some s2 =>
        rw [h2] at h
        simp only [Option.some_bind] at h
        rw [ih s2 s1 h u, step_isSome_eq s s2 _ h2 u]

theorem install_index_isSome (index : filterIndex) (f : subscription)
    (hb : ∀ t, t < LastIndexSubscription → (index t).isSome)
    (ht : f.typ < LastIndexSubscription) :
    ∃ index1, (if f.typ = MinedAndPendingLogsSubscription then
        (assign index LogsSubscription f).bind
          (fun index => assign index PendingLogsSubscription f)
      else assign index f.typ f) = some index1 := by
  by_cases hm : f.typ = MinedAndPendingLogsSubscription
  · rw [if_pos hm]
    obtain ⟨i1, h1⟩ := assign_isSome index LogsSubscription f (hb _ (by decide))
    have h2 : (i1 PendingLogsSubscription).isSome := by
      rw [assign_isSome_eq index i1 _ f h1]
      exact hb _ (by decide)
    obtain ⟨i2, h3⟩ := assign_isSome i1 PendingLogsSubscription f h2
    exact ⟨i2, by rw [h1, Option.some_bind, h3]⟩
  · rw [if_neg hm]
    exact assign_isSome index f.typ f (hb _ ht)

theorem install_succeeds {M : Type} (s : State) (f : subscription)
    (hb : ∀ t, t < LastIndexSubscription → (s.index t).isSome)
    (ht : f.typ < LastIndexSubscription)
    (hi : Action.closeInstalled f.installed ∉ s.trace) :
    ∃ s1, step s (Msg.install f : Msg M) = some s1
      ∧ s1.trace = s.trace ++ [Action.closeInstalled f.installed] := by
  obtain ⟨i1, h1⟩ := install_index_isSome s.index f hb ht
  refine ⟨State.mk i1 (s.trace ++ [Action.closeInstalled f.installed]), ?_, rfl⟩
  by_cases hm : f.typ = MinedAndPendingLogsSubscription
  · rw [if_pos hm] at h1
    simp only [step, if_pos hm, h1, close_fresh s.trace _ hi]
    rfl
  · rw [if_neg hm] at h1
    simp only [step, if_neg hm, h1, close_fresh s.trace _ hi]
    rfl

theorem uninstall_succeeds {M : Type} (s : State) (f : subscription)
    (he : Action.closeErr f.err ∉ s.trace) :
    ∃ s1, step s (Msg.uninstall f : Msg M) = some s1 := by
  refine ⟨State.mk (if f.typ = MinedAndPendingLogsSubscription then
      delete (delete s.index LogsSubscription f.id) PendingLogsSubscription f.id
    else delete s.index f.typ f.id) (s.trace ++ [Action.closeErr f.err]), ?_⟩
  simp only [step, close_fresh s.trace _ he]
  rfl

theorem eventLoop_buckets {M : Type} (ms : List (Msg M)) (s : State)
    (hrun : eventLoop ms = some s) (t : Typ) :
    (s.index t).isSome ↔ t < LastIndexSubscription := by
  unfold eventLoop at hrun
  rw [run_isSome_eq ms initState s hrun t]
  unfold initState
  simp only [initIndex_apply]
  by_cases h : t < LastIndexSubscription
  · simp [h]
  · simp [h]

/-- C13: when the worker enters its loop, every type below
`LastIndexSubscription` (so each of `UnknownSubscription`, `LogsSubscription`,
`PendingLogsSubscription`, `PendingTransactionsSubscription` and
`BlocksSubscription`) has an empty bucket; in every state the loop reaches the
types with a bucket are exactly these; no step creates or removes a bucket;
and an install of a subscription of one of these types finds the bucket it
writes to, so it succeeds whenever the channel `installed` is still open. -/
theorem bucket_keys_invariant {M : Type} (ms : List (Msg M)) (s : State)
    (hrun : eventLoop ms = some s) :
    (∀ t, t < LastIndexSubscription → initState.index t = some ∅)
    ∧ (∀ t, (s.index t).isSome ↔ t < LastIndexSubscription)
    ∧ ((s.index UnknownSubscription).isSome ∧ (s.index LogsSubscription).isSome
        ∧ (s.index PendingLogsSubscription).isSome
        ∧ (s.index PendingTransactionsSubscription).isSome
        ∧ (s.index BlocksSubscription).isSome)
    ∧ (∀ (m : Msg M) (s1 : State), step s m = some s1 →
        ∀ t, (s1.index t).isSome = (s.index t).isSome)
    ∧ (∀ f : subscription, f.typ < LastIndexSubscription →
        ∃ index1, (if f.typ = MinedAndPendingLogsSubscription then
            (assign s.index LogsSubscription f).bind
              (fun index => assign index PendingLogsSubscription f)
          else assign s.index f.typ f) = some index1)
    ∧ (∀ f : subscription, f.typ < LastIndexSubscription →
        Action.closeInstalled f.installed ∉ s.trace →
        ∃ s1, step s (Msg.install f : Msg M) = some s1)
    ∧ (∀ f : subscription, Action.closeErr f.err ∉ s.trace →
        ∃ s1, step s (Msg.uninstall f : Msg M) = some s1)
    ∧ (∀ e : modules.TxPreEvent M, ∃ s1, step s (Msg.ev e) = some s1) := by
  have hk := eventLoop_buckets ms s hrun
  have hb : ∀ t, t < LastIndexSubscription → (s.index t).isSome := fun t ht => (hk t).mpr ht
  refine ⟨?_, hk, ⟨hb _ (by decide), hb _ (by decide), hb _ (by decide), hb _ (by decide),
    hb _ (by decide)⟩, ?_, ?_, ?_, ?_, ?_⟩
  · intro t ht
    unfold initState
    simp only [initIndex_apply, if_pos ht]
  · intro m s1 h t
    exact step_isSome_eq s s1 m h t
  · intro f ht
    exact install_index_isSome s.index f hb ht
  · intro f ht hi
    obtain ⟨s1, h1, _⟩ := install_succeeds s f hb ht hi
    exact ⟨s1, h1⟩
  · intro f he
    exact uninstall_succeeds s f he
  · intro e
    exact ⟨_, rfl⟩

theorem bucket_keys_invariant_witness :
    ∃ s, eventLoop [(Msg.install sampleMined : Msg Nat)] = some s
      ∧ ∀ t, (s.index t).isSome ↔ t < LastIndexSubscription := by
  obtain ⟨s1, h1, _⟩ := install_succeeds initState sampleMined initState_buckets
    (by decide) (by decide)
  have hrun : eventLoop [(Msg.install sampleMined : Msg Nat)] = some s1 := by
    unfold eventLoop
    simp only [run]
    rw [h1]
    rfl
  exact ⟨s1, hrun, (bucket_keys_invariant [(Msg.install sampleMined : Msg Nat)] s1 hrun).2.1⟩

/-- Outside these types there is no bucket: an install of a subscription whose
type is `LastIndexSubscription` or above writes to a nil map and panics. -/
theorem install_without_bucket_panics {M : Type} (ms : List (Msg M)) (s : State)
    (hrun : eventLoop ms = some s) (f : subscription)
    (ht : ¬ f.typ < LastIndexSubscription) :
    step s (Msg.install f : Msg M) = none := by
  have hnone : s.index f.typ = none := by
    have h := (eventLoop_buckets ms s hrun f.typ).not.mpr ht
    simpa using h
  have hm : f.typ ≠ MinedAndPendingLogsSubscription := by
    intro e
    rw [e] at ht
    exact ht (by decide)
  simp only [step, if_neg hm, assign, hnone]
  rfl

/-! ## Deliveries after an uninstall -/

theorem mem_held_iff (index : filterIndex) (t : Typ) (g : subscription) :
    g ∈ held index t ↔ ∃ id, present index t id = some g := by
  unfold held present
  cases hb : index t with
  | none => simp
  | some bucket =>
    simp only [List.mem_map, Option.some_bind]
    constructor
    · rintro ⟨x, hx, rfl⟩
      exact ⟨x.1, AList.mem_lookup_iff.mpr hx⟩
    · rintro ⟨id, hid⟩
      exact ⟨⟨id, g⟩, AList.mem_lookup_iff.mp hid, rfl⟩

theorem present_assign_cases (index index1 : filterIndex) (t : Typ) (f : subscription)
    (h : assign index t f = some index1) (u : Typ) (id : ID) (g : subscription)
    (hg : present index1 u id = some g) :
    (u = t ∧ id = f.id ∧ g = f) ∨ present index u id = some g := by
  obtain ⟨h1, h2, h3⟩ := present_assign index index1 t f h
  by_cases hid : id = f.id
  · by_cases hu : u = t
    · subst hu
      subst hid
      rw [h1] at hg
      exact Or.inl ⟨rfl, rfl, (Option.some.inj hg).symm⟩
    · right
      unfold present at hg ⊢
      rw [h2 u hu] at hg
      exact hg
  · right
    rw [h3 u id hid] at hg
    exact hg

theorem present_delete_cases (index : filterIndex) (t : Typ) (id0 : ID) (u : Typ) (id : ID)
    (g : subscription) (hg : present (delete index t id0) u id = some g) :
    present index u id = some g ∧ ¬ (u = t ∧ id = id0) := by
  obtain ⟨h1, h2, h3, _⟩ := present_delete index t id0
  by_cases hid : id = id0
  · by_cases hu : u = t
    · subst hu
      subst hid
      rw [h1] at hg
      exact absurd hg (by simp)
    · refine ⟨?_, fun hc => hu hc.1⟩
      unfold present at hg ⊢
      rw [h2 u hu] at hg
      exact hg
  · refine ⟨?_, fun hc => hid hc.2⟩
    rw [h3 u id hid] at hg
    exact hg

/-- The entries of the pending-transactions bucket after a step: those from
before, and the installed subscription if it has that type. -/
theorem step_present_cases {M : Type} (s s1 : State) (m : Msg M) (h : step s m = some s1)
    (id : ID) (g : subscription)
    (hg : present s1.index PendingTransactionsSubscription id = some g) :
    (m = Msg.install g ∧ g.id = id ∧ g.typ = PendingTransactionsSubscription)
    ∨ (present s.index PendingTransactionsSubscription id = some g
        ∧ ∀ f, m = Msg.uninstall f → ¬ (f.typ = PendingTransactionsSubscription ∧ id = f.id)) := by
  cases m with
  | ev e =>
    simp only [step, Option.some.injEq] at h
    subst h
    exact Or.inr ⟨hg, fun f hf => by cases hf⟩
  | stop =>
    simp only [step, Option.some.injEq] at h
    subst h
    exact Or.inr ⟨hg, fun f hf => by cases hf⟩
  | install f =>
    obtain ⟨hi, _⟩ := step_install_eq s s1 f h
    by_cases hm : f.typ = MinedAndPendingLogsSubscription
    · rw [if_pos hm] at hi
      cases h1 : assign s.index LogsSubscription f with
      | none => rw [h1] at hi; simp at hi
      | some i1 =>
        rw [h1] at hi
        simp only [Option.some_bind] at hi
        right
        refine ⟨?_, fun f0 hf => by cases hf⟩
        rcases present_assign_cases i1 s1.index _ f hi _ id g hg with ⟨hu, _, _⟩ | hg1
        · exact absurd hu (by decide)
        · rcases present_assign_cases s.index i1 _ f h1 _ id g hg1 with ⟨hu, _, _⟩ | hg2
          · exact absurd hu (by decide)
          · exact hg2
    · rw [if_neg hm] at hi
      rcases present_assign_cases s.index s1.index _ f hi _ id g hg with ⟨hu, hid, hgf⟩ | hg1
      · left
        subst hgf
        exact ⟨rfl, hid.symm, hu.symm⟩
      · exact Or.inr ⟨hg1, fun f0 hf => by cases hf⟩
  | uninstall f =>
    obtain ⟨hi, _⟩ := step_uninstall_eq s s1 f h
    rw [hi] at hg
    right
    by_cases hm : f.typ = MinedAndPendingLogsSubscription
    · rw [if_pos hm] at hg
      obtain ⟨hg1, _⟩ := present_delete_cases _ _ _ _ _ _ hg
      obtain ⟨hg2, _⟩ := present_delete_cases _ _ _ _ _ _ hg1
      refine ⟨hg2, ?_⟩
      intro f0 hf hc
      cases hf
      rw [hm] at hc
      exact absurd hc.1 (by decide)
    · rw [if_neg hm] at hg
      obtain ⟨hg1, hn⟩ := present_delete_cases _ _ _ _ _ _ hg
      refine ⟨hg1, ?_⟩
      intro f0 hf hc
      cases hf
      exact hn ⟨hc.1.symm, hc.2⟩

theorem keyed_initState : Keyed initState.index := by
  intro id g hg
  have e : initState.index PendingTransactionsSubscription = some ∅ := by
    unfold initState
    simp only [initIndex_apply]
    exact if_pos (by decide)
  unfold present at hg
  rw [e] at hg
  simp at hg

theorem step_keyed {M : Type} (s s1 : State) (m : Msg M) (h : step s m = some s1)
    (hk : Keyed s.index) : Keyed s1.index := by
  intro id g hg
  rcases step_present_cases s s1 m h id g hg with ⟨_, h1, h2⟩ | ⟨h1, _⟩
  · exact ⟨h1, h2⟩
  · exact hk id g h1

theorem run_keyed {M : Type} (ms : List (Msg M)) :
    ∀ (s s1 : State), run s ms = some s1 → Keyed s.index → Keyed s1.index := by
  induction ms with
  | nil =>
    intro s s1 h hk
    simp only [run, Option.some.injEq] at h
    subst h
    exact hk
  | cons m rest ih =>
    intro s s1 h hk
    by_cases hstop : m = Msg.stop
    · subst hstop
      simp only [run, Option.some.injEq] at h
      subst h
      exact hk
    · have hr : run s (m :: rest) = (step s m).bind (fun s2 => run s2 rest) := by
        cases m with
        | stop => exact absurd rfl hstop
        | ev e => rfl
        | install f => rfl
        | uninstall f => rfl
      rw [hr] at h
      cases h2 : step s m with
      | none => rw [h2] at h; simp at h
      | some s2 =>
        rw [h2] at h
        simp only [Option.some_bind] at h
        exact ih s2 s1 h (step_keyed s s2 m h2 hk)

theorem run_not_held {M : Type} (f : subscription) (ms : List (Msg M)) :
    ∀ (s s1 : State), run s ms = some s1 → Msg.install f ∉ ms →
      f ∉ held s.index PendingTransactionsSubscription →
      f ∉ held s1.index PendingTransactionsSubscription := by
  induction ms with
  | nil =>
    intro s s1 h _ hn
    simp only [run, Option.some.injEq] at h
    subst h
    exact hn
  | cons m rest ih =>
    intro s s1 h hni hn
    by_cases hstop : m = Msg.stop
    · subst hstop
      simp only [run, Option.some.injEq] at h
      subst h
      exact hn
    · have hr : run s (m :: rest) = (step s m).bind (fun s2 => run s2 rest) := by
        cases m with
        | stop => exact absurd rfl hstop
        | ev e => rfl
        | install f => rfl
        | uninstall f => rfl
      rw [hr] at h
      cases h2 : step s m with
      | none => rw [h2] at h; simp at h
      | some s2 =>
        rw [h2] at h
        simp only [Option.some_bind] at h
        apply ih s2 s1 h (fun hc => hni (List.mem_cons_of_mem m hc))
        intro hmem
        obtain ⟨id, hid⟩ := (mem_held_iff _ _ _).mp hmem
        rcases step_present_cases s s2 m h2 id f hid with ⟨hm, _, _⟩ | ⟨h1, _⟩
        · exact hni (by rw [hm]; exact List.mem_cons_self _ _)
        · exact hn ((mem_held_iff _ _ _).mpr ⟨id, h1⟩)

theorem uninstall_not_held {M : Type} (s s1 : State) (f : subscription)
    (hk : Keyed s.index) (h : step s (Msg.uninstall f : Msg M) = some s1) :
    f ∉ held s1.index PendingTransactionsSubscription
    ∧ Action.closeErr f.err ∈ s1.trace := by
  constructor
  · intro hmem
    obtain ⟨id, hid⟩ := (mem_held_iff _ _ _).mp hmem
    rcases step_present_cases s s1 _ h id f hid with ⟨hm, _, _⟩ | ⟨h1, h2⟩
    · cases hm
    · obtain ⟨hfid, hft⟩ := hk id f h1
      exact h2 f rfl ⟨hft, hfid.symm⟩
  · obtain ⟨_, hc⟩ := step_uninstall_eq s s1 f h
    unfold close at hc
    split_ifs at hc
    simp only [Option.some.injEq] at hc
    rw [← hc]
    simp

theorem broadcast_eq_held {M : Type} (index : filterIndex) (e : modules.TxPreEvent M) :
    broadcast index (some (Event.TxPreEvent e))
      = (held index PendingTransactionsSubscription).map
          (fun g => Action.send g.hashes e.Tx.TxHash) := by
  unfold broadcast held
  cases index PendingTransactionsSubscription with
  | none => rfl
  | some bucket => simp [List.map_map, Function.comp]

theorem held_initState : held initState.index PendingTransactionsSubscription = [] := by
  have e : initState.index PendingTransactionsSubscription = some ∅ := by
    unfold initState
    simp only [initIndex_apply]
    exact if_pos (by decide)
  unfold held
  rw [e]
  rfl

/-- A subscription held after a run was held before it or installed during it. -/
theorem run_held_installed {M : Type} (ms : List (Msg M)) :
    ∀ (s s1 : State), run s ms = some s1 →
      ∀ g ∈ held s1.index PendingTransactionsSubscription,
        Msg.install g ∈ ms ∨ g ∈ held s.index PendingTransactionsSubscription := by
  induction ms with
  | nil =>
    intro s s1 h g hg
    simp only [run, Option.some.injEq] at h
    subst h
    exact Or.inr hg
  | cons m rest ih =>
    intro s s1 h g hg
    by_cases hstop : m = Msg.stop
    · subst hstop
      simp only [run, Option.some.injEq] at h
      subst h
      exact Or.inr hg
    · have hr : run s (m :: rest) = (step s m).bind (fun s2 => run s2 rest) := by
        cases m with
        | stop => exact absurd rfl hstop
        | ev e => rfl
        | install f => rfl
        | uninstall f => rfl
      rw [hr] at h
      cases h2 : step s m with
      | none => rw [h2] at h; simp at h
      | some s2 =>
        rw [h2] at h
        simp only [Option.some_bind] at h
        rcases ih s2 s1 h g hg with hin | hheld
        · exact Or.inl (List.mem_cons_of_mem m hin)
        · obtain ⟨id, hid⟩ := (mem_held_iff _ _ _).mp hheld
          rcases step_present_cases s s2 m h2 id g hid with ⟨hm, _, _⟩ | ⟨h1, _⟩
          · exact Or.inl (by rw [hm]; exact List.mem_cons_self _ _)
          · exact Or.inr ((mem_held_iff _ _ _).mpr ⟨id, h1⟩)

/-- C11, as stated, fails: `SubscribePendingTxEvents` stores the channel of its
caller, so two subscriptions can share one `hashes` channel.  Install
`samplePending`, install `sharingPending` (same `hashes` channel), uninstall
`samplePending`: its `err` channel is closed and its record is gone from the
bucket, yet the next broadcast sends the hash on its `hashes` channel. -/
theorem delivery_after_uninstall_counterexample :
    ∃ s0 s1 s2 : State,
      eventLoop [(Msg.install samplePending : Msg Nat), Msg.install sharingPending] = some s0
      ∧ step s0 (Msg.uninstall samplePending : Msg Nat) = some s1
      ∧ s1.trace = [Action.closeInstalled samplePending.installed,
          Action.closeInstalled sharingPending.installed, Action.closeErr samplePending.err]
      ∧ samplePending ∉ held s1.index PendingTransactionsSubscription
      ∧ sharingPending ∈ held s1.index PendingTransactionsSubscription
      ∧ sharingPending.hashes = samplePending.hashes
      ∧ Action.send samplePending.hashes sampleEvent.Tx.TxHash
          ∈ broadcast s1.index (some (Event.TxPreEvent sampleEvent))
      ∧ step s1 (Msg.ev sampleEvent) = some s2
      ∧ Action.send samplePending.hashes sampleEvent.Tx.TxHash ∈ s2.trace := by
  obtain ⟨sa, ha, hta⟩ := @install_succeeds Nat initState samplePending initState_buckets
    (by decide) (by decide)
  have hba : ∀ t, t < LastIndexSubscription → (sa.index t).isSome := by
    intro t ht
    rw [step_isSome_eq initState sa _ ha t]
    exact initState_buckets t ht
  have hta2 : sa.trace = [Action.closeInstalled samplePending.installed] := by
    rw [hta]
    rfl
  obtain ⟨s0, hb, htb⟩ := @install_succeeds Nat sa sharingPending hba (by decide)
    (by rw [hta2]; decide)
  have hrun0 : eventLoop [(Msg.install samplePending : Msg Nat), Msg.install sharingPending]
      = some s0 := by
    unfold eventLoop
    simp only [run]
    rw [ha]
    simp only [Option.some_bind]
    rw [hb]
    rfl
  have htb2 : s0.trace = [Action.closeInstalled samplePending.installed,
      Action.closeInstalled sharingPending.installed] := by
    rw [htb, hta2]
    rfl
  have he : Action.closeErr samplePending.err ∉ s0.trace := by
    rw [htb2]
    decide
  obtain ⟨s1, h1⟩ := @uninstall_succeeds Nat s0 samplePending he
  obtain ⟨hi1, hc1⟩ := step_uninstall_eq s0 s1 samplePending h1
  have ht1 : s1.trace = [Action.closeInstalled samplePending.installed,
      Action.closeInstalled sharingPending.installed, Action.closeErr samplePending.err] := by
    rw [close_fresh s0.trace _ he, htb2] at hc1
    exact (Option.some.inj hc1).symm
  have hk0 : Keyed s0.index := run_keyed _ initState s0 hrun0 keyed_initState
  obtain ⟨hn1, _⟩ := uninstall_not_held s0 s1 samplePending hk0 h1
  have hg0 : present s0.index PendingTransactionsSubscription sharingPending.id
      = some sharingPending := by
    obtain ⟨hi, _⟩ := step_install_eq sa s0 sharingPending hb
    rw [if_neg (by decide)] at hi
    exact (present_assign sa.index s0.index _ sharingPending hi).1
  have hg1 : present s1.index PendingTransactionsSubscription sharingPending.id
      = some sharingPending := by
    rw [hi1, if_neg (by decide)]
    rw [(present_delete s0.index samplePending.typ samplePending.id).2.2.1
      PendingTransactionsSubscription sharingPending.id (by decide)]
    exact hg0
  have hheld : sharingPending ∈ held s1.index PendingTransactionsSubscription :=
    (mem_held_iff _ _ _).mpr ⟨_, hg1⟩
  have hsend : Action.send samplePending.hashes sampleEvent.Tx.TxHash
      ∈ broadcast s1.index (some (Event.TxPreEvent sampleEvent)) := by
    rw [broadcast_eq_held, List.mem_map]
    exact ⟨sharingPending, hheld, rfl⟩
  refine ⟨s0, s1, _, hrun0, h1, ht1, hn1, hheld, rfl, hsend, rfl, ?_⟩
  exact List.mem_append_right _ hsend

/-- C11, amended: let the worker, in a state `s0` it has reached, process the
uninstall of `f` (reaching `s1`, with the `err` channel of `f` closed), and then
any messages `later` among which there is no install of `f` (reaching `s2`).
Then `f` is in the pending-transactions bucket neither in `s1` nor in `s2`, and
a broadcast in `s2` sends exactly to the subscriptions held in that bucket, each
of them different from `f` and installed by a message of the run; when no
other subscription installed in the run was given the `hashes` channel of `f`,
nothing is sent on `f.hashes`. -/
theorem no_delivery_after_uninstall {M : Type} (ms0 later : List (Msg M)) (f : subscription)
    (s0 s1 s2 : State)
    (h0 : eventLoop ms0 = some s0)
    (hu : step s0 (Msg.uninstall f : Msg M) = some s1)
    (hni : Msg.install f ∉ later)
    (hrun : run s1 later = some s2) :
    Action.closeErr f.err ∈ s1.trace
    ∧ f ∉ held s1.index PendingTransactionsSubscription
    ∧ f ∉ held s2.index PendingTransactionsSubscription
    ∧ ∀ e : modules.TxPreEvent M,
        step s2 (Msg.ev e)
          = some (State.mk s2.index
              (s2.trace ++ (held s2.index PendingTransactionsSubscription).map
                (fun g => Action.send g.hashes e.Tx.TxHash)))
        ∧ (∀ a ∈ broadcast s2.index (some (Event.TxPreEvent e)),
            ∃ g ∈ held s2.index PendingTransactionsSubscription,
              g ≠ f ∧ Msg.install g ∈ ms0 ++ later ∧ a = Action.send g.hashes e.Tx.TxHash)
        ∧ ((∀ g, Msg.install g ∈ ms0 ++ later → g ≠ f → g.hashes ≠ f.hashes) →
            ∀ h, Action.send f.hashes h ∉ broadcast s2.index (some (Event.TxPreEvent e))) := by
  have hk0 : Keyed s0.index := run_keyed ms0 initState s0 h0 keyed_initState
  obtain ⟨hn1, hc⟩ := uninstall_not_held s0 s1 f hk0 hu
  have hn2 := run_not_held f later s1 s2 hrun hni hn1
  have hinst : ∀ g ∈ held s2.index PendingTransactionsSubscription,
      Msg.install g ∈ ms0 ++ later := by
    intro g hg
    rcases run_held_installed later s1 s2 hrun g hg with hl | h1
    · exact List.mem_append_right _ hl
    · obtain ⟨id, hid⟩ := (mem_held_iff _ _ _).mp h1
      rcases step_present_cases s0 s1 _ hu id g hid with ⟨hm, _, _⟩ | ⟨hp0, _⟩
      · cases hm
      · have hheld0 : g ∈ held s0.index PendingTransactionsSubscription :=
          (mem_held_iff _ _ _).mpr ⟨id, hp0⟩
        rcases run_held_installed ms0 initState s0 h0 g hheld0 with hl | hinit
        · exact List.mem_append_left _ hl
        · rw [held_initState] at hinit
          exact absurd hinit (List.not_mem_nil g)
  refine ⟨hc, hn1, hn2, ?_⟩
  intro e
  refine ⟨?_, ?_, ?_⟩
  · simp only [step, broadcast_eq_held]
  · intro a ha
    rw [broadcast_eq_held, List.mem_map] at ha
    obtain ⟨g, hg, rfl⟩ := ha
    exact ⟨g, hg, fun hgf => hn2 (hgf ▸ hg), hinst g hg, rfl⟩
  · intro hsh h ha
    rw [broadcast_eq_held, List.mem_map] at ha
    obtain ⟨g, hg, hga⟩ := ha
    simp only [Action.send.injEq] at hga
    exact hsh g (hinst g hg) (fun hgf => hn2 (hgf ▸ hg)) hga.1

theorem no_delivery_after_uninstall_witness :
    ∃ s0 s1 s2, eventLoop [(Msg.install samplePending : Msg Nat)] = some s0
      ∧ step s0 (Msg.uninstall samplePending : Msg Nat) = some s1
      ∧ run s1 [Msg.ev sampleEvent] = some s2
      ∧ samplePending ∉ held s2.index PendingTransactionsSubscription
      ∧ ∀ h, Action.send samplePending.hashes h
          ∉ broadcast s2.index (some (Event.TxPreEvent sampleEvent)) := by
  obtain ⟨s0, h0, ht0⟩ := install_succeeds initState samplePending initState_buckets
    (by decide) (by decide)
  have hrun0 : eventLoop [(Msg.install samplePending : Msg Nat)] = some s0 := by
    unfold eventLoop
    simp only [run]
    rw [h0]
    rfl
  have he : Action.closeErr samplePending.err ∉ s0.trace := by
    rw [ht0]
    decide
  obtain ⟨s1, h1⟩ := uninstall_succeeds s0 samplePending he
  have hw := no_delivery_after_uninstall [(Msg.install samplePending : Msg Nat)]
    [Msg.ev sampleEvent] samplePending s0 s1 _ hrun0 h1 (by simp) rfl
  refine ⟨s0, s1, _, hrun0, h1, rfl, hw.2.2.1, (hw.2.2.2 sampleEvent).2.2 ?_⟩
  intro g hg hne
  simp only [List.singleton_append, List.mem_cons, Msg.install.injEq, List.mem_singleton,
    reduceCtorEq, or_false, List.not_mem_nil] at hg
  exact absurd hg hne

end filters
